import Mathlib

/-!
# Object subsystem of goja (`object.go`)

A shallow embedding of `baseObject` and its property protocol
(`getPropStr`, `getStr`, `putStr`, `deleteStr`, `_defineOwnProperty`,
`defineOwnProperty`, `_putProp`) together with theorems about them.

Modelling decisions.

* Go pointers `*Object` and `*valueProperty` are addresses into two stores kept
  in `Runtime` (`objects` and `props`).  A property map entry is either a bare
  value or the address of a `valueProperty` record, so in-place updates of a
  record (`prop.set`, the merge phase of `_defineOwnProperty`) are updates of the
  `props` store.
* `o.val.self` dispatch is the `self` tag stored with every `baseObject`.
* A Go `Value` that may be `nil` is an `Option`.  A map can bind a key to the nil
  `Value` (`swap` stores one through `put` when it moves a hole), so an entry of
  `values` has a third form `nil`: the two-value read `v, exists := m[k]` tests
  the binding, the comparison `m[k] != nil` tests the entry.
* `typeErrorResult(throw, ...)` panics with a TypeError when `throw` is set and
  returns otherwise; the text of the diagnostic is not part of the embedding.
* Calls into the virtual machine (getter and setter invocation) are a parameter
  `Host`.
* Walks of the prototype chain are bounded by a fuel argument.
-/

namespace Goja

/-- Address of an `*Object` in `Runtime.objects`. -/
abbrev Ref := Nat

/-- Address of a `*valueProperty` in `Runtime.props`. -/
abbrev PropRef := Nat

/-- Modelled from the spec: the `Value` sum type, which is declared outside
`object.go` ("primitives: undefined, null, boolean, number, string; plus object
reference").  Numbers are the integer values built by `valueInt`; `nilObject` is
a nil `*Object` boxed in the `Value` interface, which `getOwnProp` can produce. -/
inductive Value where
  | undefined
  | null
  | bool (b : Bool)
  | int (n : Int)
  | string (s : String)
  | object (r : Ref)
  | nilObject
  deriving DecidableEq, Repr

/-- Conversion of a Go `*Object` (possibly nil) to the `Value` interface. -/
def Value.ofObjectPtr : Option Ref → Value
  | some r => .object r
  | none => .nilObject

/-- Pointer obtained by `x, _ := v.(*Object)` on a possibly nil `Value`. -/
def objectPtr : Option Value → Option Ref
  | some (.object r) => some r
  | _ => none

/-- Modelled from the spec: `Value.ToBoolean`, declared outside `object.go`
(the ECMAScript ToBoolean conversion). -/
def Value.ToBoolean : Value → Bool
  | .undefined => false
  | .null => false
  | .bool b => b
  | .int n => decide (n ≠ 0)
  | .string s => decide (s ≠ "")
  | .object _ => true
  | .nilObject => true

/-- Modelled from the spec: `Value.SameAs`, declared outside `object.go`
("SameValue"); the argument may be a nil `Value`. -/
def Value.SameAs (v : Value) (other : Option Value) : Bool :=
  decide (other = some v)

/-- The fields of `valueProperty` that `object.go` reads and writes; the zero
value of the Go struct is the default record. -/
structure valueProperty where
  value : Option Value := none
  writable : Bool := false
  configurable : Bool := false
  enumerable : Bool := false
  accessor : Bool := false
  getterFunc : Option Ref := none
  setterFunc : Option Ref := none
  deriving DecidableEq, Repr

/-- An entry of `baseObject.values`: a bare value, a `*valueProperty`, or the nil
`Value` under a key that is bound to nil. -/
inductive Entry where
  | val (v : Value)
  | prop (p : PropRef)
  | nil
  deriving DecidableEq, Repr

/-- An entry as a possibly nil `Value`. -/
@[simp] def Entry.toOption : Entry → Option Entry
  | .nil => none
  | e => some e

/-- A possibly nil `Value` as it is stored in the map. -/
@[simp] def Entry.ofValue : Option Value → Entry
  | some v => .val v
  | none => .nil

/-- The implementation behind `Object.self`, which selects the overrides of
`getPropStr`, `hasOwnPropertyStr` and `assertCallable`.  For the native kinds the
flag records whether the host callable `f` is non-nil. -/
inductive objectImpl where
  | baseObject
  | primitiveValueObject (pValue : Value)
  | funcObject
  | nativeFuncObject (f : Bool)
  | boundFuncObject (f : Bool)
  deriving DecidableEq, Repr

/-- The struct `baseObject`, with the tag of the implementation embedding it. -/
structure baseObject where
  self : objectImpl
  class_ : String
  prototype : Option Ref
  extensible : Bool
  values : String → Option Entry
  propNames : List String

/-- The state the object layer works on: both stores and the two intrinsics
`global.ObjectPrototype` and `global.throwerProperty`. -/
structure Runtime where
  objects : List baseObject
  props : List valueProperty
  ObjectPrototype : Option Ref
  throwerProperty : Entry

/-- How an operation ends: normal return, a TypeError panic, exhaustion of the
fuel of a prototype walk, or a dereference of an address that is not allocated. -/
inductive Outcome (α : Type) where
  | ret (a : α)
  | typeError
  | outOfFuel
  | invalidRef
  deriving DecidableEq, Repr

/-- Result of a stateful operation: the runtime it leaves and its outcome. -/
structure Res (α : Type) where
  rt : Runtime
  out : Outcome α

/-- Sequencing: the continuation runs only after a normal return. -/
def Res.bind {α β : Type} (x : Res α) (f : Runtime → α → Res β) : Res β :=
  match x.out with
  | .ret a => f x.rt a
  | .typeError => ⟨x.rt, .typeError⟩
  | .outOfFuel => ⟨x.rt, .outOfFuel⟩
  | .invalidRef => ⟨x.rt, .invalidRef⟩

/-- Modelled from the spec: the bridge into the virtual machine, which is outside
`object.go`.  `call f this args rt` runs the callable object `f`. -/
structure Host where
  call : Ref → Value → List (Option Value) → Runtime → Res Value

/-- Modelled from the spec: `Runtime.typeErrorResult(throw, ...)`, declared
outside `object.go`: "raise TypeError (strict)" or carry on. -/
def typeErrorResult (rt : Runtime) (throw : Bool) : Res Unit :=
  if throw then ⟨rt, .typeError⟩ else ⟨rt, .ret ()⟩

/-- Map update `m[k] = v`. -/
def mapSet (m : String → Option Entry) (k : String) (v : Entry) : String → Option Entry :=
  fun k' => if k' = k then some v else m k'

/-- Map read `m[k]` in its one-value form: nil when the key is absent and when it
is bound to nil. -/
def mapGet (m : String → Option Entry) (k : String) : Option Entry :=
  match m k with
  | some .nil => none
  | e => e

/-- Map removal `delete(m, k)`. -/
def mapDelete (m : String → Option Entry) (k : String) : String → Option Entry :=
  fun k' => if k' = k then none else m k'

/-- The empty map made by `baseObject.init`. -/
def emptyValues : String → Option Entry := fun _ => none

/-- Store update of one object. -/
def Runtime.setObj (rt : Runtime) (r : Ref) (o : baseObject) : Runtime :=
  { rt with objects := rt.objects.set r o }

/-- Store update of one property record. -/
def Runtime.setProp (rt : Runtime) (p : PropRef) (v : valueProperty) : Runtime :=
  { rt with props := rt.props.set p v }

/-- Allocation `&valueProperty{...}`. -/
def Runtime.allocProp (rt : Runtime) (v : valueProperty) : Runtime × PropRef :=
  ({ rt with props := rt.props ++ [v] }, rt.props.length)

/-- Allocation of a new `*Object`. -/
def Runtime.allocObj (rt : Runtime) (o : baseObject) : Runtime × Ref :=
  ({ rt with objects := rt.objects ++ [o] }, rt.objects.length)

/-- Modelled from the spec: `valueProperty.isWritable`, declared outside
`object.go`: a data record is writable by its flag, an accessor when it has a
setter ("a read-only accessor (no setter)"). -/
def valueProperty.isWritable (p : valueProperty) : Bool :=
  if p.accessor then p.setterFunc.isSome else p.writable

/-- Modelled from the spec: `valueProperty.get`, declared outside `object.go`:
"if the resolved entry is an accessor, invokes its getter with this bound to the
original receiver; if it is a data property record, returns its value". -/
def valueProperty.get (vm : Host) (rt : Runtime) (p : valueProperty) (this : Value) : Res Value :=
  if p.accessor then
    match p.getterFunc with
    | some g => vm.call g this [] rt
    | none => ⟨rt, .ret .undefined⟩
  else ⟨rt, .ret (p.value.getD .undefined)⟩

/-- Modelled from the spec: `valueProperty.set`, declared outside `object.go`:
"If accessor, call setter on receiver. Otherwise write through".  `pr` is the
address of the record `p`. -/
def valueProperty.set (vm : Host) (rt : Runtime) (pr : PropRef) (p : valueProperty)
    (this : Value) (v : Option Value) : Res Unit :=
  if p.accessor then
    match p.setterFunc with
    | some s => (vm.call s this [v] rt).bind fun rt1 _ => ⟨rt1, .ret ()⟩
    | none => ⟨rt, .ret ()⟩
  else ⟨rt.setProp pr { p with value := v }, .ret ()⟩

/-- `baseObject.getOwnProp`. -/
def baseObject.getOwnProp (o : baseObject) (name : String) : Option Entry :=
  match mapGet o.values name with
  | some v => some v
  | none => if name = "__proto" then some (.val (Value.ofObjectPtr o.prototype)) else none

/-- `baseObject.hasOwnPropertyStr`. -/
def baseObject.hasOwnPropertyStr (o : baseObject) (name : String) : Bool :=
  (mapGet o.values name).isSome

/-- The loop of `baseObject._delete`: drop the first occurrence of `name`. -/
def removeName : List String → String → List String
  | [], _ => []
  | n :: rest, name => if n = name then rest else n :: removeName rest name

/-- `baseObject._delete`. -/
def baseObject._delete (o : baseObject) (name : String) : baseObject :=
  { o with values := mapDelete o.values name, propNames := removeName o.propNames name }

/-- `baseObject._put`. -/
def baseObject._put (o : baseObject) (name : String) (v : Entry) : baseObject :=
  { o with
    propNames := if (o.values name).isSome then o.propNames else o.propNames ++ [name]
    values := mapSet o.values name v }

/-- `baseObject.preventExtensions`. -/
def baseObject.preventExtensions (o : baseObject) : baseObject :=
  { o with extensible := false }

/-- Modelled from the spec: `Runtime.NewObject`, declared outside `object.go`:
"a fresh ordinary object" of class `Object` whose prototype is the intrinsic
`ObjectPrototype`. -/
def NewObject (rt : Runtime) : Runtime × Ref :=
  rt.allocObj
    { self := .baseObject, class_ := "Object", prototype := rt.ObjectPrototype,
      extensible := true, values := emptyValues, propNames := [] }

/-- `baseObject._putProp` on the object at address `r`; returns the stored
entry. -/
def _putProp (rt : Runtime) (r : Ref) (name : String) (value : Value)
    (writable enumerable configurable : Bool) : Res Entry :=
  match rt.objects[r]? with
  | none => ⟨rt, .invalidRef⟩
  | some o =>
    if writable && enumerable && configurable then
      ⟨rt.setObj r (o._put name (.val value)), .ret (.val value)⟩
    else
      let (rt1, p) := rt.allocProp
        { value := some value, writable := writable, enumerable := enumerable,
          configurable := configurable }
      ⟨rt1.setObj r (o._put name (.prop p)), .ret (.prop p)⟩

/-- `funcObject.addPrototype` on the function object at address `f`. -/
def addPrototype (rt : Runtime) (f : Ref) : Res Entry :=
  let (rt1, proto) := NewObject rt
  (_putProp rt1 proto "constructor" (.object f) true false true).bind fun rt2 _ =>
    _putProp rt2 f "prototype" (.object proto) true false false

/-- `getPropStr` as dispatched through `Object.self`: `funcObject.getPropStr`,
`boundFuncObject.getPropStr`, and `baseObject.getPropStr` for the other
implementations.  One unit of fuel is spent per object visited. -/
def getPropStr : Nat → Runtime → Ref → String → Res (Option Entry)
  | 0, rt, _, _ => ⟨rt, .outOfFuel⟩
  | fuel + 1, rt, r, name =>
    match rt.objects[r]? with
    | none => ⟨rt, .invalidRef⟩
    | some o =>
      if o.self = .funcObject ∧ name = "prototype" ∧ o.values "prototype" = none then
        (addPrototype rt r).bind fun rt1 e => ⟨rt1, .ret (some e)⟩
      else if (o.self = .boundFuncObject true ∨ o.self = .boundFuncObject false) ∧
          (name = "caller" ∨ name = "arguments") then
        ⟨rt, .ret rt.throwerProperty.toOption⟩
      else
        match o.getOwnProp name with
        | some val => ⟨rt, .ret (some val)⟩
        | none =>
          match o.prototype with
          | some proto => getPropStr fuel rt proto name
          | none => ⟨rt, .ret none⟩

/-- `baseObject.getStr` on the object at address `r`. -/
def getStr (vm : Host) (fuel : Nat) (rt : Runtime) (r : Ref) (name : String) :
    Res (Option Value) :=
  (getPropStr fuel rt r name).bind fun rt1 p =>
    match p with
    | some (.prop pr) =>
      match rt1.props[pr]? with
      | some prop => (prop.get vm rt1 (.object r)).bind fun rt2 v => ⟨rt2, .ret (some v)⟩
      | none => ⟨rt1, .invalidRef⟩
    | some (.val v) => ⟨rt1, .ret (some v)⟩
    | _ => ⟨rt1, .ret none⟩

/-- `assertCallable` of the implementation behind `Object.self`, as a flag. -/
def baseObject.assertCallable (o : baseObject) : Bool :=
  match o.self with
  | .funcObject => true
  | .nativeFuncObject f => f
  | .boundFuncObject f => f
  | _ => false

/-- `baseObject.tryPrimitive` on the object at address `r`: the method is called
with the object as receiver; a result that is an object does not count. -/
def tryPrimitive (vm : Host) (fuel : Nat) (rt : Runtime) (r : Ref) (methodName : String) :
    Res (Option Value) :=
  (getStr vm fuel rt r methodName).bind fun rt1 m =>
    match m with
    | some (.object method) =>
      match rt1.objects[method]? with
      | none => ⟨rt1, .invalidRef⟩
      | some mo =>
        if mo.assertCallable then
          (vm.call method (.object r) [] rt1).bind fun rt2 v =>
            match v with
            | .object _ => ⟨rt2, .ret none⟩
            | .nilObject => ⟨rt2, .ret none⟩
            | _ => ⟨rt2, .ret (some v)⟩
        else ⟨rt1, .ret none⟩
    | some .nilObject => ⟨rt1, .invalidRef⟩
    | _ => ⟨rt1, .ret none⟩

/-- `baseObject.toPrimitiveString` on the object at address `r`; the final
`typeErrorResult(true, ...)` panics. -/
def toPrimitiveString (vm : Host) (fuel : Nat) (rt : Runtime) (r : Ref) : Res Value :=
  (tryPrimitive vm fuel rt r "toString").bind fun rt1 v =>
    match v with
    | some v => ⟨rt1, .ret v⟩
    | none =>
      (tryPrimitive vm fuel rt1 r "valueOf").bind fun rt2 v =>
        match v with
        | some v => ⟨rt2, .ret v⟩
        | none => ⟨rt2, .typeError⟩

/-- Modelled from the spec: `Object.ToString`, declared outside `object.go`: the
object is converted by `toPrimitiveString` and the primitive is rendered as a
string.  The string only feeds a diagnostic, so the result is not kept. -/
def Object.ToString (vm : Host) (fuel : Nat) (rt : Runtime) (r : Ref) : Res Unit :=
  (toPrimitiveString vm fuel rt r).bind fun rt1 _ => ⟨rt1, .ret ()⟩

/-- `baseObject.checkDeleteProp` on the object at address `r`.  The argument
`o.val.ToString()` of the diagnostic is evaluated before `typeErrorResult` is
called, whatever `throw` is. -/
def checkDeleteProp (vm : Host) (fuel : Nat) (rt : Runtime) (r : Ref) (prop : valueProperty)
    (throw : Bool) : Res Bool :=
  if !prop.configurable then
    (Object.ToString vm fuel rt r).bind fun rt1 _ =>
      (typeErrorResult rt1 throw).bind fun rt2 _ => ⟨rt2, .ret false⟩
  else ⟨rt, .ret true⟩

/-- `baseObject.checkDelete` on the object at address `r`. -/
def checkDelete (vm : Host) (fuel : Nat) (rt : Runtime) (r : Ref) (val : Entry)
    (throw : Bool) : Res Bool :=
  match val with
  | .prop pr =>
    match rt.props[pr]? with
    | some prop => checkDeleteProp vm fuel rt r prop throw
    | none => ⟨rt, .invalidRef⟩
  | _ => ⟨rt, .ret true⟩

/-- `baseObject.deleteStr` on the object at address `r`.  After a check that
returned true the object is the one read at the start, no call having run. -/
def deleteStr (vm : Host) (fuel : Nat) (rt : Runtime) (r : Ref) (name : String)
    (throw : Bool) : Res Bool :=
  match rt.objects[r]? with
  | none => ⟨rt, .invalidRef⟩
  | some o =>
    match o.values name with
    | some val =>
      (checkDelete vm fuel rt r val throw).bind fun rt1 ok =>
        if !ok then ⟨rt1, .ret false⟩
        else ⟨rt1.setObj r (o._delete name), .ret true⟩
    | none => ⟨rt, .ret true⟩

/-- The lookup `pprop` of `baseObject.putStr`: the entry the prototype chain of
`o` resolves `name` to, nil when `o` has no prototype. -/
def protoLookup (fuel : Nat) (rt : Runtime) (o : baseObject) (name : String) :
    Res (Option Entry) :=
  match o.prototype with
  | some proto => getPropStr fuel rt proto name
  | none => ⟨rt, .ret none⟩

/-- The last two statements of `baseObject.putStr`: store `val` under `name` and
append `name` to the key list. -/
def putNew (rt : Runtime) (r : Ref) (name : String) (val : Option Value) : Res Unit :=
  match rt.objects[r]? with
  | none => ⟨rt, .invalidRef⟩
  | some o =>
    ⟨rt.setObj r { o with values := mapSet o.values name (Entry.ofValue val),
                          propNames := o.propNames ++ [name] }, .ret ()⟩

/-- `baseObject.putStr` on the object at address `r`; `val` may be nil. -/
def putStr (vm : Host) (fuel : Nat) (rt : Runtime) (r : Ref) (name : String)
    (val : Option Value) (throw : Bool) : Res Unit :=
  match rt.objects[r]? with
  | none => ⟨rt, .invalidRef⟩
  | some o =>
    match o.values name with
    | some (.prop pr) =>
      match rt.props[pr]? with
      | none => ⟨rt, .invalidRef⟩
      | some prop =>
        if !prop.isWritable then typeErrorResult rt throw
        else prop.set vm rt pr (.object r) val
    | some _ =>
      ⟨rt.setObj r { o with values := mapSet o.values name (Entry.ofValue val) }, .ret ()⟩
    | none =>
      if name = "__proto__" then
        if !o.extensible then typeErrorResult rt throw
        else if val = some .undefined ∨ val = some .null then
          ⟨rt.setObj r { o with prototype := none }, .ret ()⟩
        else
          match val with
          | some (.object p) => ⟨rt.setObj r { o with prototype := some p }, .ret ()⟩
          | some .nilObject => ⟨rt.setObj r { o with prototype := none }, .ret ()⟩
          | _ => ⟨rt, .ret ()⟩
      else
        (protoLookup fuel rt o name).bind fun rt1 pprop =>
          match pprop with
          | some (.prop pr) =>
            match rt1.props[pr]? with
            | none => ⟨rt1, .invalidRef⟩
            | some prop =>
              if !prop.isWritable then typeErrorResult rt1 throw
              else if prop.accessor then prop.set vm rt1 pr (.object r) val
              else putNew rt1 r name val
          | some (.val _) => putNew rt1 r name val
          | _ =>
            match rt1.objects[r]? with
            | none => ⟨rt1, .invalidRef⟩
            | some o1 =>
              if !o1.extensible then typeErrorResult rt1 throw
              else putNew rt1 r name val

/-- `baseObject.swap` on the object at address `r`, for the implementations that
take `get` and `put` from `baseObject`; `intToValue(i).String()` is the decimal
numeral of `i`. -/
def swap (vm : Host) (fuel : Nat) (rt : Runtime) (r : Ref) (i j : Int) : Res Unit :=
  let ii := toString i
  let jj := toString j
  (getStr vm fuel rt r ii).bind fun rt1 x =>
  (getStr vm fuel rt1 r jj).bind fun rt2 y =>
  (putStr vm fuel rt2 r ii y false).bind fun rt3 _ =>
    putStr vm fuel rt3 r jj x false

/-- Modelled from the spec: `propGetter`, declared outside
`object.go`: "Getters/setters must be either absent, an object with a callable
kind, or explicit undefined/null".  The result is the function object, nil for
undefined and null; anything else is a TypeError. -/
def propGetter (rt : Runtime) (v : Value) : Res (Option Ref) :=
  match v with
  | .undefined => ⟨rt, .ret none⟩
  | .null => ⟨rt, .ret none⟩
  | .object g =>
    match rt.objects[g]? with
    | some o => if o.assertCallable then ⟨rt, .ret (some g)⟩ else ⟨rt, .typeError⟩
    | none => ⟨rt, .invalidRef⟩
  | _ => ⟨rt, .typeError⟩

/-- Modelled from the spec: `propSetter`, declared outside `object.go`; the
same rule as `propGetter`. -/
def propSetter (rt : Runtime) (v : Value) : Res (Option Ref) := propGetter rt v

/-- The results of the six `descr.getStr` probes `_defineOwnProperty` starts
with; nil (`none`) when the descriptor does not supply the field. -/
structure Descriptor where
  value : Option Value := none
  writable : Option Value := none
  enumerable : Option Value := none
  configurable : Option Value := none
  getter : Option Value := none
  setter : Option Value := none
  deriving DecidableEq, Repr

/-- The local `hasWritable`. -/
def Descriptor.hasWritable (d : Descriptor) : Bool := d.writable.isSome

/-- The local `hasEnumerable`. -/
def Descriptor.hasEnumerable (d : Descriptor) : Bool := d.enumerable.isSome

/-- The local `hasConfigurable`. -/
def Descriptor.hasConfigurable (d : Descriptor) : Bool := d.configurable.isSome

/-- The local `writable`: `p.ToBoolean()` when the probe is non-nil. -/
def Descriptor.isWritable (d : Descriptor) : Bool :=
  match d.writable with
  | some p => p.ToBoolean
  | none => false

/-- The local `enumerable`. -/
def Descriptor.isEnumerable (d : Descriptor) : Bool :=
  match d.enumerable with
  | some p => p.ToBoolean
  | none => false

/-- The local `configurable`. -/
def Descriptor.isConfigurable (d : Descriptor) : Bool :=
  match d.configurable with
  | some p => p.ToBoolean
  | none => false

/-- Lines 307-323 of `_defineOwnProperty`: the probes of the descriptor object,
in source order. -/
def readDescriptor (vm : Host) (fuel : Nat) (rt : Runtime) (descr : Ref) : Res Descriptor :=
  (getStr vm fuel rt descr "value").bind fun rt1 value =>
  (getStr vm fuel rt1 descr "writable").bind fun rt2 writable =>
  (getStr vm fuel rt2 descr "enumerable").bind fun rt3 enumerable =>
  (getStr vm fuel rt3 descr "configurable").bind fun rt4 configurable =>
  (getStr vm fuel rt4 descr "get").bind fun rt5 getter =>
  (getStr vm fuel rt5 descr "set").bind fun rt6 setter =>
    ⟨rt6, .ret { value := value, writable := writable, enumerable := enumerable,
                 configurable := configurable, getter := getter, setter := setter }⟩

/-- Lines 351-380 of `_defineOwnProperty`: whether control reaches `Reject`. -/
def redefineRejected (existing : valueProperty) (d : Descriptor) : Bool :=
  let getterObj := objectPtr d.getter
  let setterObj := objectPtr d.setter
  if !existing.configurable &&
      (d.isConfigurable || (d.hasEnumerable && d.isEnumerable != existing.enumerable)) then
    true
  else if (existing.accessor && d.value.isSome) ||
      (!existing.accessor && (getterObj.isSome || setterObj.isSome)) then
    !existing.configurable
  else if !existing.accessor then
    !existing.configurable && !existing.writable &&
      (d.isWritable ||
        (match d.value with
         | some v => !v.SameAs existing.value
         | none => false))
  else
    !existing.configurable &&
      ((d.getter.isSome && decide (existing.getterFunc ≠ getterObj)) ||
       (d.setter.isSome && decide (existing.setterFunc ≠ setterObj)))

/-- Lines 387-405 of `_defineOwnProperty`: the fields taken over from the
descriptor before the accessor functions are installed. -/
def mergeData (existing : valueProperty) (d : Descriptor) : valueProperty :=
  let e1 := if d.hasWritable then { existing with writable := d.isWritable } else existing
  let e2 := if d.hasEnumerable then { e1 with enumerable := d.isEnumerable } else e1
  let e3 := if d.hasConfigurable then { e2 with configurable := d.isConfigurable } else e2
  let e4 :=
    if d.value.isSome then { e3 with value := d.value, getterFunc := none, setterFunc := none }
    else e3
  if d.value.isSome || d.hasWritable then { e4 with accessor := false } else e4

/-- Lines 407-411 of `_defineOwnProperty`, on the record at address `existing`
whose current content is `e`. -/
def installGetter (rt : Runtime) (existing : PropRef) (e : valueProperty)
    (getter : Option Value) : Res valueProperty :=
  match getter with
  | none => ⟨rt, .ret e⟩
  | some g =>
    (propGetter rt g).bind fun rt1 f =>
      let e1 := { e with getterFunc := f, value := none, accessor := true }
      ⟨rt1.setProp existing e1, .ret e1⟩

/-- Lines 413-417 of `_defineOwnProperty`. -/
def installSetter (rt : Runtime) (existing : PropRef) (e : valueProperty)
    (setter : Option Value) : Res valueProperty :=
  match setter with
  | none => ⟨rt, .ret e⟩
  | some s =>
    (propSetter rt s).bind fun rt1 f =>
      let e1 := { e with setterFunc := f, value := none, accessor := true }
      ⟨rt1.setProp existing e1, .ret e1⟩

/-- Lines 419-421 of `_defineOwnProperty`: a data record without value gets
`undefined`. -/
def defaultValue (e : valueProperty) : valueProperty :=
  if !e.accessor && e.value.isNone then { e with value := some .undefined } else e

/-- Lines 387-423 of `_defineOwnProperty`: the in-place update of the record at
address `existing`. -/
def mergeRecord (rt : Runtime) (existing : PropRef) (d : Descriptor) : Res (Option Entry) :=
  match rt.props[existing]? with
  | none => ⟨rt, .invalidRef⟩
  | some e =>
    let e1 := mergeData e d
    (installGetter (rt.setProp existing e1) existing e1 d.getter).bind fun rt1 e2 =>
    (installSetter rt1 existing e2 d.setter).bind fun rt2 e3 =>
      ⟨rt2.setProp existing (defaultValue e3), .ret (some (.prop existing))⟩

/-- Lines 383-423 of `_defineOwnProperty`: a descriptor that supplies a value and
sets all three flags yields the bare value, any other one is merged into the
record at address `existing`.  The result is the entry to store. -/
def mergeDescriptor (rt : Runtime) (existing : PropRef) (d : Descriptor) : Res (Option Entry) :=
  match d.value with
  | some value =>
    if d.isWritable && d.isEnumerable && d.isConfigurable then ⟨rt, .ret (some (.val value))⟩
    else mergeRecord rt existing d
  | none => mergeRecord rt existing d

/-- Lines 351-428 of `_defineOwnProperty` on the record at address `existing`:
the `Reject` conditions and the merge. -/
def reconcileExisting (rt : Runtime) (existing : PropRef) (d : Descriptor) (throw : Bool) :
    Res (Option Entry) :=
  match rt.props[existing]? with
  | none => ⟨rt, .invalidRef⟩
  | some e =>
    if redefineRejected e d then
      (typeErrorResult rt throw).bind fun rt1 _ => ⟨rt1, .ret none⟩
    else mergeDescriptor rt existing d

/-- Lines 325-428 of `_defineOwnProperty`, after the probes: validation of the
descriptor, the extensibility check or the promotion of the existing entry, the
`Reject` conditions and the merge.  `none` is the result `nil, false`; an
`existingValue` that is nil is treated as absent. -/
def reconcile (rt : Runtime) (r : Ref) (existingValue : Option Entry) (d : Descriptor)
    (throw : Bool) : Res (Option Entry) :=
  if (d.getter.isSome || d.setter.isSome) && (d.value.isSome || d.hasWritable) then
    (typeErrorResult rt throw).bind fun rt1 _ => ⟨rt1, .ret none⟩
  else
    match existingValue with
    | some (.prop pr) => reconcileExisting rt pr d throw
    | some (.val v) =>
      let (rt1, existing) :=
        rt.allocProp { writable := true, enumerable := true, configurable := true,
                       value := some v }
      reconcileExisting rt1 existing d throw
    | _ =>
      match rt.objects[r]? with
      | none => ⟨rt, .invalidRef⟩
      | some o =>
        if !o.extensible then
          (typeErrorResult rt throw).bind fun rt1 _ => ⟨rt1, .ret none⟩
        else
          let (rt1, existing) := rt.allocProp {}
          mergeDescriptor rt1 existing d

/-- `baseObject._defineOwnProperty` on the object at address `r`; the argument
`name` of the source, the string value of the name, only feeds the diagnostic. -/
def _defineOwnProperty (vm : Host) (fuel : Nat) (rt : Runtime) (r : Ref)
    (existingValue : Option Entry) (descr : Ref) (throw : Bool) : Res (Option Entry) :=
  (readDescriptor vm fuel rt descr).bind fun rt1 d => reconcile rt1 r existingValue d throw

/-- `baseObject.defineOwnProperty` on the object at address `r`, with
`name = n.String()`. -/
def defineOwnProperty (vm : Host) (fuel : Nat) (rt : Runtime) (r : Ref) (name : String)
    (descr : Ref) (throw : Bool) : Res Bool :=
  match rt.objects[r]? with
  | none => ⟨rt, .invalidRef⟩
  | some o =>
    let val := mapGet o.values name
    (_defineOwnProperty vm fuel rt r val descr throw).bind fun rt1 v =>
      match v with
      | some v =>
        match rt1.objects[r]? with
        | none => ⟨rt1, .invalidRef⟩
        | some o1 =>
          ⟨rt1.setObj r { o1 with
              values := mapSet o1.values name v
              propNames := if val.isNone then o1.propNames ++ [name] else o1.propNames },
            .ret true⟩
      | none => ⟨rt1, .ret false⟩

/-- `baseObject.init`: a new, empty mapping. -/
def baseObject.init (o : baseObject) : baseObject :=
  { o with values := emptyValues }

/-- `funcObject.init` on the function object at address `f`.  The embedded
records `nameProp` and `lenProp`, zero so far, get their address here;
`newStringValue(name)` and `valueInt(length)` are the string and the integer
value. -/
def funcObject.init (rt : Runtime) (f : Ref) (name : String) (length : Int) : Res Unit :=
  match rt.objects[f]? with
  | none => ⟨rt, .invalidRef⟩
  | some o =>
    let o1 := o.init
    let (rt1, nameProp) := rt.allocProp { configurable := true, value := some (.string name) }
    let o2 := { o1 with values := mapSet o1.values "name" (.prop nameProp) }
    let (rt2, lenProp) := rt1.allocProp { configurable := true, value := some (.int length) }
    let o3 := { o2 with values := mapSet o2.values "length" (.prop lenProp) }
    ⟨rt2.setObj f o3, .ret ()⟩

/-- `nativeFuncObject.init` on the function object at address `f`. -/
def nativeFuncObject.init (rt : Runtime) (f : Ref) (name : String) (length : Int) : Res Unit :=
  match rt.objects[f]? with
  | none => ⟨rt, .invalidRef⟩
  | some o =>
    let o1 := o.init
    let (rt1, nameProp) := rt.allocProp { configurable := true, value := some (.string name) }
    let o2 := o1._put "name" (.prop nameProp)
    let (rt2, lenProp) := rt1.allocProp { configurable := true, value := some (.int length) }
    let o3 := o2._put "length" (.prop lenProp)
    ⟨rt2.setObj f o3, .ret ()⟩

/-- `funcObject.hasOwnPropertyStr`. -/
def funcObject.hasOwnPropertyStr (o : baseObject) (name : String) : Bool :=
  if o.hasOwnPropertyStr name then true
  else if name = "prototype" then true
  else false

/-- `hasOwnPropertyStr` as dispatched through `Object.self`: the script function
object overrides it, the other implementations take it from `baseObject`. -/
def hasOwnPropertyStr (o : baseObject) (name : String) : Bool :=
  match o.self with
  | .funcObject => funcObject.hasOwnPropertyStr o name
  | _ => o.hasOwnPropertyStr name

/-- `baseObject.hasPropertyStr` on the object at address `r`. -/
def hasPropertyStr (fuel : Nat) (rt : Runtime) (r : Ref) (name : String) : Res Bool :=
  (getPropStr fuel rt r name).bind fun rt1 p => ⟨rt1, .ret p.isSome⟩

/-- `baseObject.proto`. -/
def baseObject.proto (o : baseObject) : Option Ref := o.prototype

/-- The loop of `baseObject._hasInstance`: `v` is the object whose prototype link
is followed next, `o1` the pointer it is compared with.  One unit of fuel is spent
per link. -/
def instanceWalk : Nat → Runtime → Ref → Option Ref → Outcome Bool
  | 0, _, _, _ => .outOfFuel
  | fuel + 1, rt, v, o1 =>
    match rt.objects[v]? with
    | none => .invalidRef
    | some ov =>
      match ov.proto with
      | none => .ret false
      | some p => if o1 = some p then .ret true else instanceWalk fuel rt p o1

/-- `baseObject._hasInstance` on the function object at address `f`; `fuel` bounds
the read of `prototype`, `steps` the walk along the chain of `v`. -/
def _hasInstance (vm : Host) (fuel steps : Nat) (rt : Runtime) (f : Ref) (v : Value) :
    Res Bool :=
  match v with
  | .object vr =>
    (getStr vm fuel rt f "prototype").bind fun rt1 o =>
      match o with
      | some (.object p) => ⟨rt1, instanceWalk steps rt1 vr (some p)⟩
      | some .nilObject => ⟨rt1, instanceWalk steps rt1 vr none⟩
      | _ => (typeErrorResult rt1 true).bind fun rt2 _ => ⟨rt2, .ret false⟩
  | .nilObject =>
    (getStr vm fuel rt f "prototype").bind fun rt1 o =>
      match o with
      | some (.object _) => ⟨rt1, .invalidRef⟩
      | some .nilObject => ⟨rt1, .invalidRef⟩
      | _ => (typeErrorResult rt1 true).bind fun rt2 _ => ⟨rt2, .ret false⟩
  | _ => ⟨rt, .ret false⟩

/-- The type `enumerableFlag`. -/
inductive enumerableFlag where
  | _ENUM_UNKNOWN
  | _ENUM_FALSE
  | _ENUM_TRUE
  deriving DecidableEq, Repr

/-- The struct `propIterItem`; the default is its zero value. -/
structure propIterItem where
  name : String := ""
  value : Option Entry := none
  enumerable : enumerableFlag := ._ENUM_UNKNOWN
  deriving DecidableEq, Repr

/-- The struct `objectPropIter`, which is the state behind the continuation
`i.next`: `o` is the address of the object iterated. -/
structure objectPropIter where
  o : Ref
  propNames : List String
  recursive : Bool
  idx : Nat
  deriving DecidableEq, Repr

/-- The loop of `objectPropIter.next` over the names from position `idx` on: the
first name with a non-nil entry, that entry, and the position after it. -/
def scanNames (values : String → Option Entry) : List String → Nat → Option (String × Entry × Nat)
  | [], _ => none
  | name :: rest, idx =>
    match mapGet values name with
    | some prop => some (name, prop, idx + 1)
    | none => scanNames values rest (idx + 1)

/-- `baseObject._enumerate` on the object at address `r`: the iterator over a copy
of the key list. -/
def _enumerate (rt : Runtime) (r : Ref) (recursive : Bool) : Option objectPropIter :=
  match rt.objects[r]? with
  | none => none
  | some o => some { o := r, propNames := o.propNames, recursive := recursive, idx := 0 }

/-- `objectPropIter.next`: the item and the continuation, `none` for the nil
continuation.  One unit of fuel is spent per object of the prototype chain. -/
def objectPropIter.next : Nat → Runtime → objectPropIter →
    Outcome (propIterItem × Option objectPropIter)
  | 0, _, _ => .outOfFuel
  | fuel + 1, rt, i =>
    match rt.objects[i.o]? with
    | none => .invalidRef
    | some o =>
      match scanNames o.values (i.propNames.drop i.idx) i.idx with
      | some (name, prop, idx) =>
        .ret ({ name := name, value := some prop }, some { i with idx := idx })
      | none =>
        if i.recursive then
          match o.prototype with
          | some proto =>
            match _enumerate rt proto i.recursive with
            | some j => objectPropIter.next fuel rt j
            | none => .invalidRef
          | none => .ret ({}, none)
        else .ret ({}, none)

/-- The struct `propFilterIter`; `seen` lists the names marked in the map. -/
structure propFilterIter where
  wrapped : objectPropIter
  all : Bool
  seen : List String
  deriving DecidableEq, Repr

/-- `propFilterIter.next`: `depth` is the fuel of the wrapped iterator, `fuel`
bounds the number of items taken from it. -/
def propFilterIter.next (depth : Nat) : Nat → Runtime → propFilterIter →
    Outcome (propIterItem × Option propFilterIter)
  | 0, _, _ => .outOfFuel
  | fuel + 1, rt, i =>
    match i.wrapped.next depth rt with
    | .ret (_, none) => .ret ({}, none)
    | .ret (item, some w) =>
      if item.name ∈ i.seen then propFilterIter.next depth fuel rt { i with wrapped := w }
      else
        let i1 : propFilterIter := { i with wrapped := w, seen := item.name :: i.seen }
        if i.all then .ret (item, some i1)
        else if item.enumerable = ._ENUM_FALSE then propFilterIter.next depth fuel rt i1
        else if item.enumerable = ._ENUM_UNKNOWN then
          match item.value with
          | some (.prop pr) =>
            match rt.props[pr]? with
            | none => .invalidRef
            | some prop =>
              if !prop.enumerable then propFilterIter.next depth fuel rt i1
              else .ret (item, some i1)
          | _ => .ret (item, some i1)
        else .ret (item, some i1)
    | .typeError => .typeError
    | .outOfFuel => .outOfFuel
    | .invalidRef => .invalidRef

/-- `baseObject.enumerate` on the object at address `r`. -/
def enumerate (rt : Runtime) (r : Ref) (all recursive : Bool) : Option propFilterIter :=
  match _enumerate rt r recursive with
  | none => none
  | some w => some { wrapped := w, all := all, seen := [] }

/-- The driver loop `for item, f := it(); f != nil; item, f = f()` (as in
`baseObject.export`): the items yielded until the nil continuation, all in the
runtime `rt`.  `steps` bounds the number of items. -/
def drain (depth fuel : Nat) : Nat → Runtime → propFilterIter → Outcome (List propIterItem)
  | 0, _, _ => .outOfFuel
  | steps + 1, rt, i =>
    match i.next depth fuel rt with
    | .ret (_, none) => .ret []
    | .ret (item, some j) =>
      match drain depth fuel steps rt j with
      | .ret items => .ret (item :: items)
      | .typeError => .typeError
      | .outOfFuel => .outOfFuel
      | .invalidRef => .invalidRef
    | .typeError => .typeError
    | .outOfFuel => .outOfFuel
    | .invalidRef => .invalidRef

/-! ## Predicates used in the statements -/

/-- The own entry of `name` is a Property record with `configurable = false`. -/
def NonConfigurableOwn (rt : Runtime) (o : baseObject) (name : String) : Prop :=
  ∃ pr p, o.values name = some (.prop pr) ∧ rt.props[pr]? = some p ∧ p.configurable = false

/-- The inherited entry `pprop` lets `putStr` create an own entry: nothing was
found, or a bare value, or a data Property record with `writable = true`. -/
def inheritedAllowsCreate (rt : Runtime) : Option Entry → Bool
  | some (.val _) => true
  | some (.prop pr) =>
    match rt.props[pr]? with
    | some p => !p.accessor && p.writable
    | none => false
  | _ => true

/-- The Property record an entry stands for: a bare value is the implicit data
record with all three flags set (the promotion made by `_defineOwnProperty`). -/
def Entry.record (rt : Runtime) : Entry → Option valueProperty
  | .val v => some { writable := true, enumerable := true, configurable := true, value := some v }
  | .prop pr => rt.props[pr]?
  | .nil => none

/-- The data record a fresh definition from descriptor `d` has to produce: flags
the descriptor does not supply are false, a value it does not supply is
`undefined`. -/
def Descriptor.freshData (d : Descriptor) : valueProperty :=
  { value := some (d.value.getD .undefined), writable := d.isWritable,
    enumerable := d.isEnumerable, configurable := d.isConfigurable }

/-- The name is one of the restricted names `caller` and `arguments` of a bound
function object, for which `boundFuncObject` overrides `getPropStr` and `putStr`. -/
def baseObject.restricts (o : baseObject) (name : String) : Bool :=
  decide ((o.self = .boundFuncObject true ∨ o.self = .boundFuncObject false) ∧
    (name = "caller" ∨ name = "arguments"))

/-- The descriptor that repeats a data property: its value and its three flags. -/
def Descriptor.ofData (p : valueProperty) : Descriptor :=
  { value := p.value, writable := some (.bool p.writable),
    enumerable := some (.bool p.enumerable), configurable := some (.bool p.configurable) }

/-- The records `p` and `q` agree on kind, value, writable, enumerable and
configurable. -/
def SameAttributes (p q : valueProperty) : Prop :=
  q.accessor = p.accessor ∧ q.value = p.value ∧ q.writable = p.writable ∧
    q.enumerable = p.enumerable ∧ q.configurable = p.configurable

/-- The key-list invariant of an object: no name occurs twice in the key list, and
the names of the key list are the names the mapping binds. -/
def KeyListInvariant (o : baseObject) : Prop :=
  o.propNames.Nodup ∧ ∀ n, n ∈ o.propNames ↔ (o.values n).isSome = true

/-- The objects an enumeration that starts at address `r` goes through, the
object at `r` first: with `recursive` set these are the objects of the prototype
chain, which ends at an object without prototype, else it is the one object. -/
def Levels (rt : Runtime) (recursive : Bool) : Ref → List baseObject → Prop
  | _, [] => False
  | r, o :: rest =>
    rt.objects[r]? = some o ∧
      if recursive then
        match o.prototype with
        | none => rest = []
        | some p => Levels rt recursive p rest
      else rest = []

/-- The objects of the finite prototype chain that starts at address `r`. -/
def IsChain (rt : Runtime) (r : Ref) (os : List baseObject) : Prop :=
  Levels rt true r os

/-- The items of the names in `names` that have a non-nil entry in `values`, in
order. -/
def ownItems (values : String → Option Entry) (names : List String) : List propIterItem :=
  names.filterMap fun n => (mapGet values n).map fun e => { name := n, value := some e }

/-- The items of the objects of a chain, level after level. -/
def chainItems : List baseObject → List propIterItem
  | [] => []
  | o :: rest => ownItems o.values o.propNames ++ chainItems rest

/-- The items a raw iterator in state `i` still has to yield when `os` is the
prototype chain of the object it is iterating. -/
def rawSeq (i : objectPropIter) : List baseObject → List propIterItem
  | [] => []
  | o :: rest =>
    ownItems o.values (i.propNames.drop i.idx) ++ (if i.recursive then chainItems rest else [])

/-- An entry counts as enumerable: a bare value always, a Property record by its
flag. -/
def entryEnumerable (rt : Runtime) : Option Entry → Bool
  | some (.prop pr) =>
    match rt.props[pr]? with
    | some p => p.enumerable
    | none => false
  | some (.val _) => true
  | _ => false

/-- Every Property record an item of `items` points to is allocated. -/
def RecordsAllocated (rt : Runtime) (items : List propIterItem) : Prop :=
  ∀ x ∈ items, ∀ pr, x.value = some (.prop pr) → ∃ p, rt.props[pr]? = some p

/-- The test of `propFilterIter.next` on an item when `all = false`: the flag of
the item when it is set, else the flag of the record when the value is a Property
record, else true. -/
def itemEnumerable (rt : Runtime) (x : propIterItem) : Bool :=
  match x.enumerable with
  | ._ENUM_FALSE => false
  | ._ENUM_TRUE => true
  | ._ENUM_UNKNOWN =>
    match x.value with
    | some (.prop pr) =>
      match rt.props[pr]? with
      | some p => p.enumerable
      | none => false
    | _ => true

/-- What the filter lets through of the raw items `items` when `seen` lists the
names met so far: the first item of every name, and with `all = false` only if it
passes the enumerable test. -/
def filterItems (rt : Runtime) (all : Bool) : List String → List propIterItem → List propIterItem
  | _, [] => []
  | seen, x :: xs =>
    if x.name ∈ seen then filterItems rt all seen xs
    else if all || itemEnumerable rt x then x :: filterItems rt all (x.name :: seen) xs
    else filterItems rt all (x.name :: seen) xs

/-- The index of the object of the chain `os` nearest to its start that has a
non-nil entry for `name` (the length of the chain when none has). -/
def ownerLevel (os : List baseObject) (name : String) : Nat :=
  os.findIdx fun o => o.hasOwnPropertyStr name

/-- The addresses reached from `v` by following the prototype link one or more
times, nearest first; `none` when the chain does not end within `n` links. -/
def ancestors : Nat → Runtime → Ref → Option (List Ref)
  | 0, _, _ => none
  | n + 1, rt, v =>
    match rt.objects[v]? with
    | none => none
    | some o =>
      match o.prototype with
      | none => some []
      | some p => (ancestors n rt p).map fun chain => p :: chain

/-- All prototype chains of the runtime are acyclic: every prototype link leads to
an allocated object, and some rank decreases along every link. -/
def AcyclicPrototypes (rt : Runtime) : Prop :=
  ∃ rank : Ref → Nat, ∀ r o p, rt.objects[r]? = some o → o.prototype = some p →
    p < rt.objects.length ∧ rank p < rank r

/-- The object at address `c` is the object at address `a` or lies on its prototype
chain in the runtime `rt`. -/
inductive Reaches (rt : Runtime) : Ref → Ref → Prop where
  | refl (a : Ref) : Reaches rt a a
  | step (a b c : Ref) (o : baseObject) : rt.objects[a]? = some o → o.prototype = some b →
      Reaches rt b c → Reaches rt a c

/-- The call `putStr(name, val, _)` on the object at address `r` takes the branch
that stores a prototype link (the name is `__proto__`, the mapping of the object
has no binding for it, the object is extensible and the value is an object `p`),
and the receiver is `p` or lies on the prototype chain of `p`.  An address `p` that
is not allocated has no counterpart in the source, where a link is a pointer to an
object; it counts as closing. -/
def ClosesCycle (rt : Runtime) (r : Ref) (name : String) (val : Option Value) : Prop :=
  ∃ o p, rt.objects[r]? = some o ∧ name = "__proto__" ∧ o.values name = none ∧
    o.extensible = true ∧ val = some (.object p) ∧ (p < rt.objects.length → Reaches rt p r)

/-- The prototype links of `rt2` are links of `rt1`, or links from an object
allocated since to the intrinsic `ObjectPrototype`. -/
def ExtendsLinks (rt1 rt2 : Runtime) : Prop :=
  rt2.ObjectPrototype = rt1.ObjectPrototype ∧ rt1.objects.length ≤ rt2.objects.length ∧
    ∀ r o2 p, rt2.objects[r]? = some o2 → o2.prototype = some p →
      (∃ o1, rt1.objects[r]? = some o1 ∧ o1.prototype = some p) ∨
        (rt1.objects.length ≤ r ∧ rt1.ObjectPrototype = some p)

/-- The entry the mapping of the object at address `r` holds for `n` in the
runtime `rt`. -/
def entryAt (rt : Runtime) (r : Ref) (n : String) : Option Entry :=
  (rt.objects[r]?).bind fun o => mapGet o.values n

/-- A caller that takes one item from the iterator `i` in each runtime of the trace
`rts`, the program having run between two steps: the items yielded, and the
continuation left (nil once the iterator has ended). -/
def stepThrough (depth : Nat) : List Runtime → objectPropIter →
    Outcome (List propIterItem × Option objectPropIter)
  | [], i => .ret ([], some i)
  | rt :: rts, i =>
    match i.next depth rt with
    | .ret (_, none) => .ret ([], none)
    | .ret (item, some j) =>
      match stepThrough depth rts j with
      | .ret (items, e) => .ret (item :: items, e)
      | .typeError => .typeError
      | .outOfFuel => .outOfFuel
      | .invalidRef => .invalidRef
    | .typeError => .typeError
    | .outOfFuel => .outOfFuel
    | .invalidRef => .invalidRef

/-- The caller of `stepThrough` for the filtering iterator. -/
def filterThrough (depth fuel : Nat) : List Runtime → propFilterIter →
    Outcome (List propIterItem × Option propFilterIter)
  | [], i => .ret ([], some i)
  | rt :: rts, i =>
    match i.next depth fuel rt with
    | .ret (_, none) => .ret ([], none)
    | .ret (item, some j) =>
      match filterThrough depth fuel rts j with
      | .ret (items, e) => .ret (item :: items, e)
      | .typeError => .typeError
      | .outOfFuel => .outOfFuel
      | .invalidRef => .invalidRef
    | .typeError => .typeError
    | .outOfFuel => .outOfFuel
    | .invalidRef => .invalidRef

/-- The object at address `r` is allocated in every runtime of the trace. -/
def allocatedThroughout (r : Ref) (rts : List Runtime) : Bool :=
  rts.all fun rt => (rt.objects[r]?).isSome

/-- In every runtime of the trace, the Property records that the object at `r`
holds under the names of `names` are allocated. -/
def recordsThroughout (r : Ref) (names : List String) (rts : List Runtime) : Bool :=
  rts.all fun rt => names.all fun n =>
    match entryAt rt r n with
    | some (.prop pr) => (rt.props[pr]?).isSome
    | _ => true

/-- Snapshot consistency of the items an iterator yields over the trace `rts`:
the yielded names form a subsequence of the snapshot, the k-th item carries the
entry that the mapping of the object holds for its name in the k-th runtime, a
name outside the snapshot is not yielded, there are at most as many items as
names in the snapshot, and the iterator has ended when the trace has more steps
than the snapshot has names. -/
def SnapshotConsistent (r : Ref) (snapshot : List String) (rts : List Runtime)
    (items : List propIterItem) (ended : Bool) : Prop :=
  (items.map (·.name)).Sublist snapshot ∧
  (∀ (k : Nat) (item : propIterItem), items[k]? = some item →
    ∃ rt, rts[k]? = some rt ∧ item.value.isSome = true ∧
      entryAt rt r item.name = item.value) ∧
  (∀ n, n ∉ snapshot → n ∉ items.map (·.name)) ∧
  items.length ≤ snapshot.length ∧
  (snapshot.length < rts.length → ended = true)

/-! ## Concrete runtimes used by the evaluated examples -/

/-- A host whose calls return `undefined` and leave the runtime alone. -/
def idleHost : Host := { call := fun _ _ _ rt => ⟨rt, .ret .undefined⟩ }

/-- An object whose key list names `a` although the mapping has no entry. -/
def staleKeyObject : baseObject :=
  { self := .baseObject, class_ := "Object", prototype := none, extensible := true,
    values := emptyValues, propNames := ["a"] }

/-- The runtime holding only `staleKeyObject`. -/
def staleKeyRuntime : Runtime :=
  { objects := [staleKeyObject], props := [], ObjectPrototype := none,
    throwerProperty := .val .undefined }

/-- The object `{a: 1, b: 2}`. -/
def twoKeyObject : baseObject :=
  { self := .baseObject, class_ := "Object", prototype := none, extensible := true,
    values := mapSet (mapSet emptyValues "a" (.val (.int 1))) "b" (.val (.int 2)),
    propNames := ["a", "b"] }

/-- The runtime holding only `twoKeyObject`. -/
def twoKeyRuntime : Runtime :=
  { objects := [twoKeyObject], props := [], ObjectPrototype := none,
    throwerProperty := .val .undefined }

/-- A fresh extensible object without prototype. -/
def plainObject : baseObject :=
  { self := .baseObject, class_ := "Object", prototype := none, extensible := true,
    values := emptyValues, propNames := [] }

/-- The runtime holding only `plainObject`. -/
def plainRuntime : Runtime :=
  { objects := [plainObject], props := [], ObjectPrototype := none,
    throwerProperty := .val .undefined }

/-- A fresh extensible object whose prototype is the object at address `p`. -/
def childOf (p : Ref) : baseObject := { plainObject with prototype := some p }

/-- A prototype object whose only entry `name` is the record at address 0. -/
def recordProto (name : String) : baseObject :=
  { plainObject with values := mapSet emptyValues name (.prop 0), propNames := [name] }

/-- Object 0 owns `name` as the non-writable data record `{value: 1}`; object 1
inherits from it and has no entries. -/
def readOnlyRuntime (name : String) : Runtime :=
  { objects := [recordProto name, childOf 0],
    props := [{ value := some (.int 1), enumerable := true }],
    ObjectPrototype := none, throwerProperty := .val .undefined }

/-- Object 0 owns the bare value `x = 1`; object 1 inherits from it, has no
entries and has gone through `preventExtensions`. -/
def sealedChildRuntime : Runtime :=
  { objects := [{ plainObject with values := mapSet emptyValues "x" (.val (.int 1)),
                                   propNames := ["x"] },
                (childOf 0).preventExtensions],
    props := [], ObjectPrototype := none, throwerProperty := .val .undefined }

/-- The map holding the listed entries. -/
def valuesOf : List (String × Entry) → String → Option Entry
  | [] => emptyValues
  | (k, v) :: rest => mapSet (valuesOf rest) k v

/-- An ordinary object with the listed fields as bare values, as a script passes
it for a property descriptor. -/
def descriptorObject (fields : List (String × Value)) : baseObject :=
  { plainObject with
    values := valuesOf (fields.map fun f => (f.1, Entry.val f.2))
    propNames := fields.map fun f => f.1 }

/-- Object 0 is `target`, objects 1, 2, ... are the descriptor objects with the
listed fields, followed by one script function object; `props` is the store of
property records. -/
def defineRuntime (target : baseObject) (props : List valueProperty)
    (descrs : List (List (String × Value))) : Runtime :=
  { objects := target :: (descrs.map descriptorObject ++
      [{ plainObject with self := .funcObject, class_ := "Function" }]),
    props := props, ObjectPrototype := none, throwerProperty := .val .undefined }

/-- Target `{}` and the descriptor `{value: 5}`. -/
def freshDefineRuntime : Runtime :=
  defineRuntime plainObject [] [[("value", .int 5)]]

/-- Target with the non-configurable, non-writable data property `x = 1`, and the
descriptors `{configurable: true}` (object 1) and `{get: undefined}` (object 2). -/
def frozenDataRuntime : Runtime :=
  defineRuntime (recordProto "x") [{ value := some (.int 1) }]
    [[("configurable", .bool true)], [("get", .undefined)]]

/-- Target with the non-configurable accessor property `x` whose getter is the
function object 2, and the descriptor `{writable: true}` (object 1). -/
def frozenAccessorRuntime : Runtime :=
  defineRuntime (recordProto "x") [{ accessor := true, getterFunc := some 2 }]
    [[("writable", .bool true)]]

/-- Target `{}` and the descriptors `{value: 1, configurable: false}` (object 1),
`{value: 2}` (object 2) and `{value: 1}` (object 3). -/
def redefineRuntime : Runtime :=
  defineRuntime plainObject []
    [[("value", .int 1), ("configurable", .bool false)], [("value", .int 2)],
     [("value", .int 1)]]

/-- The runtime `redefineRuntime` after `k` has been defined from the descriptor
`{value: 1, configurable: false}`. -/
def redefinedOnce : Runtime :=
  (defineOwnProperty idleHost 1 redefineRuntime 0 "k" 1 false).rt

/-- Object 0 owns `x` as an accessor record whose setter is the function object 2;
object 1 inherits from it and has no entries. -/
def setterProtoRuntime : Runtime :=
  { objects := [recordProto "x", childOf 0,
                { plainObject with self := .funcObject, class_ := "Function" }],
    props := [{ accessor := true, setterFunc := some 2 }],
    ObjectPrototype := none, throwerProperty := .val .undefined }

/-- A host whose every call runs `o.k = 1` on object 0 and returns 2, as a script
getter with that side effect does. -/
def assigningHost : Host :=
  { call := fun _ _ _ rt => ⟨(putStr idleHost 1 rt 0 "k" (some (.int 1)) false).rt, .ret (.int 2)⟩ }

/-- Target `{}` (object 0) and a descriptor (object 1) with `configurable: true`
whose `value` is an accessor with the function object 2 as getter. -/
def getterDescriptorRuntime : Runtime :=
  { objects := [plainObject,
                { plainObject with
                  values := valuesOf [("value", .prop 0), ("configurable", .val (.bool true))]
                  propNames := ["value", "configurable"] },
                { plainObject with self := .funcObject, class_ := "Function" }],
    props := [{ accessor := true, getterFunc := some 2 }],
    ObjectPrototype := none, throwerProperty := .val .undefined }

/-- The runtime after `defineProperty(o, "k", descriptor)` under `assigningHost`. -/
def definedDuringRead : Runtime :=
  (defineOwnProperty assigningHost 1 getterDescriptorRuntime 0 "k" 1 false).rt

/-- The runtime after the following `delete o.k`. -/
def deletedAfterwards : Runtime := (deleteStr idleHost 1 definedDuringRead 0 "k" false).rt

/-- Target with the data property `x = 1` whose three flags are false, and the
descriptor `{value: 1, writable: false, enumerable: false, configurable: false}`
(object 1). -/
def sameDescriptorRuntime : Runtime :=
  defineRuntime (recordProto "x") [{ value := some (.int 1) }]
    [[("value", .int 1), ("writable", .bool false), ("enumerable", .bool false),
      ("configurable", .bool false)]]

/-- The object with the bare value `a = 1`, the non-enumerable record `b` (record
0) and the enumerable record `c` (record 1), in this order of definition. -/
def mixedObject : baseObject :=
  { plainObject with
    values := valuesOf [("a", .val (.int 1)), ("b", .prop 0), ("c", .prop 1)]
    propNames := ["a", "b", "c"] }

/-- The runtime holding `mixedObject` and its two records. -/
def mixedRuntime : Runtime :=
  { objects := [mixedObject],
    props := [{ value := some (.int 2) }, { value := some (.int 3), enumerable := true }],
    ObjectPrototype := none, throwerProperty := .val .undefined }

/-- The object `{x: 1}` whose prototype is object 1. -/
def shadowChild : baseObject :=
  { plainObject with
    values := valuesOf [("x", .val (.int 1))], propNames := ["x"], prototype := some 1 }

/-- The object `{x: 2, y: 3}` without prototype. -/
def shadowParent : baseObject :=
  { plainObject with
    values := valuesOf [("x", .val (.int 2)), ("y", .val (.int 3))], propNames := ["x", "y"] }

/-- The runtime with `shadowChild` (object 0) and `shadowParent` (object 1). -/
def shadowRuntime : Runtime :=
  { objects := [shadowChild, shadowParent], props := [], ObjectPrototype := none,
    throwerProperty := .val .undefined }

/-- Object 0 is `{}` with prototype 1; object 1 is an allocated script function
object with prototype 2, not yet initialised; object 2 is `{name: "p"}`. -/
def uninitialisedFunctionRuntime : Runtime :=
  { objects := [childOf 1,
                { plainObject with self := .funcObject, class_ := "Function",
                                   prototype := some 2 },
                { plainObject with values := valuesOf [("name", .val (.string "p"))],
                                   propNames := ["name"] }],
    props := [], ObjectPrototype := none, throwerProperty := .val .undefined }

/-- The runtime after `funcObject.init("f", 0)` on object 1. -/
def functionInChainRuntime : Runtime :=
  (funcObject.init uninitialisedFunctionRuntime 1 "f" 0).rt

/-- Object 0 is a plain object, object 1 a script function object whose
`prototype` is object 0, object 2 inherits from object 0 and object 3 from
object 2. -/
def instanceRuntime : Runtime :=
  { objects := [plainObject,
                { plainObject with self := .funcObject, class_ := "Function",
                                   values := valuesOf [("prototype", .val (.object 0))],
                                   propNames := ["prototype"] },
                childOf 0, childOf 2],
    props := [], ObjectPrototype := none, throwerProperty := .val .undefined }

/-- An allocated script function object without entries. -/
def bareFunction : baseObject :=
  { plainObject with self := .funcObject, class_ := "Function" }

/-- The runtime holding only `bareFunction`. -/
def bareFunctionRuntime : Runtime :=
  { objects := [bareFunction], props := [], ObjectPrototype := none,
    throwerProperty := .val .undefined }

/-- An allocated script function object (object 0) and an allocated native
function object (object 1), both before `init`. -/
def functionPairRuntime : Runtime :=
  { objects := [bareFunction,
                { plainObject with self := .nativeFuncObject false, class_ := "Function" }],
    props := [], ObjectPrototype := none, throwerProperty := .val .undefined }

/-- The runtime after `funcObject.init("f", 2)` on object 0. -/
def scriptInitialised : Runtime := (funcObject.init functionPairRuntime 0 "f" 2).rt

/-- The runtime after `nativeFuncObject.init("f", 2)` on object 1. -/
def nativeInitialised : Runtime := (nativeFuncObject.init functionPairRuntime 1 "f" 2).rt

/-- The object `{a: 1, b: 2, c: 3}`. -/
def threeKeyObject : baseObject :=
  { plainObject with
    values := valuesOf [("a", .val (.int 1)), ("b", .val (.int 2)), ("c", .val (.int 3))]
    propNames := ["a", "b", "c"] }

/-- The runtime holding only `threeKeyObject`. -/
def threeKeyRuntime : Runtime :=
  { objects := [threeKeyObject], props := [], ObjectPrototype := none,
    throwerProperty := .val .undefined }

/-- The runtime after `delete o.b` on `threeKeyRuntime`. -/
def threeKeyAfterDelete : Runtime := (deleteStr idleHost 1 threeKeyRuntime 0 "b" false).rt

/-- The runtime after the following `o.d = 4`. -/
def threeKeyAfterPut : Runtime := (putStr idleHost 1 threeKeyAfterDelete 0 "d" (some (.int 4)) false).rt

/-- An iteration over `threeKeyRuntime` whose first step runs after `delete o.b`
and whose later steps run after `o.d = 4`. -/
def mutationTrace : List Runtime :=
  [threeKeyAfterDelete, threeKeyAfterPut, threeKeyAfterPut, threeKeyAfterPut]

/-- The object that owns `x` as the non-enumerable record 0, lists it in its key
list and inherits from object 1. -/
def hiddenOwner : baseObject :=
  { plainObject with
    values := valuesOf [("x", .prop 0)], propNames := ["x"], prototype := some 1 }

/-- The runtime with `hiddenOwner` (object 0), whose record `x` is not enumerable,
and its prototype `shadowParent` (object 1), which holds the enumerable entries
`x` and `y`. -/
def hiddenRuntime : Runtime :=
  { objects := [hiddenOwner, shadowParent], props := [{ value := some (.int 1) }],
    ObjectPrototype := none, throwerProperty := .val .undefined }

/-- A host whose every call runs `delete o.k` on object 0 and returns false, as a
script getter with that side effect does. -/
def deletingHost : Host :=
  { call := fun _ _ _ rt => ⟨(deleteStr idleHost 1 rt 0 "k" false).rt, .ret (.bool false)⟩ }

/-- Target `{k: 1}` (object 0) with prototype `{k: 2}` (object 3), and a descriptor
(object 1) whose `enumerable` is an accessor with the function object 2 as
getter. -/
def deletingDescriptorRuntime : Runtime :=
  { objects := [{ plainObject with
                  values := valuesOf [("k", .val (.int 1))], propNames := ["k"],
                  prototype := some 3 },
                { plainObject with
                  values := valuesOf [("enumerable", .prop 0)], propNames := ["enumerable"] },
                { plainObject with self := .funcObject, class_ := "Function" },
                { plainObject with
                  values := valuesOf [("k", .val (.int 2))], propNames := ["k"] }],
    props := [{ accessor := true, getterFunc := some 2 }],
    ObjectPrototype := none, throwerProperty := .val .undefined }

/-- The runtime after `defineProperty(o, "k", descriptor)` under `deletingHost`. -/
def redefinedDuringDelete : Runtime :=
  (defineOwnProperty deletingHost 1 deletingDescriptorRuntime 0 "k" 1 false).rt

/-- The object that owns `x` as the non-configurable record 0 and `toString` as the
function object 1. -/
def printableObject : baseObject :=
  { plainObject with
    values := valuesOf [("x", .prop 0), ("toString", .val (.object 1))]
    propNames := ["x", "toString"] }

/-- The runtime with `printableObject` (object 0) and its `toString` function
(object 1). -/
def printableRuntime : Runtime :=
  { objects := [printableObject, { plainObject with self := .funcObject, class_ := "Function" }],
    props := [{ value := some (.int 1) }],
    ObjectPrototype := none, throwerProperty := .val .undefined }

/-- A host whose every call runs `Object.preventExtensions(o)` on object 0 and
returns 2, as a script getter with that side effect does. -/
def sealingHost : Host :=
  { call := fun _ _ _ rt =>
      match rt.objects[0]? with
      | some o => ⟨rt.setObj 0 o.preventExtensions, .ret (.int 2)⟩
      | none => ⟨rt, .ret (.int 2)⟩ }

/-- Target with the non-configurable data property `x = 1` (object 0) and a
descriptor (object 1) whose `configurable` is an accessor with the function object
2 as getter. -/
def frozenGetterRuntime : Runtime :=
  { objects := [recordProto "x",
                { plainObject with
                  values := valuesOf [("configurable", .prop 1)]
                  propNames := ["configurable"] },
                { plainObject with self := .funcObject, class_ := "Function" }],
    props := [{ value := some (.int 1) }, { accessor := true, getterFunc := some 2 }],
    ObjectPrototype := none, throwerProperty := .val .undefined }

/-- Target `{x: 2}` (object 0) and the descriptor
`{value, writable: true, enumerable: true, configurable: true}` (object 1) whose
`value` is an accessor with the function object 2 as getter. -/
def sameGetterRuntime : Runtime :=
  { objects := [{ plainObject with
                  values := valuesOf [("x", .val (.int 2))], propNames := ["x"] },
                { plainObject with
                  values := valuesOf [("value", .prop 0), ("writable", .val (.bool true)),
                                      ("enumerable", .val (.bool true)),
                                      ("configurable", .val (.bool true))]
                  propNames := ["value", "writable", "enumerable", "configurable"] },
                { plainObject with self := .funcObject, class_ := "Function" }],
    props := [{ accessor := true, getterFunc := some 2 }],
    ObjectPrototype := none, throwerProperty := .val .undefined }

/-- Two fresh unrelated objects, neither with a prototype. -/
def pairRuntime : Runtime :=
  { objects := [plainObject, plainObject], props := [], ObjectPrototype := none,
    throwerProperty := .val .undefined }

/-- The array-like object `{0: "a"}`: it has no entry `1`. -/
def holeObject : baseObject :=
  { plainObject with values := valuesOf [("0", .val (.string "a"))], propNames := ["0"] }

/-- The runtime holding only `holeObject`. -/
def holeRuntime : Runtime :=
  { objects := [holeObject], props := [], ObjectPrototype := none,
    throwerProperty := .val .undefined }

/-- The runtime after `swap(0, 1)` on the object of `holeRuntime`. -/
def swappedRuntime : Runtime := (swap idleHost 1 holeRuntime 0 0 1).rt

/-! ## Auxiliary lemmas -/

@[simp] theorem Res.bind_ret {α β : Type} (rt : Runtime) (a : α) (f : Runtime → α → Res β) :
    Res.bind ⟨rt, .ret a⟩ f = f rt a := rfl

@[simp] theorem Res.bind_typeError {α β : Type} (rt : Runtime) (f : Runtime → α → Res β) :
    Res.bind ⟨rt, .typeError⟩ f = ⟨rt, .typeError⟩ := rfl

@[simp] theorem Res.bind_outOfFuel {α β : Type} (rt : Runtime) (f : Runtime → α → Res β) :
    Res.bind ⟨rt, .outOfFuel⟩ f = ⟨rt, .outOfFuel⟩ := rfl

@[simp] theorem Res.bind_invalidRef {α β : Type} (rt : Runtime) (f : Runtime → α → Res β) :
    Res.bind ⟨rt, .invalidRef⟩ f = ⟨rt, .invalidRef⟩ := rfl

theorem removeName_eq_erase (l : List String) (n : String) : removeName l n = l.erase n := by
  induction l with
  | nil => rfl
  | cons a l ih =>
    simp only [removeName, List.erase_cons]
    by_cases h : a = n
    · simp [h]
    · simp [h, ih]

theorem objects_setObj_self (rt : Runtime) (r : Ref) (o o' : baseObject)
    (ho : rt.objects[r]? = some o) : (rt.setObj r o').objects[r]? = some o' := by
  have hlt : r < rt.objects.length := by
    rcases List.getElem?_eq_some.mp ho with ⟨h, _⟩
    exact h
  simp [Runtime.setObj, List.getElem?_set, hlt]

theorem lt_of_getElem?_eq_some {α : Type} {l : List α} {i : Nat} {a : α} (h : l[i]? = some a) :
    i < l.length := by
  rcases List.getElem?_eq_some.mp h with ⟨h, _⟩
  exact h

theorem getElem?_append_of_some {α : Type} {l : List α} {i : Nat} {a : α} (l' : List α)
    (h : l[i]? = some a) : (l ++ l')[i]? = some a := by
  rw [List.getElem?_append_left (lt_of_getElem?_eq_some h), h]

theorem _putProp_objects_frame (rt : Runtime) (r : Ref) (name : String) (value : Value)
    (w e c : Bool) (r' : Ref) (hne : r' ≠ r) :
    (_putProp rt r name value w e c).rt.objects[r']? = rt.objects[r']? := by
  unfold _putProp
  cases rt.objects[r]? with
  | none => rfl
  | some o =>
    by_cases hall : (w && e && c) = true
    · simp [hall, Runtime.setObj, List.getElem?_set, Ne.symm hne]
    · simp [hall, Runtime.setObj, Runtime.allocProp, List.getElem?_set, Ne.symm hne]

theorem _putProp_props_frame (rt : Runtime) (r : Ref) (name : String) (value : Value)
    (w e c : Bool) (p : PropRef) (x : valueProperty) (hp : rt.props[p]? = some x) :
    (_putProp rt r name value w e c).rt.props[p]? = some x := by
  unfold _putProp
  cases rt.objects[r]? with
  | none => exact hp
  | some o =>
    by_cases hall : (w && e && c) = true
    · simpa [hall, Runtime.setObj] using hp
    · simpa [hall, Runtime.setObj, Runtime.allocProp] using getElem?_append_of_some _ hp

theorem addPrototype_objects_frame (rt : Runtime) (f r' : Ref) (o' : baseObject)
    (hne : r' ≠ f) (h : rt.objects[r']? = some o') :
    (addPrototype rt f).rt.objects[r']? = some o' := by
  have hlt := lt_of_getElem?_eq_some h
  have h1 : (NewObject rt).1.objects[r']? = some o' := by
    simpa [NewObject, Runtime.allocObj] using getElem?_append_of_some _ h
  have hne1 : r' ≠ (NewObject rt).2 := by
    exact Nat.ne_of_lt hlt
  unfold addPrototype
  simp only []
  have h2 := _putProp_objects_frame (NewObject rt).1 (NewObject rt).2 "constructor"
    (.object f) true false true r' hne1
  rw [h1] at h2
  generalize _putProp (NewObject rt).1 (NewObject rt).2 "constructor" (.object f) true false true
    = res at h2 ⊢
  rcases res with ⟨rt2, out⟩
  cases out with
  | ret a =>
    simp only [Res.bind_ret]
    rw [_putProp_objects_frame _ _ _ _ _ _ _ _ hne]
    exact h2
  | typeError => exact h2
  | outOfFuel => exact h2
  | invalidRef => exact h2

theorem addPrototype_props_frame (rt : Runtime) (f : Ref) (p : PropRef) (x : valueProperty)
    (h : rt.props[p]? = some x) :
    (addPrototype rt f).rt.props[p]? = some x := by
  have h1 : (NewObject rt).1.props[p]? = some x := by
    simpa [NewObject, Runtime.allocObj] using h
  unfold addPrototype
  simp only []
  have h2 := _putProp_props_frame (NewObject rt).1 (NewObject rt).2 "constructor"
    (.object f) true false true p x h1
  generalize _putProp (NewObject rt).1 (NewObject rt).2 "constructor" (.object f) true false true
    = res at h2 ⊢
  rcases res with ⟨rt2, out⟩
  cases out with
  | ret a =>
    simp only [Res.bind_ret]
    exact _putProp_props_frame _ _ _ _ _ _ _ _ _ h2
  | typeError => exact h2
  | outOfFuel => exact h2
  | invalidRef => exact h2

theorem getPropStr_objects_frame (fuel : Nat) (rt : Runtime) (r : Ref) (name : String)
    (r' : Ref) (o' : baseObject) (h : rt.objects[r']? = some o')
    (hk : o'.self ≠ .funcObject) :
    (getPropStr fuel rt r name).rt.objects[r']? = some o' := by
  induction fuel generalizing r with
  | zero => exact h
  | succ fuel ih =>
    unfold getPropStr
    cases ho : rt.objects[r]? with
    | none => exact h
    | some o =>
      simp only []
      split_ifs with h1 h2
      · have hne : r' ≠ r := by
          rintro rfl
          rw [h] at ho
          cases ho
          exact hk h1.1
        have := addPrototype_objects_frame rt r r' o' hne h
        generalize addPrototype rt r = res at this ⊢
        rcases res with ⟨rt2, out⟩
        cases out <;> exact this
      · exact h
      · cases o.getOwnProp name with
        | some val => exact h
        | none =>
          cases o.prototype with
          | some proto => exact ih proto
          | none => exact h

theorem getPropStr_props_frame (fuel : Nat) (rt : Runtime) (r : Ref) (name : String)
    (p : PropRef) (x : valueProperty) (h : rt.props[p]? = some x) :
    (getPropStr fuel rt r name).rt.props[p]? = some x := by
  induction fuel generalizing r with
  | zero => exact h
  | succ fuel ih =>
    unfold getPropStr
    cases ho : rt.objects[r]? with
    | none => exact h
    | some o =>
      simp only []
      split_ifs with h1 h2
      · have := addPrototype_props_frame rt r p x h
        generalize addPrototype rt r = res at this ⊢
        rcases res with ⟨rt2, out⟩
        cases out <;> exact this
      · exact h
      · cases o.getOwnProp name with
        | some val => exact h
        | none =>
          cases o.prototype with
          | some proto => exact ih proto
          | none => exact h

theorem _putProp_record (rt rt1 : Runtime) (r : Ref) (name : String) (v : Value)
    (w e c : Bool) (en : Entry) (hflags : (w && e && c) = false)
    (h : _putProp rt r name v w e c = ⟨rt1, .ret en⟩) :
    en = .prop rt.props.length ∧
      rt1.props[rt.props.length]? =
        some { value := some v, writable := w, enumerable := e, configurable := c } := by
  unfold _putProp at h
  cases ho : rt.objects[r]? with
  | none => simp [ho] at h
  | some o =>
    simp only [ho, hflags, Bool.false_eq_true, if_false, Runtime.allocProp, Runtime.setObj] at h
    injection h with h1 h2
    injection h2 with h2
    subst h1
    exact ⟨h2.symm, by simp⟩

theorem addPrototype_result (rt rt1 : Runtime) (f : Ref) (e : Entry)
    (h : addPrototype rt f = ⟨rt1, .ret e⟩) :
    ∃ pr q, e = .prop pr ∧ rt1.props[pr]? = some q ∧ q.writable = true ∧ q.accessor = false := by
  unfold addPrototype at h
  simp only [] at h
  generalize _putProp (NewObject rt).1 (NewObject rt).2 "constructor" (.object f) true false true
    = res at h
  rcases res with ⟨rt2, out⟩
  cases out with
  | ret a =>
    simp only [Res.bind_ret] at h
    obtain ⟨he, hq⟩ := _putProp_record rt2 rt1 f "prototype" _ true false false e rfl h
    exact ⟨_, _, he, hq, rfl, rfl⟩
  | typeError => simp [Res.bind] at h
  | outOfFuel => simp [Res.bind] at h
  | invalidRef => simp [Res.bind] at h

/-- A lookup either leaves the runtime as it is or returns the writable data record
that `addPrototype` has just allocated. -/
theorem getPropStr_result (fuel : Nat) (rt rt1 : Runtime) (r : Ref) (name : String)
    (e : Option Entry) (h : getPropStr fuel rt r name = ⟨rt1, .ret e⟩) :
    rt1 = rt ∨
      ∃ pr q, e = some (.prop pr) ∧ rt1.props[pr]? = some q ∧ q.writable = true ∧
        q.accessor = false := by
  induction fuel generalizing r with
  | zero => simp [getPropStr] at h
  | succ fuel ih =>
    unfold getPropStr at h
    cases ho : rt.objects[r]? with
    | none => simp [ho] at h
    | some o =>
      simp only [ho] at h
      split_ifs at h with h1 h2
      · right
        generalize hres : addPrototype rt r = res at h
        rcases res with ⟨rt2, out⟩
        cases out with
        | ret a =>
          simp only [Res.bind_ret] at h
          injection h with h1 h2
          injection h2 with h2
          subst h1 h2
          obtain ⟨pr, q, he, hq, hw, ha⟩ := addPrototype_result rt rt2 r a hres
          exact ⟨pr, q, by rw [he], hq, hw, ha⟩
        | typeError => simp [Res.bind] at h
        | outOfFuel => simp [Res.bind] at h
        | invalidRef => simp [Res.bind] at h
      · left
        injection h with h1 _
        exact h1.symm
      · cases hg : o.getOwnProp name with
        | some val =>
          rw [hg] at h
          left
          injection h with h1 _
          exact h1.symm
        | none =>
          rw [hg] at h
          cases hpr : o.prototype with
          | some proto =>
            rw [hpr] at h
            exact ih proto h
          | none =>
            rw [hpr] at h
            left
            injection h with h1 _
            exact h1.symm

theorem props_setProp_self (rt : Runtime) (p : PropRef) (x y : valueProperty)
    (h : rt.props[p]? = some x) : (rt.setProp p y).props[p]? = some y := by
  have hlt := lt_of_getElem?_eq_some h
  simp [Runtime.setProp, List.getElem?_set, hlt]

theorem propGetter_rt (rt : Runtime) (v : Value) : (propGetter rt v).rt = rt := by
  unfold propGetter
  cases v <;> try rfl
  case object g =>
    simp only []
    cases rt.objects[g]? with
    | none => rfl
    | some o =>
      simp only []
      split_ifs <;> rfl

theorem installGetter_objects (rt : Runtime) (ex : PropRef) (e : valueProperty)
    (g : Option Value) : (installGetter rt ex e g).rt.objects = rt.objects := by
  unfold installGetter
  cases g with
  | none => rfl
  | some g =>
    simp only []
    have := propGetter_rt rt g
    generalize propGetter rt g = res at this ⊢
    rcases res with ⟨rt1, out⟩
    cases out <;> simp_all [Res.bind, Runtime.setProp]

theorem installSetter_objects (rt : Runtime) (ex : PropRef) (e : valueProperty)
    (g : Option Value) : (installSetter rt ex e g).rt.objects = rt.objects := by
  unfold installSetter
  cases g with
  | none => rfl
  | some g =>
    simp only [propSetter]
    have := propGetter_rt rt g
    generalize propGetter rt g = res at this ⊢
    rcases res with ⟨rt1, out⟩
    cases out <;> simp_all [Res.bind, Runtime.setProp]

theorem bind_objects {α β : Type} (x : Res α) (f : Runtime → α → Res β) (objs : List baseObject)
    (hx : x.rt.objects = objs) (hf : ∀ rt a, rt.objects = objs → (f rt a).rt.objects = objs) :
    (x.bind f).rt.objects = objs := by
  rcases x with ⟨rt, out⟩
  cases out with
  | ret a => exact hf rt a hx
  | typeError => exact hx
  | outOfFuel => exact hx
  | invalidRef => exact hx

theorem mergeRecord_objects (rt : Runtime) (ex : PropRef) (d : Descriptor) :
    (mergeRecord rt ex d).rt.objects = rt.objects := by
  unfold mergeRecord
  cases rt.props[ex]? with
  | none => rfl
  | some e =>
    simp only []
    apply bind_objects
    · rw [installGetter_objects]; rfl
    · intro rt1 e2 h1
      apply bind_objects
      · rw [installSetter_objects]; exact h1
      · intro rt2 e3 h2
        exact h2

theorem mergeDescriptor_objects (rt : Runtime) (ex : PropRef) (d : Descriptor) :
    (mergeDescriptor rt ex d).rt.objects = rt.objects := by
  unfold mergeDescriptor
  cases d.value with
  | none => exact mergeRecord_objects rt ex d
  | some v =>
    simp only []
    split_ifs
    · rfl
    · exact mergeRecord_objects rt ex d

theorem typeErrorResult_rt (rt : Runtime) (throw : Bool) : (typeErrorResult rt throw).rt = rt := by
  unfold typeErrorResult
  split_ifs <;> rfl

theorem reject_objects (rt : Runtime) (throw : Bool) :
    ((typeErrorResult rt throw).bind fun rt1 _ => (⟨rt1, .ret none⟩ : Res (Option Entry))).rt.objects
      = rt.objects := by
  cases throw <;> rfl

theorem reconcileExisting_objects (rt : Runtime) (existing : PropRef) (d : Descriptor)
    (throw : Bool) : (reconcileExisting rt existing d throw).rt.objects = rt.objects := by
  unfold reconcileExisting
  cases rt.props[existing]? with
  | none => rfl
  | some p =>
    simp only []
    split_ifs
    · exact reject_objects rt throw
    · exact mergeDescriptor_objects rt existing d

theorem reconcile_fresh_objects (rt : Runtime) (r : Ref) (d : Descriptor) (throw : Bool) :
    (match rt.objects[r]? with
      | none => (⟨rt, .invalidRef⟩ : Res (Option Entry))
      | some o =>
        if !o.extensible then
          (typeErrorResult rt throw).bind fun rt1 _ => ⟨rt1, .ret none⟩
        else
          let (rt1, existing) := rt.allocProp {}
          mergeDescriptor rt1 existing d).rt.objects = rt.objects := by
  cases rt.objects[r]? with
  | none => rfl
  | some o =>
    simp only []
    split_ifs
    · exact reject_objects rt throw
    · simp only [Runtime.allocProp]
      rw [mergeDescriptor_objects]

theorem reconcile_objects (rt : Runtime) (r : Ref) (ev : Option Entry) (d : Descriptor)
    (throw : Bool) : (reconcile rt r ev d throw).rt.objects = rt.objects := by
  unfold reconcile
  split_ifs
  · exact reject_objects rt throw
  · cases ev with
    | none => exact reconcile_fresh_objects rt r d throw
    | some e =>
      cases e with
      | prop pr => exact reconcileExisting_objects rt pr d throw
      | val v =>
        simp only [Runtime.allocProp]
        rw [reconcileExisting_objects]
      | nil => exact reconcile_fresh_objects rt r d throw

theorem mergeData_default (d : Descriptor) (hg : d.getter = none) (hs : d.setter = none) :
    defaultValue (mergeData {} d) = d.freshData := by
  rcases d with ⟨value, writable, enumerable, configurable, getter, setter⟩
  simp only at hg hs
  subst hg hs
  cases value <;> cases writable <;> cases enumerable <;> cases configurable <;>
    simp [mergeData, defaultValue, Descriptor.freshData, Descriptor.hasWritable, Descriptor.hasEnumerable,
      Descriptor.hasConfigurable, Descriptor.isWritable, Descriptor.isEnumerable,
      Descriptor.isConfigurable]

theorem reconcile_fresh (rt : Runtime) (r : Ref) (o : baseObject) (d : Descriptor)
    (throw : Bool) (ho : rt.objects[r]? = some o) (hext : o.extensible = true)
    (hg : d.getter = none) (hs : d.setter = none) :
    ∃ rt2 en, reconcile rt r none d throw = ⟨rt2, .ret (some en)⟩ ∧
      rt2.objects = rt.objects ∧ en.record rt2 = some d.freshData := by
  have hobj := reconcile_objects rt r none d throw
  have hmd := mergeData_default d hg hs
  simp only [reconcile, reconcileExisting, hg, hs, ho, hext, Runtime.allocProp, mergeDescriptor,
    mergeRecord, installGetter, installSetter, List.getElem?_concat_length,
    Option.isSome_none, Bool.or_self, Bool.false_and, Bool.false_eq_true, if_false,
    Bool.not_true, Res.bind_ret] at hobj ⊢
  cases hv : d.value with
  | none =>
    simp only [hv] at hobj ⊢
    refine ⟨_, _, rfl, hobj, ?_⟩
    simp [Entry.record, Runtime.setProp, hmd]
  | some v =>
    simp only [hv] at hobj ⊢
    split_ifs at hobj ⊢ with hall
    · refine ⟨_, _, rfl, hobj, ?_⟩
      simp only [Bool.and_eq_true] at hall
      simp [Entry.record, Descriptor.freshData, hall.1.1, hall.1.2, hall.2, hv]
    · refine ⟨_, _, rfl, hobj, ?_⟩
      simp [Entry.record, Runtime.setProp, hmd]

@[simp] theorem Runtime.setProp_objects (rt : Runtime) (p : PropRef) (x : valueProperty) :
    (rt.setProp p x).objects = rt.objects := rfl

@[simp] theorem Runtime.setObj_props (rt : Runtime) (r : Ref) (o : baseObject) :
    (rt.setObj r o).props = rt.props := rfl

@[simp] theorem Runtime.setProp_setProp (rt : Runtime) (p : PropRef) (x y : valueProperty) :
    (rt.setProp p x).setProp p y = rt.setProp p y := by
  simp [Runtime.setProp, List.set_set]

theorem getStr_own_bare (vm : Host) (fuel : Nat) (rt : Runtime) (r : Ref) (o : baseObject)
    (N : String) (V : Value) (ho : rt.objects[r]? = some o) (hself : o.self = .baseObject)
    (hv : o.values N = some (.val V)) :
    getStr vm (fuel + 1) rt r N = ⟨rt, .ret (some V)⟩ := by
  simp [getStr, getPropStr, ho, hself, baseObject.getOwnProp, mapGet, hv]

theorem getStr_own_data (vm : Host) (fuel : Nat) (rt : Runtime) (r : Ref) (o : baseObject)
    (N : String) (v : Value) (pr : PropRef) (p : valueProperty)
    (ho : rt.objects[r]? = some o) (hself : o.self = .baseObject)
    (hv : o.values N = some (.prop pr)) (hp : rt.props[pr]? = some p)
    (hacc : p.accessor = false) (hval : p.value = some v) :
    getStr vm (fuel + 1) rt r N = ⟨rt, .ret (some v)⟩ := by
  simp [getStr, getPropStr, ho, hself, baseObject.getOwnProp, mapGet, hv, hp, valueProperty.get, hacc,
    hval]

theorem putNew_spec (rt : Runtime) (r : Ref) (o : baseObject) (N : String) (V : Value)
    (ho : rt.objects[r]? = some o) :
    ∃ rt2 o2, putNew rt r N (some V) = ⟨rt2, .ret ()⟩ ∧ rt2.objects[r]? = some o2 ∧
      o2.self = o.self ∧ o2.values N = some (.val V) ∧ o2.propNames = o.propNames ++ [N] := by
  refine ⟨_, { o with values := mapSet o.values N (.val V), propNames := o.propNames ++ [N] },
    ?_, objects_setObj_self rt r o _ ho, rfl, ?_, rfl⟩
  · simp only [putNew, ho, Entry.ofValue]
  · simp [mapSet]

theorem checkDeleteProp_configurable (vm : Host) (fuel : Nat) (rt : Runtime) (r : Ref)
    (p : valueProperty) (throw : Bool) (hc : p.configurable = true) :
    checkDeleteProp vm fuel rt r p throw = ⟨rt, .ret true⟩ := by
  simp [checkDeleteProp, hc]

theorem checkDeleteProp_out (vm : Host) (fuel : Nat) (rt : Runtime) (r : Ref)
    (p : valueProperty) (throw : Bool) (hc : p.configurable = false) :
    (checkDeleteProp vm fuel rt r p throw).out ≠ .ret true := by
  simp only [checkDeleteProp, hc, Bool.not_false, if_true]
  generalize Object.ToString vm fuel rt r = res
  rcases res with ⟨rt1, out⟩
  cases out <;> cases throw <;> simp [Res.bind, typeErrorResult]

theorem checkDeleteProp_of_toString (vm : Host) (fuel : Nat) (rt rt1 : Runtime) (r : Ref)
    (p : valueProperty) (hc : p.configurable = false)
    (ht : Object.ToString vm fuel rt r = ⟨rt1, .ret ()⟩) :
    checkDeleteProp vm fuel rt r p false = ⟨rt1, .ret false⟩ ∧
    checkDeleteProp vm fuel rt r p true = ⟨rt1, .typeError⟩ := by
  simp [checkDeleteProp, hc, ht, typeErrorResult]

theorem checkDeleteProp_of_toString_error (vm : Host) (fuel : Nat) (rt rt1 : Runtime) (r : Ref)
    (p : valueProperty) (throw : Bool) (hc : p.configurable = false)
    (ht : Object.ToString vm fuel rt r = ⟨rt1, .typeError⟩) :
    checkDeleteProp vm fuel rt r p throw = ⟨rt1, .typeError⟩ := by
  simp [checkDeleteProp, hc, ht, Res.bind]

theorem redefineRejected_of_request (p : valueProperty) (d : Descriptor)
    (hc : p.configurable = false)
    (hreq : d.isConfigurable = true ∨
      (d.hasEnumerable = true ∧ d.isEnumerable ≠ p.enumerable) ∨
      (p.accessor = false ∧ p.writable = false ∧
        (d.isWritable = true ∨ ∃ v, d.value = some v ∧ v.SameAs p.value = false))) :
    redefineRejected p d = true := by
  unfold redefineRejected
  simp only [hc, Bool.not_false, Bool.true_and]
  rcases hreq with h | ⟨h1, h2⟩ | ⟨ha, hw, h⟩
  · simp [h]
  · simp [h1, h2]
  · split_ifs with h1 h2 h3
    · rfl
    · rfl
    · rcases h with h | ⟨v, hv, hs⟩
      · simp [hw, h]
      · simp [hw, hv, hs]
    · simp [ha] at h3

theorem reconcile_reject (rt : Runtime) (r : Ref) (pr : PropRef) (p : valueProperty)
    (d : Descriptor) (hp : rt.props[pr]? = some p) (hrej : redefineRejected p d = true) :
    reconcile rt r (some (.prop pr)) d false = ⟨rt, .ret none⟩ ∧
    reconcile rt r (some (.prop pr)) d true = ⟨rt, .typeError⟩ := by
  constructor <;>
  · unfold reconcile
    split_ifs <;> simp [reconcileExisting, typeErrorResult, hp, hrej]

/-- The state of the counterexample to C4 arises from a fresh object: a descriptor
whose `value` getter assigns `o.k` makes `defineOwnProperty` append `k` a second
time, and the following `deleteStr` leaves one `k` in the key list while the mapping
has no entry for it. -/
theorem stale_key_reachable :
    (getterDescriptorRuntime.objects[0]?).map
      (fun o => (o.propNames, o.hasOwnPropertyStr "k")) = some ([], false) ∧
    (definedDuringRead.objects[0]?).map baseObject.propNames = some ["k", "k"] ∧
    (deleteStr idleHost 1 definedDuringRead 0 "k" false).out = .ret true ∧
    (deletedAfterwards.objects[0]?).map
      (fun o => (o.propNames, o.hasOwnPropertyStr "k")) = some (["k"], false) ∧
    (deleteStr idleHost 1 deletedAfterwards 0 "k" false).out = .ret true ∧
    ((deleteStr idleHost 1 deletedAfterwards 0 "k" false).rt.objects[0]?).map baseObject.propNames
      = some ["k"] := by
  refine ⟨?_, ?_, ?_, ?_, ?_, ?_⟩ <;> decide

theorem redefineRejected_ofData (p : valueProperty) (v : Value) (hacc : p.accessor = false)
    (hval : p.value = some v) : redefineRejected p (Descriptor.ofData p) = false := by
  rcases p with ⟨value, w, c, e, acc, g, s⟩
  simp only at hacc hval
  subst hacc hval
  cases w <;> cases c <;> cases e <;>
    simp [redefineRejected, Descriptor.ofData, objectPtr, Descriptor.isConfigurable,
      Descriptor.hasEnumerable, Descriptor.isEnumerable, Descriptor.isWritable,
      Value.ToBoolean, Value.SameAs]

theorem defineOwnProperty_same_step (vm : Host) (fuel : Nat) (rt rt1 : Runtime) (r : Ref)
    (o o1 : baseObject) (N : String) (descr : Ref) (e : Entry) (p : valueProperty) (v : Value)
    (throw : Bool)
    (ho : rt.objects[r]? = some o) (he : o.values N = some e)
    (hd : readDescriptor vm fuel rt descr = ⟨rt1, .ret (Descriptor.ofData p)⟩)
    (ho1 : rt1.objects[r]? = some o1) (hrec : e.record rt1 = some p)
    (hacc : p.accessor = false) (hval : p.value = some v) :
    ∃ rt2 e2 p2, defineOwnProperty vm fuel rt r N descr throw = ⟨rt2, .ret true⟩ ∧
      rt2.objects[r]? = some { o1 with values := mapSet o1.values N e2 } ∧
      e2.record rt2 = some p2 ∧ SameAttributes p p2 := by
  have hrej := redefineRejected_ofData p v hacc hval
  simp only [Descriptor.ofData] at hrej
  cases e with
  | val v0 =>
    simp only [Entry.record, Option.some.injEq] at hrec
    subst hrec
    simp only [Option.some.injEq] at hval
    subst hval
    have hdef : defineOwnProperty vm fuel rt r N descr throw =
        ⟨(rt1.allocProp ⟨some v0, true, true, true, false, none, none⟩).1.setObj r
            { o1 with values := mapSet o1.values N (.val v0) }, .ret true⟩ := by
      have ho' : (rt1.allocProp ⟨some v0, true, true, true, false, none, none⟩).1.objects[r]?
          = some o1 := ho1
      simp only [Runtime.allocProp] at ho'
      simp [defineOwnProperty, mapGet, ho, _defineOwnProperty, hd, he, reconcile,
        reconcileExisting, Runtime.allocProp,
        hrej, mergeDescriptor, Descriptor.ofData, Descriptor.isWritable,
        Descriptor.isEnumerable, Descriptor.isConfigurable, Value.ToBoolean,
        Descriptor.hasWritable, ho']
    refine ⟨_, .val v0, _, hdef, ?_, rfl, ⟨rfl, rfl, rfl, rfl, rfl⟩⟩
    exact objects_setObj_self _ r o1 _ ho1
  | prop pr =>
    simp only [Entry.record] at hrec
    rcases p with ⟨value, w, c, en, acc, g, s⟩
    simp only at hacc hval
    subst hacc hval
    simp only at hrej
    by_cases hall : w = true ∧ en = true ∧ c = true
    · obtain ⟨rfl, rfl, rfl⟩ := hall
      have hdef : defineOwnProperty vm fuel rt r N descr throw =
          ⟨rt1.setObj r { o1 with values := mapSet o1.values N (.val v) }, .ret true⟩ := by
        simp [defineOwnProperty, mapGet, ho, _defineOwnProperty, hd, he, reconcile,
          reconcileExisting, hrec, ho1,
          hrej, mergeDescriptor, Descriptor.ofData, Descriptor.isWritable,
          Descriptor.isEnumerable, Descriptor.isConfigurable, Value.ToBoolean,
          Descriptor.hasWritable]
      exact ⟨_, .val v, _, hdef, objects_setObj_self _ r o1 _ ho1, rfl,
        ⟨rfl, rfl, rfl, rfl, rfl⟩⟩
    · have hdef : defineOwnProperty vm fuel rt r N descr throw =
          ⟨(rt1.setProp pr ⟨some v, w, c, en, false, none, none⟩).setObj r
              { o1 with values := mapSet o1.values N (.prop pr) }, .ret true⟩ := by
        have ho' : ∀ x, (rt1.setProp pr x).objects[r]? = some o1 := fun _ => ho1
        have hall' : ¬ ((w = true ∧ en = true) ∧ c = true) := fun h => hall ⟨h.1.1, h.1.2, h.2⟩
        simp [defineOwnProperty, mapGet, ho, _defineOwnProperty, hd, he, reconcile,
          reconcileExisting, hrec,
          hrej, mergeDescriptor, mergeRecord, mergeData, installGetter, installSetter,
          defaultValue, Descriptor.ofData, Descriptor.isWritable,
          Descriptor.isEnumerable, Descriptor.isConfigurable, Value.ToBoolean,
          Descriptor.hasWritable, Descriptor.hasEnumerable, Descriptor.hasConfigurable, hall',
          ho', ho1]
      refine ⟨_, .prop pr, ⟨some v, w, c, en, false, none, none⟩, hdef,
        objects_setObj_self _ r o1 _ ho1, ?_, ⟨rfl, rfl, rfl, rfl, rfl⟩⟩
      simpa [Entry.record] using props_setProp_self rt1 pr _ _ hrec
  | nil => simp [Entry.record] at hrec

theorem mapGet_eq_some {m : String → Option Entry} {k : String} {e : Entry} :
    mapGet m k = some e ↔ m k = some e ∧ e ≠ .nil := by
  unfold mapGet
  cases h : m k with
  | none => simp
  | some x => cases x <;> simp <;> rintro rfl <;> simp

theorem mapGet_eq_none {m : String → Option Entry} {k : String} :
    mapGet m k = none ↔ m k = none ∨ m k = some .nil := by
  unfold mapGet
  cases h : m k with
  | none => simp
  | some x => cases x <;> simp

theorem scanNames_none (values : String → Option Entry) (names : List String) (idx : Nat)
    (h : scanNames values names idx = none) : ownItems values names = [] := by
  induction names generalizing idx with
  | nil => rfl
  | cons n rest ih =>
    simp only [scanNames] at h
    cases hv : mapGet values n with
    | some e => simp [hv] at h
    | none =>
      rw [hv] at h
      have := ih (idx + 1) h
      simp only [ownItems, List.filterMap_cons, hv, Option.map_none'] at this ⊢
      exact this

theorem scanNames_some (values : String → Option Entry) (names : List String) (idx : Nat)
    (n : String) (e : Entry) (idx' : Nat) (h : scanNames values names idx = some (n, e, idx')) :
    ∃ k, idx' = idx + k + 1 ∧ mapGet values n = some e ∧ names[k]? = some n ∧
      ownItems values names = { name := n, value := some e } :: ownItems values (names.drop (k + 1)) := by
  induction names generalizing idx with
  | nil => simp [scanNames] at h
  | cons m rest ih =>
    simp only [scanNames] at h
    cases hv : mapGet values m with
    | some e0 =>
      rw [hv] at h
      simp only [Option.some.injEq, Prod.mk.injEq] at h
      obtain ⟨rfl, rfl, rfl⟩ := h
      exact ⟨0, rfl, hv, by simp, by simp [ownItems, hv]⟩
    | none =>
      rw [hv] at h
      obtain ⟨k, hk, hve, hget, hown⟩ := ih (idx + 1) h
      refine ⟨k + 1, by omega, hve, by simpa using hget, ?_⟩
      simp only [ownItems, List.filterMap_cons, hv, Option.map_none', List.drop_succ_cons]
      exact hown

theorem rawSeq_enumerate (o : baseObject) (rest : List baseObject) (p : Ref) (rec : Bool) :
    rawSeq { o := p, propNames := o.propNames, recursive := rec, idx := 0 } (o :: rest)
      = ownItems o.values o.propNames ++ (if rec then chainItems rest else []) := by
  simp [rawSeq]

theorem objectPropIter_next_spec (rt : Runtime) (os : List baseObject) :
    ∀ (i : objectPropIter) (depth : Nat), Levels rt i.recursive i.o os → os.length ≤ depth →
      (rawSeq i os = [] → i.next depth rt = .ret ({}, none)) ∧
      (∀ x xs, rawSeq i os = x :: xs →
        ∃ i' os', i.next depth rt = .ret (x, some i') ∧ Levels rt i'.recursive i'.o os' ∧
          os'.length ≤ depth ∧ rawSeq i' os' = xs ∧ i'.recursive = i.recursive) := by
  induction os with
  | nil => intro i depth h; exact absurd h (by simp [Levels])
  | cons o rest ih =>
    intro i depth hch hlen
    obtain ⟨ho, hrest⟩ := hch
    cases depth with
    | zero => simp at hlen
    | succ d =>
      have hd : rest.length ≤ d := by simpa using hlen
      unfold objectPropIter.next
      simp only [ho]
      cases hs : scanNames o.values (i.propNames.drop i.idx) i.idx with
      | some res =>
        obtain ⟨n, e, idx'⟩ := res
        obtain ⟨k, hk, hve, hget, hown⟩ := scanNames_some _ _ _ _ _ _ hs
        have hdrop : (i.propNames.drop i.idx).drop (k + 1) = i.propNames.drop idx' := by
          rw [List.drop_drop, hk, Nat.add_assoc]
        rw [hdrop] at hown
        have hraw : rawSeq i (o :: rest) = { name := n, value := some e } ::
            rawSeq { i with idx := idx' } (o :: rest) := by
          simp only [rawSeq, hown, List.cons_append]
        refine ⟨fun h => ?_, fun x xs hx => ?_⟩
        · rw [hraw] at h
          cases h
        rw [hraw] at hx
        injection hx with hx1 hx2
        subst hx1
        exact ⟨{ i with idx := idx' }, o :: rest, rfl, ⟨ho, hrest⟩, hlen, hx2, rfl⟩
      | none =>
        have hown := scanNames_none _ _ _ hs
        have hraw : rawSeq i (o :: rest) = if i.recursive then chainItems rest else [] := by
          simp only [rawSeq, hown, List.nil_append]
        rw [hraw]
        cases hrec : i.recursive with
        | false =>
          refine ⟨fun _ => ?_, fun x xs hx => ?_⟩
          · simp
          · simp at hx
        | true =>
          simp only [if_true]
          rw [hrec] at hrest
          simp only [if_true] at hrest
          cases hp : o.prototype with
          | none =>
            rw [hp] at hrest
            simp only at hrest
            subst hrest
            refine ⟨fun _ => ?_, fun x xs hx => ?_⟩
            · simp
            · simp [chainItems] at hx
          | some p =>
            rw [hp] at hrest
            simp only at hrest
            cases rest with
            | nil => exact absurd hrest (by simp [Levels])
            | cons o' rest' =>
              have ho' : rt.objects[p]? = some o' := hrest.1
              simp only [_enumerate, ho']
              have hj := ih { o := p, propNames := o'.propNames, recursive := true, idx := 0 } d
                hrest hd
              rw [rawSeq_enumerate] at hj
              simp only [if_true] at hj
              refine ⟨fun h => hj.1 h, fun x xs hx => ?_⟩
              obtain ⟨i', os', hn, hch', hl', hr', hrec'⟩ := hj.2 x xs hx
              exact ⟨i', os', hn, hch', Nat.le_succ_of_le hl', hr', hrec'⟩

theorem RecordsAllocated.tail {rt : Runtime} {x : propIterItem} {xs : List propIterItem}
    (h : RecordsAllocated rt (x :: xs)) : RecordsAllocated rt xs :=
  fun y hy pr hv => h y (List.mem_cons_of_mem x hy) pr hv

theorem propFilterIter_next_spec (rt : Runtime) (depth : Nat) :
    ∀ (fuel : Nat) (i : propFilterIter) (os : List baseObject),
      Levels rt i.wrapped.recursive i.wrapped.o os → os.length ≤ depth →
      (rawSeq i.wrapped os).length < fuel →
      RecordsAllocated rt (rawSeq i.wrapped os) →
      (filterItems rt i.all i.seen (rawSeq i.wrapped os) = [] →
        i.next depth fuel rt = .ret ({}, none)) ∧
      (∀ y ys, filterItems rt i.all i.seen (rawSeq i.wrapped os) = y :: ys →
        ∃ i' os', i.next depth fuel rt = .ret (y, some i') ∧
          Levels rt i'.wrapped.recursive i'.wrapped.o os' ∧ os'.length ≤ depth ∧
          filterItems rt i'.all i'.seen (rawSeq i'.wrapped os') = ys ∧
          (rawSeq i'.wrapped os').length < (rawSeq i.wrapped os).length ∧
          RecordsAllocated rt (rawSeq i'.wrapped os') ∧ i'.all = i.all) := by
  intro fuel
  induction fuel with
  | zero => intro i os _ _ h; simp at h
  | succ f ih =>
    intro i os hch hlen hfuel hrec
    obtain ⟨hnil, hcons⟩ := objectPropIter_next_spec rt os i.wrapped depth hch hlen
    unfold propFilterIter.next
    cases hraw : rawSeq i.wrapped os with
    | nil =>
      rw [hnil hraw]
      exact ⟨fun _ => rfl, fun y ys hy => by simp [filterItems] at hy⟩
    | cons x xs =>
      obtain ⟨w, os', hnext, hch', hlen', hraw', _⟩ := hcons x xs hraw
      rw [hnext]
      rw [hraw] at hfuel hrec
      have hfuel' : xs.length < f := by simpa using hfuel
      have hrec' : RecordsAllocated rt xs := hrec.tail
      simp only [filterItems]
      by_cases hseen : x.name ∈ i.seen
      · simp only [hseen, if_true]
        have := ih { i with wrapped := w } os' hch' hlen' (by simpa [hraw'] using hfuel')
          (by simpa [hraw'] using hrec')
        simp only [hraw'] at this
        refine ⟨this.1, fun y ys hy => ?_⟩
        obtain ⟨i', os'', h1, h2, h3, h4, h5, h6, h7⟩ := this.2 y ys hy
        exact ⟨i', os'', h1, h2, h3, h4, by simp; omega, h6, h7⟩
      · simp only [hseen, if_false]
        have hskip := ih { i with wrapped := w, seen := x.name :: i.seen } os' hch' hlen'
          (by simpa [hraw'] using hfuel') (by simpa [hraw'] using hrec')
        simp only [hraw'] at hskip
        have hkeep : ∀ y ys, x :: filterItems rt i.all (x.name :: i.seen) xs = y :: ys →
            ∃ i' os', Outcome.ret (x, some ({ i with wrapped := w, seen := x.name :: i.seen } :
                propFilterIter)) = .ret (y, some i') ∧
              Levels rt i'.wrapped.recursive i'.wrapped.o os' ∧ os'.length ≤ depth ∧
              filterItems rt i'.all i'.seen (rawSeq i'.wrapped os') = ys ∧
              (rawSeq i'.wrapped os').length < (x :: xs).length ∧
              RecordsAllocated rt (rawSeq i'.wrapped os') ∧ i'.all = i.all := by
          intro y ys hy
          injection hy with hy1 hy2
          subst hy1
          exact ⟨_, os', rfl, hch', hlen', by simpa [hraw'] using hy2, by simp [hraw'],
            by simpa [hraw'] using hrec', rfl⟩
        have hskip' : ∀ y ys, filterItems rt i.all (x.name :: i.seen) xs = y :: ys →
            ∃ i' os', propFilterIter.next depth f rt
                { i with wrapped := w, seen := x.name :: i.seen } = .ret (y, some i') ∧
              Levels rt i'.wrapped.recursive i'.wrapped.o os' ∧ os'.length ≤ depth ∧
              filterItems rt i'.all i'.seen (rawSeq i'.wrapped os') = ys ∧
              (rawSeq i'.wrapped os').length < (x :: xs).length ∧
              RecordsAllocated rt (rawSeq i'.wrapped os') ∧ i'.all = i.all := by
          intro y ys hy
          obtain ⟨i', os'', h1, h2, h3, h4, h5, h6, h7⟩ := hskip.2 y ys hy
          exact ⟨i', os'', h1, h2, h3, h4, by simp; omega, h6, h7⟩
        cases hall : i.all with
        | true =>
          simp only [Bool.true_or, if_true]
          exact ⟨fun h => (by cases h), by simpa [hall] using hkeep⟩
        | false =>
          simp only [Bool.false_or, Bool.false_eq_true, if_false]
          rw [hall] at hkeep hskip' hskip
          cases hen : x.enumerable with
          | _ENUM_FALSE =>
            have hie : itemEnumerable rt x = false := by simp [itemEnumerable, hen]
            simp only [hie, Bool.false_eq_true, if_false, if_true]
            exact ⟨hskip.1, hskip'⟩
          | _ENUM_TRUE =>
            have hie : itemEnumerable rt x = true := by simp [itemEnumerable, hen]
            simp only [hie, if_true]
            exact ⟨fun h => (by cases h), by simpa using hkeep⟩
          | _ENUM_UNKNOWN =>
            simp only [reduceCtorEq, if_false, if_true]
            cases hv : x.value with
            | none =>
              have hie : itemEnumerable rt x = true := by simp [itemEnumerable, hen, hv]
              simp only [hie, if_true]
              exact ⟨fun h => (by cases h), by simpa using hkeep⟩
            | some e =>
              cases e with
              | val v =>
                have hie : itemEnumerable rt x = true := by simp [itemEnumerable, hen, hv]
                simp only [hie, if_true]
                exact ⟨fun h => (by cases h), by simpa using hkeep⟩
              | nil =>
                have hie : itemEnumerable rt x = true := by simp [itemEnumerable, hen, hv]
                simp only [hie, if_true]
                exact ⟨fun h => (by cases h), by simpa using hkeep⟩
              | prop pr =>
                obtain ⟨p, hp⟩ := hrec x (List.mem_cons_self x xs) pr hv
                have hie : itemEnumerable rt x = p.enumerable := by
                  simp [itemEnumerable, hen, hv, hp]
                simp only [hie, hp]
                cases hpe : p.enumerable with
                | false =>
                  simp only [Bool.not_false, Bool.false_eq_true, if_false, if_true]
                  exact ⟨hskip.1, hskip'⟩
                | true =>
                  simp only [Bool.not_true, Bool.false_eq_true, if_false, if_true]
                  exact ⟨fun h => (by cases h), by simpa using hkeep⟩

theorem drain_spec (rt : Runtime) (depth fuel : Nat) :
    ∀ (steps : Nat) (i : propFilterIter) (os : List baseObject),
      Levels rt i.wrapped.recursive i.wrapped.o os → os.length ≤ depth →
      (rawSeq i.wrapped os).length < fuel →
      RecordsAllocated rt (rawSeq i.wrapped os) →
      (filterItems rt i.all i.seen (rawSeq i.wrapped os)).length < steps →
      drain depth fuel steps rt i = .ret (filterItems rt i.all i.seen (rawSeq i.wrapped os)) := by
  intro steps
  induction steps with
  | zero => intro i os _ _ _ _ h; simp at h
  | succ s ih =>
    intro i os hch hlen hfuel hrec hsteps
    obtain ⟨hnil, hcons⟩ := propFilterIter_next_spec rt depth fuel i os hch hlen hfuel hrec
    unfold drain
    cases hf : filterItems rt i.all i.seen (rawSeq i.wrapped os) with
    | nil => rw [hnil hf]
    | cons y ys =>
      obtain ⟨i', os', hnext, hch', hlen', hys, hlt, hrec', hall'⟩ := hcons y ys hf
      rw [hnext]
      rw [hf] at hsteps
      have := ih i' os' hch' hlen' (by omega) hrec' (by rw [hys]; simpa using hsteps)
      simp only [this, hys]

theorem ownItems_names (values : String → Option Entry) (names : List String) :
    (ownItems values names).map (fun x => x.name)
      = names.filter (fun n => (mapGet values n).isSome) := by
  induction names with
  | nil => rfl
  | cons n rest ih =>
    cases hv : mapGet values n with
    | none => simpa [ownItems, hv] using ih
    | some e => simpa [ownItems, hv] using ih

theorem ownItems_mem (values : String → Option Entry) (names : List String) (x : propIterItem)
    (hx : x ∈ ownItems values names) :
    x.name ∈ names ∧ x.value = values x.name ∧ x.value.isSome = true ∧
      x.enumerable = ._ENUM_UNKNOWN := by
  simp only [ownItems, List.mem_filterMap] at hx
  obtain ⟨n, hn, hmap⟩ := hx
  cases hv : mapGet values n with
  | none => simp [hv] at hmap
  | some e =>
    simp only [hv, Option.map_some', Option.some.injEq] at hmap
    subst hmap
    exact ⟨hn, (mapGet_eq_some.mp hv).1.symm, rfl, rfl⟩

theorem ownItems_mem_nonNil (values : String → Option Entry) (names : List String)
    (x : propIterItem) (hx : x ∈ ownItems values names) : x.value = mapGet values x.name := by
  simp only [ownItems, List.mem_filterMap] at hx
  obtain ⟨n, _, hmap⟩ := hx
  cases hv : mapGet values n with
  | none => simp [hv] at hmap
  | some e =>
    simp only [hv, Option.map_some', Option.some.injEq] at hmap
    subst hmap
    exact hv.symm

theorem filterItems_nodup (rt : Runtime) (all : Bool) (items : List propIterItem) :
    ∀ seen : List String, (items.map (fun x => x.name)).Nodup →
      (∀ x ∈ items, x.name ∉ seen) →
      filterItems rt all seen items = items.filter (fun x => all || itemEnumerable rt x) := by
  induction items with
  | nil => intro _ _ _; rfl
  | cons x xs ih =>
    intro seen hnd hseen
    simp only [List.map_cons, List.nodup_cons] at hnd
    have hx : x.name ∉ seen := hseen x (List.mem_cons_self x xs)
    have hrest : ∀ y ∈ xs, y.name ∉ x.name :: seen := by
      intro y hy hmem
      rcases List.mem_cons.mp hmem with h | h
      · exact hnd.1 (List.mem_map.mpr ⟨y, hy, h⟩)
      · exact hseen y (List.mem_cons_of_mem x hy) h
    simp only [filterItems, hx, if_false, List.filter_cons]
    rw [ih (x.name :: seen) hnd.2 hrest]

theorem ownItems_enumerable_names (rt : Runtime) (values : String → Option Entry)
    (names : List String) :
    ((ownItems values names).filter (fun x => false || itemEnumerable rt x)).map
        (fun x => x.name)
      = names.filter (fun n => entryEnumerable rt (values n)) := by
  induction names with
  | nil => rfl
  | cons n rest ih =>
    cases hv : mapGet values n with
    | none =>
      have hen : entryEnumerable rt (values n) = false := by
        rcases mapGet_eq_none.mp hv with h | h <;> simp [h, entryEnumerable]
      simpa [ownItems, hv, hen] using ih
    | some e =>
      obtain ⟨hve, hne⟩ := mapGet_eq_some.mp hv
      have hie : itemEnumerable rt { name := n, value := some e }
          = entryEnumerable rt (values n) := by
        rw [hve]
        cases e with
        | val v => rfl
        | prop pr =>
          simp only [itemEnumerable, entryEnumerable]
        | nil => exact absurd rfl hne
      simp only [ownItems, List.filterMap_cons, hv, Option.map_some', List.filter_cons,
        Bool.false_or, hie]
      cases entryEnumerable rt (values n) with
      | true => simpa [ownItems] using ih
      | false => simpa [ownItems] using ih

theorem mixedObject_invariant : KeyListInvariant mixedObject := by
  refine ⟨by decide, fun n => ?_⟩
  simp only [mixedObject, valuesOf, mapSet, emptyValues, plainObject]
  by_cases ha : n = "a"
  · simp [ha]
  · by_cases hb : n = "b"
    · simp [hb]
    · by_cases hc : n = "c"
      · simp [hc]
      · simp [ha, hb, hc]

theorem mixedObject_records (n : String) (pr : PropRef)
    (h : mixedObject.values n = some (.prop pr)) : ∃ p, mixedRuntime.props[pr]? = some p := by
  simp only [mixedObject, valuesOf, mapSet, emptyValues, plainObject] at h
  split_ifs at h <;> simp at h <;> subst h <;> exact ⟨_, rfl⟩

theorem filterItems_seen_congr (rt : Runtime) (all : Bool) (xs : List propIterItem) :
    ∀ s1 s2 : List String, (∀ n, n ∈ s1 ↔ n ∈ s2) →
      filterItems rt all s1 xs = filterItems rt all s2 xs := by
  induction xs with
  | nil => intro _ _ _; rfl
  | cons x xs ih =>
    intro s1 s2 h
    have hcons : ∀ n, n ∈ x.name :: s1 ↔ n ∈ x.name :: s2 := by
      intro n
      simp only [List.mem_cons, h n]
    simp only [filterItems, h x.name, ih s1 s2 h, ih _ _ hcons]

theorem filterItems_append (rt : Runtime) (all : Bool) (A B : List propIterItem) :
    ∀ seen seen' : List String,
      (∀ n, n ∈ seen' ↔ n ∈ seen ∨ n ∈ A.map (fun x => x.name)) →
      filterItems rt all seen (A ++ B) = filterItems rt all seen A ++ filterItems rt all seen' B := by
  induction A with
  | nil =>
    intro seen seen' h
    simp only [List.nil_append, filterItems]
    exact filterItems_seen_congr rt all B seen seen' (fun n => by simp [h n])
  | cons x xs ih =>
    intro seen seen' h
    rw [List.cons_append]
    simp only [filterItems]
    by_cases hx : x.name ∈ seen
    · simp only [hx, if_true]
      refine ih seen seen' (fun n => ?_)
      rw [h n]
      simp only [List.map_cons, List.mem_cons]
      constructor
      · rintro (h1 | h1 | h1)
        · exact Or.inl h1
        · exact Or.inl (h1 ▸ hx)
        · exact Or.inr h1
      · rintro (h1 | h1)
        · exact Or.inl h1
        · exact Or.inr (Or.inr h1)
    · simp only [hx, if_false]
      have hrec := ih (x.name :: seen) seen' (fun n => by
        rw [h n]
        simp only [List.map_cons, List.mem_cons]
        tauto)
      rw [hrec]
      split_ifs <;> simp

theorem filterItems_mem (rt : Runtime) (all : Bool) (xs : List propIterItem) :
    ∀ (seen : List String) (x : propIterItem), x ∈ filterItems rt all seen xs →
      x ∈ xs ∧ x.name ∉ seen := by
  induction xs with
  | nil => intro _ _ h; simp [filterItems] at h
  | cons y ys ih =>
    intro seen x h
    simp only [filterItems] at h
    by_cases hy : y.name ∈ seen
    · simp only [hy, if_true] at h
      obtain ⟨h1, h2⟩ := ih seen x h
      exact ⟨List.mem_cons_of_mem y h1, h2⟩
    · simp only [hy, if_false] at h
      have hrest : x ∈ filterItems rt all (y.name :: seen) ys → x ∈ y :: ys ∧ x.name ∉ seen := by
        intro h'
        obtain ⟨h1, h2⟩ := ih _ x h'
        exact ⟨List.mem_cons_of_mem y h1, fun hs => h2 (List.mem_cons_of_mem _ hs)⟩
      split_ifs at h
      · rcases List.mem_cons.mp h with h' | h'
        · subst h'
          exact ⟨List.mem_cons_self _ _, hy⟩
        · exact hrest h'
      · exact hrest h

theorem filterItems_names_nodup (rt : Runtime) (all : Bool) (xs : List propIterItem) :
    ∀ seen : List String, ((filterItems rt all seen xs).map (fun x => x.name)).Nodup := by
  induction xs with
  | nil => intro _; simp [filterItems]
  | cons y ys ih =>
    intro seen
    simp only [filterItems]
    split_ifs
    · exact ih seen
    · simp only [List.map_cons, List.nodup_cons]
      refine ⟨fun hmem => ?_, ih _⟩
      obtain ⟨z, hz, hzn⟩ := List.mem_map.mp hmem
      exact (filterItems_mem rt all ys _ z hz).2 (by simp [hzn])
    · exact ih _

theorem filterItems_all_complete (rt : Runtime) (xs : List propIterItem) :
    ∀ (seen : List String) (n : String), n ∈ xs.map (fun x => x.name) → n ∉ seen →
      n ∈ (filterItems rt true seen xs).map (fun x => x.name) := by
  induction xs with
  | nil => intro _ _ h; simp at h
  | cons y ys ih =>
    intro seen n hn hseen
    simp only [filterItems, Bool.true_or, if_true]
    simp only [List.map_cons, List.mem_cons] at hn
    by_cases hy : y.name ∈ seen
    · simp only [hy, if_true]
      rcases hn with h | h
      · exact absurd (h ▸ hy) hseen
      · exact ih seen n h hseen
    · simp only [hy, if_false, List.map_cons, List.mem_cons]
      by_cases hny : n = y.name
      · exact Or.inl hny
      · refine Or.inr (ih _ n (hn.resolve_left hny) ?_)
        simp only [List.mem_cons, not_or]
        exact ⟨hny, hseen⟩

theorem pairwise_of_zero {α : Type} (f : α → Nat) (l : List α) (h : ∀ x ∈ l, f x = 0) :
    l.Pairwise (fun x y => f x ≤ f y) := by
  induction l with
  | nil => exact List.Pairwise.nil
  | cons a l ih =>
    refine List.Pairwise.cons (fun b _ => ?_) (ih fun x hx => h x (List.mem_cons_of_mem a hx))
    rw [h a (List.mem_cons_self a l)]
    exact Nat.zero_le _

theorem filterItems_chain (rt : Runtime) (all : Bool) (os : List baseObject)
    (hkeys : ∀ o ∈ os, ∀ n, o.hasOwnPropertyStr n = true → n ∈ o.propNames) :
    ∀ seen : List String,
      (∀ x ∈ filterItems rt all seen (chainItems os),
        ∃ o, os[ownerLevel os x.name]? = some o ∧ x.value = o.values x.name ∧
          x.value.isSome = true) ∧
      (filterItems rt all seen (chainItems os)).Pairwise
        (fun x y => ownerLevel os x.name ≤ ownerLevel os y.name) := by
  induction os with
  | nil => intro seen; simp [chainItems, filterItems]
  | cons o rest ih =>
    intro seen
    have hkeys' : ∀ o' ∈ rest, ∀ n, o'.hasOwnPropertyStr n = true → n ∈ o'.propNames :=
      fun o' ho' => hkeys o' (List.mem_cons_of_mem o ho')
    obtain ⟨ihB, ihP⟩ := ih hkeys'
      ((ownItems o.values o.propNames).map (fun x => x.name) ++ seen)
    have happ := filterItems_append rt all (ownItems o.values o.propNames) (chainItems rest) seen
      ((ownItems o.values o.propNames).map (fun x => x.name) ++ seen)
      (fun n => by simp only [List.mem_append]; tauto)
    simp only [chainItems]
    rw [happ]
    have hA : ∀ x ∈ filterItems rt all seen (ownItems o.values o.propNames),
        ownerLevel (o :: rest) x.name = 0 ∧ x.value = o.values x.name ∧
          x.value.isSome = true := by
      intro x hx
      obtain ⟨_, hval, hsome, _⟩ := ownItems_mem _ _ x (filterItems_mem rt all _ _ x hx).1
      have hlive := ownItems_mem_nonNil _ _ x (filterItems_mem rt all _ _ x hx).1
      refine ⟨?_, hval, hsome⟩
      simp [ownerLevel, List.findIdx_cons, baseObject.hasOwnPropertyStr, ← hlive, hsome]
    have hB : ∀ x ∈ filterItems rt all
        ((ownItems o.values o.propNames).map (fun x => x.name) ++ seen) (chainItems rest),
        ownerLevel (o :: rest) x.name = ownerLevel rest x.name + 1 := by
      intro x hx
      have hnot := (filterItems_mem rt all _ _ x hx).2
      have hnone : o.hasOwnPropertyStr x.name = false := by
        cases hs : o.hasOwnPropertyStr x.name with
        | false => rfl
        | true =>
          exfalso
          apply hnot
          apply List.mem_append_left
          rw [ownItems_names]
          exact List.mem_filter.mpr ⟨hkeys o (List.mem_cons_self o rest) _ hs, hs⟩
      simp [ownerLevel, List.findIdx_cons, hnone]
    constructor
    · intro x hx
      rcases List.mem_append.mp hx with h | h
      · obtain ⟨h0, hval, hsome⟩ := hA x h
        exact ⟨o, by simp [h0], hval, hsome⟩
      · obtain ⟨o', ho', hval, hsome⟩ := ihB x h
        exact ⟨o', by rw [hB x h]; simpa using ho', hval, hsome⟩
    · rw [List.pairwise_append]
      refine ⟨pairwise_of_zero _ _ (fun x hx => (hA x hx).1), ?_, ?_⟩
      · refine List.Pairwise.imp_of_mem ?_ ihP
        intro a b ha hb hab
        rw [hB a ha, hB b hb]
        omega
      · intro a ha b _
        rw [(hA a ha).1]
        exact Nat.zero_le _

theorem filterItems_length_le (rt : Runtime) (all : Bool) (xs : List propIterItem) :
    ∀ seen : List String, (filterItems rt all seen xs).length ≤ xs.length := by
  induction xs with
  | nil => intro _; simp [filterItems]
  | cons y ys ih =>
    intro seen
    simp only [filterItems]
    split_ifs
    · exact Nat.le_succ_of_le (ih seen)
    · simpa using ih _
    · exact Nat.le_succ_of_le (ih _)

theorem chainItems_names (os : List baseObject) (o : baseObject) (n : String) (ho : o ∈ os)
    (hn : n ∈ o.propNames) (hv : o.hasOwnPropertyStr n = true) :
    n ∈ (chainItems os).map (fun x => x.name) := by
  induction os with
  | nil => cases ho
  | cons o' rest ih =>
    simp only [chainItems, List.map_append, List.mem_append]
    rcases List.mem_cons.mp ho with h | h
    · subst h
      left
      rw [ownItems_names]
      exact List.mem_filter.mpr ⟨hn, hv⟩
    · exact Or.inr (ih h)

theorem shadowRuntime_keys : ∀ o ∈ [shadowChild, shadowParent], ∀ n,
    o.hasOwnPropertyStr n = true → n ∈ o.propNames := by
  intro o ho n hn
  simp only [baseObject.hasOwnPropertyStr, mapGet] at hn
  simp only [List.mem_cons, List.mem_singleton, List.not_mem_nil, or_false] at ho
  rcases ho with rfl | rfl
  · simp only [shadowChild, valuesOf, mapSet, emptyValues] at hn ⊢
    split_ifs at hn with h
    · simp [h]
    · simp at hn
  · simp only [shadowParent, valuesOf, mapSet, emptyValues, plainObject] at hn ⊢
    split_ifs at hn with h1 h2
    · simp [h1]
    · simp [h2]
    · simp at hn

theorem shadowRuntime_records :
    RecordsAllocated shadowRuntime (chainItems [shadowChild, shadowParent]) := by
  intro x hx pr hv
  have hitems : chainItems [shadowChild, shadowParent]
      = [{ name := "x", value := some (.val (.int 1)) },
         { name := "x", value := some (.val (.int 2)) },
         { name := "y", value := some (.val (.int 3)) }] := by decide
  rw [hitems] at hx
  simp only [List.mem_cons, List.mem_singleton, List.not_mem_nil, or_false] at hx
  rcases hx with rfl | rfl | rfl <;> simp at hv

theorem instanceWalk_ancestors (rt : Runtime) (P : Ref) :
    ∀ (n : Nat) (v : Ref) (chain : List Ref), ancestors n rt v = some chain →
      ∀ steps, n ≤ steps → instanceWalk steps rt v (some P) = .ret (decide (P ∈ chain)) := by
  intro n
  induction n with
  | zero => intro v chain h; simp [ancestors] at h
  | succ n ih =>
    intro v chain h steps hsteps
    cases steps with
    | zero => omega
    | succ s =>
      simp only [ancestors] at h
      simp only [instanceWalk, baseObject.proto]
      cases ho : rt.objects[v]? with
      | none => simp [ho] at h
      | some o =>
        simp only [ho] at h ⊢
        cases hp : o.prototype with
        | none =>
          simp only [hp, Option.some.injEq] at h ⊢
          subst h
          simp
        | some p =>
          simp only [hp, Option.map_eq_some'] at h ⊢
          obtain ⟨rest, hrest, rfl⟩ := h
          by_cases hP : P = p
          · subst hP
            simp
          · have hne : ¬ (some P = some p) := fun h => hP (Option.some.inj h)
            rw [if_neg hne, ih p rest hrest s (by omega)]
            simp [hP]

theorem ExtendsLinks.refl (rt : Runtime) : ExtendsLinks rt rt :=
  ⟨rfl, Nat.le_refl _, fun _ o2 _ h1 h2 => Or.inl ⟨o2, h1, h2⟩⟩

theorem ExtendsLinks.trans {rt1 rt2 rt3 : Runtime} (h12 : ExtendsLinks rt1 rt2)
    (h23 : ExtendsLinks rt2 rt3) : ExtendsLinks rt1 rt3 := by
  obtain ⟨hop12, hlen12, hl12⟩ := h12
  obtain ⟨hop23, hlen23, hl23⟩ := h23
  refine ⟨hop23.trans hop12, Nat.le_trans hlen12 hlen23, fun r o3 p h3 hp => ?_⟩
  rcases hl23 r o3 p h3 hp with ⟨o2, h2, hp2⟩ | ⟨hr, hop⟩
  · exact hl12 r o2 p h2 hp2
  · exact Or.inr ⟨Nat.le_trans hlen12 hr, by rw [← hop12]; exact hop⟩

theorem acyclic_of_extendsLinks {rt1 rt2 : Runtime} (hext : ExtendsLinks rt1 rt2)
    (hop : ∀ q, rt1.ObjectPrototype = some q → q < rt1.objects.length)
    (hac : AcyclicPrototypes rt1) : AcyclicPrototypes rt2 := by
  obtain ⟨_, hlen, hlinks⟩ := hext
  obtain ⟨rank, hrank⟩ := hac
  refine ⟨fun x => if x < rt1.objects.length then rank x
    else rank (rt1.ObjectPrototype.getD 0) + 1, fun r o2 p h2 hp => ?_⟩
  rcases hlinks r o2 p h2 hp with ⟨o1, h1, hp1⟩ | ⟨hr, hq⟩
  · obtain ⟨hplt, hlt⟩ := hrank r o1 p h1 hp1
    have hrlt : r < rt1.objects.length := lt_of_getElem?_eq_some h1
    refine ⟨Nat.lt_of_lt_of_le hplt hlen, ?_⟩
    simp only [hplt, hrlt, if_true]
    exact hlt
  · have hplt := hop p hq
    refine ⟨Nat.lt_of_lt_of_le hplt hlen, ?_⟩
    have hnr : ¬ r < rt1.objects.length := Nat.not_lt.mpr hr
    simp only [hplt, hnr, if_true, if_false, hq, Option.getD_some]
    exact Nat.lt_succ_self _

theorem extendsLinks_setObj (rt : Runtime) (r : Ref) (o o' : baseObject)
    (ho : rt.objects[r]? = some o)
    (hp : ∀ p, o'.prototype = some p → o.prototype = some p) :
    ExtendsLinks rt (rt.setObj r o') := by
  refine ⟨rfl, by simp [Runtime.setObj], fun x o2 p h2 hp2 => Or.inl ?_⟩
  simp only [Runtime.setObj, List.getElem?_set] at h2
  by_cases hx : r = x
  · subst hx
    have hlt := lt_of_getElem?_eq_some ho
    simp only [hlt, if_true, Option.some.injEq] at h2
    subst h2
    exact ⟨o, ho, hp p hp2⟩
  · simp only [hx, if_false] at h2
    exact ⟨o2, h2, hp2⟩

theorem extendsLinks_setProp (rt : Runtime) (pr : PropRef) (x : valueProperty) :
    ExtendsLinks rt (rt.setProp pr x) :=
  ⟨rfl, Nat.le_refl _, fun _ o2 _ h1 h2 => Or.inl ⟨o2, h1, h2⟩⟩

theorem extendsLinks_allocProp (rt : Runtime) (x : valueProperty) :
    ExtendsLinks rt (rt.allocProp x).1 :=
  ⟨rfl, Nat.le_refl _, fun _ o2 _ h1 h2 => Or.inl ⟨o2, h1, h2⟩⟩

theorem extendsLinks_NewObject (rt : Runtime) : ExtendsLinks rt (NewObject rt).1 := by
  refine ⟨rfl, by simp [NewObject, Runtime.allocObj], fun r o2 p h2 hp2 => ?_⟩
  simp only [NewObject, Runtime.allocObj] at h2
  by_cases hr : r < rt.objects.length
  · rw [List.getElem?_append_left hr] at h2
    exact Or.inl ⟨o2, h2, hp2⟩
  · have hle : rt.objects.length ≤ r := Nat.not_lt.mp hr
    rw [List.getElem?_append_right hle] at h2
    refine Or.inr ⟨hle, ?_⟩
    cases hk : r - rt.objects.length with
    | zero =>
      simp only [hk, List.getElem?_cons_zero, Option.some.injEq] at h2
      subst h2
      exact hp2
    | succ k => simp [hk] at h2

theorem extendsLinks_bind {α β : Type} {rt : Runtime} (x : Res α) (f : Runtime → α → Res β)
    (hx : ExtendsLinks rt x.rt)
    (hf : ∀ rt1 a, ExtendsLinks rt rt1 → ExtendsLinks rt (f rt1 a).rt) :
    ExtendsLinks rt (x.bind f).rt := by
  rcases x with ⟨rt1, out⟩
  cases out with
  | ret a => exact hf rt1 a hx
  | typeError => exact hx
  | outOfFuel => exact hx
  | invalidRef => exact hx

theorem extendsLinks__putProp (rt : Runtime) (r : Ref) (name : String) (v : Value)
    (w e c : Bool) : ExtendsLinks rt (_putProp rt r name v w e c).rt := by
  unfold _putProp
  cases ho : rt.objects[r]? with
  | none => exact ExtendsLinks.refl rt
  | some o =>
    simp only []
    split_ifs
    · exact extendsLinks_setObj rt r o _ ho (fun p hp => hp)
    · exact (extendsLinks_allocProp rt _).trans
        (extendsLinks_setObj (rt.allocProp _).1 r o _ ho (fun p hp => hp))

theorem extendsLinks_addPrototype (rt : Runtime) (f : Ref) :
    ExtendsLinks rt (addPrototype rt f).rt := by
  unfold addPrototype
  simp only []
  apply extendsLinks_bind
  · exact (extendsLinks_NewObject rt).trans (extendsLinks__putProp _ _ _ _ _ _ _)
  · intro rt1 _ h1
    exact h1.trans (extendsLinks__putProp _ _ _ _ _ _ _)

theorem extendsLinks_getPropStr (fuel : Nat) (rt : Runtime) (r : Ref) (name : String) :
    ExtendsLinks rt (getPropStr fuel rt r name).rt := by
  induction fuel generalizing r with
  | zero => exact ExtendsLinks.refl rt
  | succ fuel ih =>
    unfold getPropStr
    cases rt.objects[r]? with
    | none => exact ExtendsLinks.refl rt
    | some o =>
      simp only []
      split_ifs
      · apply extendsLinks_bind
        · exact extendsLinks_addPrototype rt r
        · intro rt1 _ h1
          exact h1
      · exact ExtendsLinks.refl rt
      · cases o.getOwnProp name with
        | some val => exact ExtendsLinks.refl rt
        | none =>
          cases o.prototype with
          | some proto => exact ih proto
          | none => exact ExtendsLinks.refl rt

theorem extendsLinks_putNew (rt : Runtime) (r : Ref) (name : String) (val : Option Value) :
    ExtendsLinks rt (putNew rt r name val).rt := by
  unfold putNew
  cases ho : rt.objects[r]? with
  | none => exact ExtendsLinks.refl rt
  | some o => exact extendsLinks_setObj rt r o _ ho (fun p hp => hp)

theorem extendsLinks_typeErrorResult (rt : Runtime) (throw : Bool) :
    ExtendsLinks rt (typeErrorResult rt throw).rt := by
  rw [typeErrorResult_rt]
  exact ExtendsLinks.refl rt

theorem acyclic_set (vm : Host) (rt : Runtime) (pr : PropRef) (p : valueProperty)
    (recv : Value) (v : Option Value)
    (hvm : ∀ f recv args rt', AcyclicPrototypes rt' →
      AcyclicPrototypes (vm.call f recv args rt').rt)
    (hac : AcyclicPrototypes rt) : AcyclicPrototypes (p.set vm rt pr recv v).rt := by
  unfold valueProperty.set
  split_ifs
  · cases p.setterFunc with
    | none => exact hac
    | some s =>
      simp only []
      have := hvm s recv [v] rt hac
      generalize vm.call s recv [v] rt = res at this ⊢
      rcases res with ⟨rt1, out⟩
      cases out <;> exact this
  · obtain ⟨rank, hrank⟩ := hac
    exact ⟨rank, hrank⟩

theorem acyclic_setProto (rt : Runtime) (r p : Ref) (o : baseObject)
    (hac : AcyclicPrototypes rt) (ho : rt.objects[r]? = some o)
    (hp : p < rt.objects.length) (hnr : ¬ Reaches rt p r) :
    AcyclicPrototypes (rt.setObj r { o with prototype := some p }) := by
  classical
  obtain ⟨rank, hrank⟩ := hac
  have hlt := lt_of_getElem?_eq_some ho
  refine ⟨fun x => if Reaches rt x r then rank x + rank p + 1 else rank x,
    fun x ox q hx hq => ?_⟩
  simp only [Runtime.setObj, List.getElem?_set] at hx
  by_cases hxr : r = x
  · subst hxr
    simp only [hlt, if_true, Option.some.injEq] at hx
    subst hx
    simp only [Option.some.injEq] at hq
    subst hq
    refine ⟨by simpa [Runtime.setObj] using hp, ?_⟩
    simp only [hnr, if_false, Reaches.refl r, if_true]
    omega
  · simp only [hxr, if_false] at hx
    obtain ⟨hqlt, hlt2⟩ := hrank x ox q hx hq
    refine ⟨by simpa [Runtime.setObj] using hqlt, ?_⟩
    by_cases hqr : Reaches rt q r
    · have hxr2 : Reaches rt x r := Reaches.step x q r ox hx hq hqr
      simp only [hqr, hxr2, if_true]
      omega
    · simp only [hqr, if_false]
      split_ifs <;> omega

theorem reaches_rank_le {rt : Runtime} {a c : Ref} (h : Reaches rt a c) :
    ∀ (rt2 : Runtime) (rank : Ref → Nat),
      (∀ x ox, x ≠ c → rt.objects[x]? = some ox → rt2.objects[x]? = some ox) →
      (∀ x ox q, rt2.objects[x]? = some ox → ox.prototype = some q → rank q < rank x) →
      rank c ≤ rank a := by
  induction h with
  | refl a => exact fun _ _ _ _ => Nat.le_refl _
  | step a b c o ho hp _ ih =>
    intro rt2 rank hsame hrank
    by_cases hac : a = c
    · subst hac
      exact Nat.le_refl _
    · have h1 := ih rt2 rank hsame hrank
      have h2 := hrank a o b (hsame a o hac ho) hp
      omega

theorem not_acyclic_setProto (rt : Runtime) (r p : Ref) (o : baseObject)
    (ho : rt.objects[r]? = some o) (hcl : p < rt.objects.length → Reaches rt p r) :
    ¬ AcyclicPrototypes (rt.setObj r { o with prototype := some p }) := by
  rintro ⟨rank, hrank⟩
  have hself := objects_setObj_self rt r o { o with prototype := some p } ho
  obtain ⟨hplt, hlt⟩ := hrank r _ p hself rfl
  have hreach := hcl (by simpa [Runtime.setObj] using hplt)
  have hle := reaches_rank_le hreach (rt.setObj r { o with prototype := some p }) rank
    (fun x ox hx hox => by
      simp only [Runtime.setObj, List.getElem?_set]
      have hne : ¬ r = x := fun h => hx h.symm
      simpa only [hne, if_false] using hox)
    (fun x ox q hx hq => (hrank x ox q hx hq).2)
  omega

theorem plainRuntime_acyclic : AcyclicPrototypes plainRuntime := by
  refine ⟨fun _ => 0, fun r o p ho hp => ?_⟩
  have hr : r = 0 := by
    have := lt_of_getElem?_eq_some ho
    simpa [plainRuntime] using this
  subst hr
  simp only [plainRuntime, List.getElem?_cons_zero, Option.some.injEq] at ho
  subst ho
  simp [plainObject] at hp

theorem pairRuntime_acyclic : AcyclicPrototypes pairRuntime := by
  refine ⟨fun _ => 0, fun r o p ho hp => ?_⟩
  have hr : r < 2 := by
    have := lt_of_getElem?_eq_some ho
    simpa [pairRuntime] using this
  have : o = plainObject := by
    rcases Nat.lt_succ_iff_lt_or_eq.mp hr with h | h
    · have h0 : r = 0 := Nat.lt_one_iff.mp h
      subst h0
      simpa [pairRuntime] using ho.symm
    · subst h
      simpa [pairRuntime] using ho.symm
  subst this
  simp [plainObject] at hp

theorem addPrototype_spec (rt : Runtime) (f : Ref) (o : baseObject)
    (ho : rt.objects[f]? = some o) :
    (addPrototype rt f).out = .ret (.prop (rt.props.length + 1)) ∧
    (addPrototype rt f).rt.props[rt.props.length + 1]? = some
      { value := some (.object rt.objects.length), writable := true } ∧
    (addPrototype rt f).rt.props[rt.props.length]? = some
      { value := some (.object f), writable := true, configurable := true } ∧
    (addPrototype rt f).rt.objects[rt.objects.length]? = some
      { self := .baseObject, class_ := "Object", prototype := rt.ObjectPrototype,
        extensible := true,
        values := mapSet emptyValues "constructor" (.prop rt.props.length),
        propNames := ["constructor"] } ∧
    (addPrototype rt f).rt.objects[f]?
      = some (o._put "prototype" (.prop (rt.props.length + 1))) := by
  have hlt : f < rt.objects.length := lt_of_getElem?_eq_some ho
  have hne : f ≠ rt.objects.length := Nat.ne_of_lt hlt
  have hne' : rt.objects.length ≠ f := fun h => hne h.symm
  have hf : ((rt.objects ++ [(⟨.baseObject, "Object", rt.ObjectPrototype, true, emptyValues,
      []⟩ : baseObject)]).set rt.objects.length
      (baseObject._put ⟨.baseObject, "Object", rt.ObjectPrototype, true, emptyValues, []⟩
        "constructor" (.prop rt.props.length)))[f]? = some o := by
    rw [List.getElem?_set_ne hne', List.getElem?_append_left hlt, ho]
  refine ⟨?_, ?_, ?_, ?_, ?_⟩ <;>
    simp only [addPrototype, NewObject, Runtime.allocObj, _putProp,
      List.getElem?_concat_length, Bool.and_false, Bool.false_and, Bool.false_eq_true,
      if_false, Runtime.allocProp, Runtime.setObj, Res.bind_ret, hf, List.length_append,
      List.length_singleton]
  · have hl : rt.props.length + 1 = (rt.props ++ [(⟨some (.object f), true, true, false, false,
        none, none⟩ : valueProperty)]).length := by simp
    rw [hl, List.getElem?_concat_length]
  · rw [List.getElem?_append_left (by simp), List.getElem?_concat_length]
  · simp [List.getElem?_set, hne, hlt, baseObject._put, emptyValues]
  · have hl : f < ((rt.objects ++ [(⟨.baseObject, "Object", rt.ObjectPrototype, true,
        emptyValues, []⟩ : baseObject)]).set rt.objects.length
        (baseObject._put ⟨.baseObject, "Object", rt.ObjectPrototype, true, emptyValues, []⟩
          "constructor" (.prop rt.props.length))).length := lt_of_getElem?_eq_some hf
    simp only [List.getElem?_set, hl]
    simp

theorem scanNames_split (values : String → Option Entry) (names : List String) (idx : Nat) :
    (scanNames values names idx = none ∧ ∀ m ∈ names, mapGet values m = none) ∨
    ∃ pre n e rest, scanNames values names idx = some (n, e, idx + pre.length + 1) ∧
      names = pre ++ n :: rest ∧ (∀ m ∈ pre, mapGet values m = none) ∧ mapGet values n = some e := by
  induction names generalizing idx with
  | nil => left; exact ⟨rfl, by simp⟩
  | cons m rest ih =>
    cases hv : mapGet values m with
    | some e =>
      right
      exact ⟨[], m, e, rest, by simp [scanNames, hv], rfl, by simp, hv⟩
    | none =>
      rcases ih (idx + 1) with ⟨h1, h2⟩ | ⟨pre, n, e, rest', h1, h2, h3, h4⟩
      · left
        refine ⟨by simp [scanNames, hv, h1], ?_⟩
        intro x hx
        rcases List.mem_cons.mp hx with rfl | hx
        · exact hv
        · exact h2 x hx
      · right
        refine ⟨m :: pre, n, e, rest', ?_, by rw [h2]; rfl, ?_, h4⟩
        · simp only [scanNames, hv, h1, List.length_cons]
          congr 3
          omega
        · intro x hx
          rcases List.mem_cons.mp hx with rfl | hx
          · exact hv
          · exact h3 x hx

theorem drop_of_split {α : Type} (l pre rest : List α) (a : α) (idx : Nat)
    (h : l.drop idx = pre ++ a :: rest) : l.drop (idx + pre.length + 1) = rest := by
  have h1 : l.drop (idx + pre.length + 1) = (l.drop idx).drop (pre.length + 1) := by
    rw [List.drop_drop, Nat.add_assoc]
  rw [h1, h]
  simp

theorem objectPropIter_next_own (rt : Runtime) (i : objectPropIter) (o : baseObject)
    (depth : Nat) (ho : rt.objects[i.o]? = some o) (hrec : i.recursive = false) :
    (i.next (depth + 1) rt = .ret ({}, none) ∧
      ∀ m ∈ i.propNames.drop i.idx, mapGet o.values m = none) ∨
    ∃ pre n e, i.next (depth + 1) rt
        = .ret ({ name := n, value := some e },
            some { i with idx := i.idx + pre.length + 1 }) ∧
      i.propNames.drop i.idx = pre ++ n :: i.propNames.drop (i.idx + pre.length + 1) ∧
      (∀ m ∈ pre, mapGet o.values m = none) ∧ mapGet o.values n = some e := by
  rcases scanNames_split o.values (i.propNames.drop i.idx) i.idx with
    ⟨h1, h2⟩ | ⟨pre, n, e, rest, h1, h2, h3, h4⟩
  · left
    refine ⟨?_, h2⟩
    simp [objectPropIter.next, ho, h1, hrec]
  · right
    refine ⟨pre, n, e, ?_, ?_, h3, h4⟩
    · simp [objectPropIter.next, ho, h1]
    · rw [drop_of_split _ _ _ _ _ h2]
      exact h2

theorem entryAt_of_object (rt : Runtime) (r : Ref) (o : baseObject) (n : String)
    (ho : rt.objects[r]? = some o) : entryAt rt r n = mapGet o.values n := by
  simp [entryAt, ho]

theorem snapshotConsistent_nil (r : Ref) (snapshot : List String) (rts : List Runtime)
    (ended : Bool) (h : snapshot.length < rts.length → ended = true) :
    SnapshotConsistent r snapshot rts [] ended :=
  ⟨by simp, by simp, by simp, by simp, h⟩

theorem snapshotConsistent_cons (r : Ref) (rt : Runtime) (rts : List Runtime)
    (snapshot pre rest : List String) (n : String) (e : Entry) (x : propIterItem)
    (items : List propIterItem) (ended : Bool)
    (hsplit : snapshot = pre ++ n :: rest) (hname : x.name = n) (hvalue : x.value = some e)
    (hentry : entryAt rt r n = some e)
    (h : SnapshotConsistent r rest rts items ended) :
    SnapshotConsistent r snapshot (rt :: rts) (x :: items) ended := by
  obtain ⟨h1, h2, _, h4, h5⟩ := h
  have hsub : ((x :: items).map (·.name)).Sublist snapshot := by
    rw [hsplit, List.map_cons, hname]
    exact (h1.cons₂ n).trans (List.sublist_append_right pre _)
  refine ⟨hsub, ?_, ?_, ?_, ?_⟩
  · intro k item hk
    cases k with
    | zero =>
      simp only [List.getElem?_cons_zero, Option.some.injEq] at hk
      subst hk
      exact ⟨rt, by simp, by simp [hvalue], by rw [hname, hvalue, hentry]⟩
    | succ k =>
      simp only [List.getElem?_cons_succ] at hk
      obtain ⟨rt', hrt, hv, he⟩ := h2 k item hk
      exact ⟨rt', by simpa using hrt, hv, he⟩
  · intro m hm hmem
    exact hm (hsub.subset hmem)
  · have := hsub.length_le
    simpa using this
  · intro hlen
    apply h5
    rw [hsplit] at hlen
    simp only [List.length_append, List.length_cons] at hlen
    omega

theorem stepThrough_spec (r : Ref) (depth : Nat) (rts : List Runtime) :
    ∀ (i : objectPropIter), i.o = r → i.recursive = false →
      allocatedThroughout r rts = true →
      ∃ items e, stepThrough (depth + 1) rts i = .ret (items, e) ∧
        SnapshotConsistent r (i.propNames.drop i.idx) rts items e.isNone ∧
        (e = none → ∀ n ∈ i.propNames.drop i.idx,
          (∀ rt ∈ rts.take (items.length + 1), (entryAt rt r n).isSome = true) →
          n ∈ items.map (·.name)) := by
  induction rts with
  | nil =>
    intro i _ _ _
    exact ⟨[], some i, rfl, snapshotConsistent_nil _ _ _ _ (by simp), by simp⟩
  | cons rt rts ih =>
    intro i hio hrec halloc
    simp only [allocatedThroughout, List.all_cons, Bool.and_eq_true] at halloc
    obtain ⟨hrt, hrest⟩ := halloc
    obtain ⟨o, ho⟩ := Option.isSome_iff_exists.mp hrt
    have ho' : rt.objects[i.o]? = some o := by rw [hio]; exact ho
    rcases objectPropIter_next_own rt i o depth ho' hrec with
      ⟨hnext, hnone⟩ | ⟨pre, n, e, hnext, hsplit, hpre, hn⟩
    · refine ⟨[], none, by simp [stepThrough, hnext],
        snapshotConsistent_nil _ _ _ _ (fun _ => rfl), ?_⟩
      intro _ m hm hall
      have h1 := hall rt (by simp)
      rw [entryAt_of_object rt r o m ho, hnone m hm] at h1
      simp at h1
    · obtain ⟨items, e', hrun, hcons, hcomplete⟩ :=
        ih { i with idx := i.idx + pre.length + 1 } hio hrec hrest
      refine ⟨{ name := n, value := some e } :: items, e', by simp [stepThrough, hnext, hrun],
        snapshotConsistent_cons r rt rts _ pre _ n e _ items _ hsplit rfl rfl
          (by rw [entryAt_of_object rt r o n ho, hn]) hcons, ?_⟩
      intro he m hm hall
      rw [hsplit] at hm
      simp only [List.length_cons, List.take_succ_cons, List.mem_cons, forall_eq_or_imp] at hall
      rcases List.mem_append.mp hm with hm | hm
      · have h1 := hall.1
        rw [entryAt_of_object rt r o m ho, hpre m hm] at h1
        simp at h1
      · rcases List.mem_cons.mp hm with rfl | hm
        · simp
        · have := hcomplete he m hm hall.2
          simp only [List.map_cons, List.mem_cons]
          right
          exact this

theorem propFilterIter_next_own (rt : Runtime) (r : Ref) (o : baseObject) (depth : Nat)
    (ho : rt.objects[r]? = some o) :
    ∀ (fuel : Nat) (i : propFilterIter), i.wrapped.o = r → i.wrapped.recursive = false →
      (i.all = false → ∀ n ∈ i.wrapped.propNames.drop i.wrapped.idx, ∀ pr,
        o.values n = some (.prop pr) → (rt.props[pr]?).isSome = true) →
      (i.wrapped.propNames.drop i.wrapped.idx).length < fuel →
      i.next (depth + 1) fuel rt = .ret ({}, none) ∨
      ∃ pre n e j, i.next (depth + 1) fuel rt = .ret ({ name := n, value := some e }, some j) ∧
        i.wrapped.propNames.drop i.wrapped.idx
          = pre ++ n :: j.wrapped.propNames.drop j.wrapped.idx ∧
        mapGet o.values n = some e ∧ j.wrapped.o = r ∧ j.wrapped.recursive = false ∧
        j.wrapped.propNames = i.wrapped.propNames ∧ j.all = i.all := by
  intro fuel
  induction fuel with
  | zero => intro i _ _ _ h; simp at h
  | succ fuel ih =>
    intro i hio hrec hrecords hlen
    have ho' : rt.objects[i.wrapped.o]? = some o := by rw [hio]; exact ho
    rcases objectPropIter_next_own rt i.wrapped o depth ho' hrec with
      ⟨hnext, _⟩ | ⟨pre, n, e, hnext, hsplit, _, hn⟩
    · left
      simp [propFilterIter.next, hnext]
    · have hlen' : (i.wrapped.propNames.drop (i.wrapped.idx + pre.length + 1)).length < fuel := by
        have := congrArg List.length hsplit
        simp only [List.length_append, List.length_cons] at this
        omega
      have hsub : ∀ m ∈ i.wrapped.propNames.drop (i.wrapped.idx + pre.length + 1),
          m ∈ i.wrapped.propNames.drop i.wrapped.idx := by
        intro m hm
        rw [hsplit]
        exact List.mem_append_right _ (List.mem_cons_of_mem _ hm)
      have hrecords' : i.all = false →
          ∀ m ∈ i.wrapped.propNames.drop (i.wrapped.idx + pre.length + 1),
          ∀ pr, o.values m = some (.prop pr) → (rt.props[pr]?).isSome = true :=
        fun ha m hm => hrecords ha m (hsub m hm)
      have hmem : n ∈ i.wrapped.propNames.drop i.wrapped.idx := by
        rw [hsplit]
        exact List.mem_append_right _ (List.mem_cons_self _ _)
      have skip : ∀ (seen : List String),
          (propFilterIter.next (depth + 1) fuel rt
              { wrapped := { i.wrapped with idx := i.wrapped.idx + pre.length + 1 },
                all := i.all, seen := seen } = .ret ({}, none)) ∨
          ∃ pre' n' e' j, propFilterIter.next (depth + 1) fuel rt
              { wrapped := { i.wrapped with idx := i.wrapped.idx + pre.length + 1 },
                all := i.all, seen := seen }
              = .ret ({ name := n', value := some e' }, some j) ∧
            i.wrapped.propNames.drop i.wrapped.idx
              = pre' ++ n' :: j.wrapped.propNames.drop j.wrapped.idx ∧
            mapGet o.values n' = some e' ∧ j.wrapped.o = r ∧ j.wrapped.recursive = false ∧
            j.wrapped.propNames = i.wrapped.propNames ∧ j.all = i.all := by
        intro seen
        rcases ih { wrapped := { i.wrapped with idx := i.wrapped.idx + pre.length + 1 },
                    all := i.all, seen := seen } hio hrec hrecords' hlen' with
          h | ⟨pre', n', e', j, h1, h2, h3, h4, h5, h6, h7⟩
        · left; exact h
        · right
          refine ⟨pre ++ n :: pre', n', e', j, h1, ?_, h3, h4, h5, h6, h7⟩
          rw [hsplit]
          simp only at h2
          rw [h2]
          simp
      have done : ∀ (seen : List String),
          ∃ pre' n' e' j, (Outcome.ret (({ name := n, value := some e } : propIterItem),
              some ({ wrapped := { i.wrapped with idx := i.wrapped.idx + pre.length + 1 },
                      all := i.all, seen := seen } : propFilterIter))
              : Outcome (propIterItem × Option propFilterIter))
              = .ret ({ name := n', value := some e' }, some j) ∧
            i.wrapped.propNames.drop i.wrapped.idx
              = pre' ++ n' :: j.wrapped.propNames.drop j.wrapped.idx ∧
            mapGet o.values n' = some e' ∧ j.wrapped.o = r ∧ j.wrapped.recursive = false ∧
            j.wrapped.propNames = i.wrapped.propNames ∧ j.all = i.all :=
        fun seen => ⟨pre, n, e, _, rfl, hsplit, hn, hio, hrec, rfl, rfl⟩
      unfold propFilterIter.next
      simp only [hnext]
      by_cases hseen : n ∈ i.seen
      · simp only [hseen, if_true]
        exact skip i.seen
      · simp only [hseen, if_false]
        cases hall : i.all with
        | true =>
          simp only [if_true]
          right
          have := done (n :: i.seen)
          rw [hall] at this
          exact this
        | false =>
          simp only [Bool.false_eq_true, if_false, reduceCtorEq, if_true]
          cases e with
          | val v =>
            right
            have := done (n :: i.seen)
            rw [hall] at this
            exact this
          | nil =>
            right
            have := done (n :: i.seen)
            rw [hall] at this
            exact this
          | prop pr =>
            obtain ⟨p, hp⟩ := Option.isSome_iff_exists.mp
              (hrecords hall n hmem pr (mapGet_eq_some.mp hn).1)
            simp only [hp]
            cases hen : p.enumerable with
            | true =>
              simp only [Bool.not_true, Bool.false_eq_true, if_false]
              right
              have := done (n :: i.seen)
              rw [hall] at this
              exact this
            | false =>
              simp only [Bool.not_false, if_true]
              have := skip (n :: i.seen)
              rw [hall] at this
              exact this

theorem filterThrough_spec (r : Ref) (depth fuel : Nat) (rts : List Runtime) :
    ∀ (i : propFilterIter), i.wrapped.o = r → i.wrapped.recursive = false →
      allocatedThroughout r rts = true →
      (i.all = false → recordsThroughout r i.wrapped.propNames rts = true) →
      (i.wrapped.propNames.drop i.wrapped.idx).length < fuel →
      ∃ items e, filterThrough (depth + 1) fuel rts i = .ret (items, e) ∧
        SnapshotConsistent r (i.wrapped.propNames.drop i.wrapped.idx) rts items e.isNone := by
  induction rts with
  | nil =>
    intro i _ _ _ _ _
    exact ⟨[], some i, rfl, snapshotConsistent_nil _ _ _ _ (by simp)⟩
  | cons rt rts ih =>
    intro i hio hrec halloc hrecords hlen
    simp only [allocatedThroughout, List.all_cons, Bool.and_eq_true] at halloc
    simp only [recordsThroughout, List.all_cons, Bool.and_eq_true] at hrecords
    obtain ⟨hrt, hrest⟩ := halloc
    obtain ⟨o, ho⟩ := Option.isSome_iff_exists.mp hrt
    have hrecs' : i.all = false → ∀ n ∈ i.wrapped.propNames.drop i.wrapped.idx, ∀ pr,
        o.values n = some (.prop pr) → (rt.props[pr]?).isSome = true := by
      intro ha n hn pr hv
      have h1 := List.all_eq_true.mp (hrecords ha).1 n (List.mem_of_mem_drop hn)
      rw [entryAt_of_object rt r o n ho, mapGet_eq_some.mpr ⟨hv, by simp⟩] at h1
      exact h1
    rcases propFilterIter_next_own rt r o depth ho fuel i hio hrec hrecs' hlen with
      hnext | ⟨pre, n, e, j, hnext, hsplit, hn, hjo, hjrec, hjnames, hjall⟩
    · exact ⟨[], none, by simp [filterThrough, hnext],
        snapshotConsistent_nil _ _ _ _ (fun _ => rfl)⟩
    · have hlen' : (j.wrapped.propNames.drop j.wrapped.idx).length < fuel := by
        have := congrArg List.length hsplit
        simp only [List.length_append, List.length_cons] at this
        omega
      obtain ⟨items, e', hrun, hcons⟩ := ih j hjo hjrec hrest
        (by
          intro ha
          rw [hjall] at ha
          rw [hjnames]
          simpa [recordsThroughout] using (hrecords ha).2) hlen'
      exact ⟨{ name := n, value := some e } :: items, e',
        by simp [filterThrough, hnext, hrun],
        snapshotConsistent_cons r rt rts _ pre _ n e _ items _ hsplit rfl rfl
          (by rw [entryAt_of_object rt r o n ho, hn]) hcons⟩

/-- The run over `mutationTrace`: `b`, deleted before the first step, is skipped,
`d`, added later, is not yielded, and the third step ends the iteration. -/
theorem mutationTrace_run :
    (_enumerate threeKeyRuntime 0 false).map (stepThrough 1 mutationTrace)
      = some (.ret ([{ name := "a", value := some (.val (.int 1)) },
                     { name := "c", value := some (.val (.int 3)) }], none)) ∧
    (threeKeyAfterPut.objects[0]?).map baseObject.propNames = some ["a", "c", "d"] := by
  constructor <;> decide

theorem filterItems_mem_enumerable (rt : Runtime) (xs : List propIterItem) :
    ∀ (seen : List String) (x : propIterItem), x ∈ filterItems rt false seen xs →
      itemEnumerable rt x = true := by
  induction xs with
  | nil => intro _ _ h; simp [filterItems] at h
  | cons y ys ih =>
    intro seen x h
    simp only [filterItems, Bool.false_or] at h
    by_cases hy : y.name ∈ seen
    · simp only [hy, if_true] at h
      exact ih seen x h
    · simp only [hy, if_false] at h
      by_cases he : itemEnumerable rt y = true
      · simp only [he, if_true, List.mem_cons] at h
        rcases h with rfl | h
        · exact he
        · exact ih _ x h
      · simp only [he, Bool.false_eq_true, if_false] at h
        exact ih _ x h

/-- The filter never lets a name through that an earlier level has marked as seen
with a non-enumerable record: `N` is not among the names yielded from the items of
a chain whose first object lists `N` and owns it as a non-enumerable record. -/
theorem filterItems_hidden (rt : Runtime) (o : baseObject) (rest : List baseObject)
    (N : String) (pr : PropRef) (p : valueProperty)
    (hN : N ∈ o.propNames) (hv : o.values N = some (.prop pr))
    (hp : rt.props[pr]? = some p) (hen : p.enumerable = false) :
    N ∉ (filterItems rt false [] (chainItems (o :: rest))).map (fun x => x.name) := by
  intro hmem
  obtain ⟨z, hz, hzN⟩ := List.mem_map.mp hmem
  have hnames : N ∈ (ownItems o.values o.propNames).map (fun x => x.name) := by
    rw [ownItems_names]
    exact List.mem_filter.mpr ⟨hN, by simp [mapGet, hv]⟩
  have happ := filterItems_append rt false (ownItems o.values o.propNames) (chainItems rest) []
    ((ownItems o.values o.propNames).map (fun x => x.name)) (fun n => by simp)
  simp only [chainItems] at hz
  rw [happ] at hz
  rcases List.mem_append.mp hz with hz | hz
  · have hin := (filterItems_mem rt false _ [] z hz).1
    have hpass := filterItems_mem_enumerable rt _ [] z hz
    obtain ⟨_, hval, _, hunk⟩ := ownItems_mem o.values o.propNames z hin
    rw [hzN, hv] at hval
    simp [itemEnumerable, hunk, hval, hp, hen] at hpass
  · have hout := (filterItems_mem rt false _ _ z hz).2
    rw [hzN] at hout
    exact hout hnames

theorem hiddenRuntime_records :
    RecordsAllocated hiddenRuntime (chainItems [hiddenOwner, shadowParent]) := by
  intro x hx pr hv
  have hitems : chainItems [hiddenOwner, shadowParent]
      = [{ name := "x", value := some (.prop 0) },
         { name := "x", value := some (.val (.int 2)) },
         { name := "y", value := some (.val (.int 3)) }] := by decide
  rw [hitems] at hx
  simp only [List.mem_cons, List.mem_singleton, List.not_mem_nil, or_false] at hx
  rcases hx with rfl | rfl | rfl
  · simp only [Option.some.injEq, Entry.prop.injEq] at hv
    subst hv
    exact ⟨_, rfl⟩
  · simp at hv
  · simp at hv

/-- The enumeration of `hiddenRuntime` from object 0 yields `y` only: the inherited
enumerable `x` is hidden by the own non-enumerable `x`. -/
theorem hiddenRuntime_run :
    (enumerate hiddenRuntime 0 false true).map (drain 2 4 4 hiddenRuntime)
      = some (.ret [{ name := "y", value := some (.val (.int 3)) }]) := by
  decide

/-! ## Claims -/

/-- C1 (amended): for a base object O that is extensible and whose mapping has no
binding for N (neither an entry nor the nil that `swap` stores for a hole), where N
is not `__proto__` and the prototype chain resolves N to nothing, to a bare value or
to a writable data Property record, and for every value V other than nil:
`putStr(N, V, false)` returns, and afterwards `getStr(N)` returns V, N is the last
element of the key list (the old key list with N appended) and
`hasOwnPropertyStr(N)` is true. -/
theorem putStr_new_property (vm : Host) (fuel : Nat) (rt rt1 : Runtime) (r : Ref)
    (o : baseObject) (N : String) (V : Value) (pprop : Option Entry)
    (ho : rt.objects[r]? = some o) (hself : o.self = .baseObject)
    (hext : o.extensible = true) (hown : o.values N = none) (hN : N ≠ "__proto__")
    (hl : protoLookup fuel rt o N = ⟨rt1, .ret pprop⟩)
    (hp : inheritedAllowsCreate rt1 pprop = true) :
    ∃ rt2 o2, putStr vm fuel rt r N (some V) false = ⟨rt2, .ret ()⟩ ∧
      (∀ fuel2, getStr vm (fuel2 + 1) rt2 r N = ⟨rt2, .ret (some V)⟩) ∧
      rt2.objects[r]? = some o2 ∧
      o2.propNames = o.propNames ++ [N] ∧
      o2.propNames.getLast? = some N ∧
      o2.hasOwnPropertyStr N = true := by
  have ho1 : rt1.objects[r]? = some o := by
    unfold protoLookup at hl
    cases hpr : o.prototype with
    | none =>
      rw [hpr] at hl
      cases hl
      exact ho
    | some proto =>
      rw [hpr] at hl
      have := getPropStr_objects_frame fuel rt proto N r o ho (by simp [hself])
      simp only [] at hl
      rw [hl] at this
      exact this
  obtain ⟨rt2, o2, hput, ho2, hs2, hv2, hk2⟩ := putNew_spec rt1 r o N V ho1
  have hputStr : putStr vm fuel rt r N (some V) false = ⟨rt2, .ret ()⟩ := by
    simp only [putStr, ho, hown, hN, if_false, hl, Res.bind_ret]
    cases pprop with
    | none => simp [ho1, hext, hput]
    | some e =>
      cases e with
      | val v => simpa using hput
      | nil => simp [ho1, hext, hput]
      | prop pr =>
        simp only [inheritedAllowsCreate] at hp
        cases hpp : rt1.props[pr]? with
        | none => simp [hpp] at hp
        | some p =>
          simp only [hpp, Bool.and_eq_true, Bool.not_eq_true', ] at hp ⊢
          simp [valueProperty.isWritable, hp.1, hp.2, hput]
  refine ⟨rt2, o2, hputStr, ?_, ho2, hk2, ?_, ?_⟩
  · exact fun fuel2 => getStr_own_bare vm fuel2 rt2 r o2 N V ho2 (hs2.trans hself) hv2
  · simp [hk2]
  · simp [baseObject.hasOwnPropertyStr, mapGet, hv2]

/-- C1, evaluated: `o.x = 7` on a fresh object. -/
theorem putStr_new_property_witness :
    ∃ rt2 o2, putStr idleHost 1 plainRuntime 0 "x" (some (.int 7)) false = ⟨rt2, .ret ()⟩ ∧
      (∀ fuel2, getStr idleHost (fuel2 + 1) rt2 0 "x" = ⟨rt2, .ret (some (.int 7))⟩) ∧
      rt2.objects[0]? = some o2 ∧
      o2.propNames = plainObject.propNames ++ ["x"] ∧
      o2.propNames.getLast? = some "x" ∧
      o2.hasOwnPropertyStr "x" = true :=
  putStr_new_property idleHost 1 plainRuntime plainRuntime 0 plainObject "x" (.int 7) none
    rfl rfl rfl rfl (by decide) rfl rfl

/-- C1 as stated fails on an extensible object without own entry N: the write of
`__proto__` creates no own property, appends no key and a later `getStr` finds
nothing; and a write of a name inherited as a non-writable data record is dropped,
so that `getStr` still returns the inherited value 1 and not the written 2; and a
write of a name inherited as an accessor with a setter goes to the setter and
creates no own property; and after `swap(0, 1)` on the object `{0: "a"}` the key `0`
is bound to nil, so that `hasOwnPropertyStr("0")` is false while `putStr("0", 5,
false)` overwrites the binding in place: the key list stays `["0", "1"]` and its
last element is `1`, not `0`. -/
theorem putStr_new_property_counterexample :
    (plainRuntime.objects[0]? = some plainObject ∧ plainObject.extensible = true ∧
      plainObject.values "__proto__" = none ∧
      ((putStr idleHost 1 plainRuntime 0 "__proto__" (some (.int 1)) false).rt.objects[0]?).map
        (fun o => (o.hasOwnPropertyStr "__proto__", o.propNames)) = some (false, []) ∧
      (getStr idleHost 1 (putStr idleHost 1 plainRuntime 0 "__proto__" (some (.int 1)) false).rt 0
        "__proto__").out = .ret none) ∧
    ((readOnlyRuntime "x").objects[1]? = some (childOf 0) ∧ (childOf 0).extensible = true ∧
      (childOf 0).values "x" = none ∧
      ((putStr idleHost 1 (readOnlyRuntime "x") 1 "x" (some (.int 2)) false).rt.objects[1]?).map
        (fun o => (o.hasOwnPropertyStr "x", o.propNames)) = some (false, []) ∧
      (getStr idleHost 2 (putStr idleHost 1 (readOnlyRuntime "x") 1 "x" (some (.int 2)) false).rt 1
        "x").out = .ret (some (.int 1))) ∧
    (setterProtoRuntime.objects[1]? = some (childOf 0) ∧ (childOf 0).extensible = true ∧
      (childOf 0).values "x" = none ∧
      ((putStr idleHost 1 setterProtoRuntime 1 "x" (some (.int 2)) false).rt.objects[1]?).map
        (fun o => (o.hasOwnPropertyStr "x", o.propNames)) = some (false, [])) ∧
    ((swappedRuntime.objects[0]?).map
        (fun o => (o.values "0", o.hasOwnPropertyStr "0", o.extensible, o.propNames))
        = some (some .nil, false, true, ["0", "1"]) ∧
      ((putStr idleHost 1 swappedRuntime 0 "0" (some (.int 5)) false).rt.objects[0]?).map
        (fun o => (o.hasOwnPropertyStr "0", o.propNames, o.propNames.getLast?))
        = some (true, ["0", "1"], some "1")) := by
  refine ⟨⟨rfl, rfl, rfl, ?_, ?_⟩, ⟨rfl, rfl, rfl, ?_, ?_⟩, ⟨rfl, rfl, rfl, ?_⟩, ⟨?_, ?_⟩⟩ <;>
    decide

/-- C2 at the failing input: object 1 is not extensible, has no own `x` and
inherits `x` as a bare (writable) data value from object 0.  `putStr("x", 2, false)`
creates the own entry `x = 2` and appends `x` to the key list, and
`putStr("x", 2, true)` returns without a TypeError. -/
theorem putStr_nonextensible_inherited_data :
    sealedChildRuntime.objects[1]? = some (childOf 0).preventExtensions ∧
    (childOf 0).preventExtensions.extensible = false ∧
    (childOf 0).preventExtensions.values "x" = none ∧
    (protoLookup 1 sealedChildRuntime (childOf 0).preventExtensions "x").out
      = .ret (some (.val (.int 1))) ∧
    ((putStr idleHost 1 sealedChildRuntime 1 "x" (some (.int 2)) false).rt.objects[1]?).map
      (fun o => (o.values "x", o.propNames, o.extensible))
      = some (some (.val (.int 2)), ["x"], false) ∧
    (putStr idleHost 1 sealedChildRuntime 1 "x" (some (.int 2)) true).out = .ret () := by
  refine ⟨rfl, rfl, rfl, ?_, ?_, ?_⟩ <;> decide

/-- C3 (amended): for an object O of any implementation with no own entry N, N not
being `__proto__` (nor a restricted name of a bound function object, which does
not reach `baseObject.putStr`), whose lookup of N resolves to a data Property
record with `writable = false` and value v: `putStr(N, v2, false)` returns and
leaves the whole runtime, hence O, unchanged, `putStr(N, v2, true)` raises a
TypeError and leaves it unchanged, `getStr(N)` returns v and
`hasOwnPropertyStr(N)` is false; `v2` may also be the nil that `swap` passes. -/
theorem putStr_readonly_inherited (vm : Host) (fuel : Nat) (rt rt1 : Runtime) (r : Ref)
    (o : baseObject) (N : String) (v : Value) (v2 : Option Value) (pr : PropRef)
    (p : valueProperty)
    (ho : rt.objects[r]? = some o) (hself : o.restricts N = false)
    (hown : o.values N = none) (hN : N ≠ "__proto__")
    (hl : getPropStr (fuel + 1) rt r N = ⟨rt1, .ret (some (.prop pr))⟩)
    (hp : rt1.props[pr]? = some p) (hacc : p.accessor = false) (hw : p.writable = false)
    (hval : p.value = some v) :
    putStr vm fuel rt r N v2 false = ⟨rt, .ret ()⟩ ∧
    putStr vm fuel rt r N v2 true = ⟨rt, .typeError⟩ ∧
    getStr vm (fuel + 1) rt r N = ⟨rt, .ret (some v)⟩ ∧
    o.hasOwnPropertyStr N = false := by
  have hl0 := hl
  have hfresh : ∀ (rt' : Runtime) (e : Option Entry) (pr' : PropRef) (q : valueProperty),
      rt' = rt1 → e = some (.prop pr) → e = some (.prop pr') → rt'.props[pr']? = some q →
      q.writable = true → False := by
    intro rt' e pr' q hrt he he' hq hqw
    subst hrt he
    injection he' with he'
    injection he' with he'
    subst he'
    rw [hp] at hq
    injection hq with hq
    subst hq
    rw [hw] at hqw
    cases hqw
  have hbound : ¬ ((o.self = .boundFuncObject true ∨ o.self = .boundFuncObject false) ∧
      (N = "caller" ∨ N = "arguments")) := by
    simpa [baseObject.restricts] using hself
  simp only [getPropStr, ho] at hl
  by_cases hlazy : o.self = .funcObject ∧ N = "prototype" ∧ o.values "prototype" = none
  · exfalso
    rw [if_pos hlazy] at hl
    generalize hres : addPrototype rt r = res at hl
    rcases res with ⟨rt2, out⟩
    cases out with
    | ret a =>
      simp only [Res.bind_ret] at hl
      injection hl with h1 h2
      injection h2 with h2
      obtain ⟨pr', q, he, hq, hqw, _⟩ := addPrototype_result rt rt2 r a hres
      exact hfresh rt2 (some a) pr' q h1 h2 (by rw [he]) hq hqw
    | typeError => simp at hl
    | outOfFuel => simp at hl
    | invalidRef => simp at hl
  rw [if_neg hlazy, if_neg hbound] at hl
  simp only [baseObject.getOwnProp, mapGet, hown] at hl
  have hN2 : N ≠ "__proto" := by
    intro h
    simp [h] at hl
  simp only [hN2, if_false] at hl
  obtain ⟨proto, hproto⟩ : ∃ proto, o.prototype = some proto := by
    cases hpr : o.prototype with
    | none => simp [hpr] at hl
    | some proto => exact ⟨proto, rfl⟩
  have hl1 : getPropStr fuel rt proto N = ⟨rt1, .ret (some (.prop pr))⟩ := by
    simpa [hproto] using hl
  have hrt : rt1 = rt := by
    rcases getPropStr_result fuel rt rt1 proto N _ hl1 with h | ⟨pr', q, he, hq, hqw, _⟩
    · exact h
    · exact (hfresh rt1 _ pr' q rfl rfl he hq hqw).elim
  subst hrt
  have hwr : p.isWritable = false := by simp [valueProperty.isWritable, hacc, hw]
  refine ⟨?_, ?_, ?_, ?_⟩
  · simp [putStr, ho, hown, hN, protoLookup, hproto, hl1, hp, hwr, typeErrorResult]
  · simp [putStr, ho, hown, hN, protoLookup, hproto, hl1, hp, hwr, typeErrorResult]
  · simp [getStr, hl0, hp, valueProperty.get, hacc, hval]
  · simp [baseObject.hasOwnPropertyStr, mapGet, hown]

/-- C3, evaluated: `o.x = 2` where the prototype holds `x` as a read-only 1. -/
theorem putStr_readonly_inherited_witness :
    putStr idleHost 1 (readOnlyRuntime "x") 1 "x" (some (.int 2)) false
      = ⟨readOnlyRuntime "x", .ret ()⟩ ∧
    putStr idleHost 1 (readOnlyRuntime "x") 1 "x" (some (.int 2)) true
      = ⟨readOnlyRuntime "x", .typeError⟩ ∧
    getStr idleHost (1 + 1) (readOnlyRuntime "x") 1 "x"
      = ⟨readOnlyRuntime "x", .ret (some (.int 1))⟩ ∧
    (childOf 0).hasOwnPropertyStr "x" = false :=
  putStr_readonly_inherited idleHost 1 (readOnlyRuntime "x") (readOnlyRuntime "x") 1 (childOf 0)
    "x" (.int 1) (some (.int 2)) 0 { value := some (.int 1), enumerable := true }
    rfl rfl rfl (by decide) rfl rfl rfl rfl rfl

/-- C3 as stated fails for N = `__proto__`: object 1 has no own `__proto__`, its
lookup resolves the name to the non-writable data record of object 0, and yet the
strict write of `undefined` raises no TypeError; after the non-strict write the
prototype link is gone and `getStr("__proto__")` finds nothing instead of 1. -/
theorem putStr_readonly_inherited_counterexample :
    (readOnlyRuntime "__proto__").objects[1]? = some (childOf 0) ∧
    (childOf 0).values "__proto__" = none ∧
    getPropStr 2 (readOnlyRuntime "__proto__") 1 "__proto__"
      = ⟨readOnlyRuntime "__proto__", .ret (some (.prop 0))⟩ ∧
    (readOnlyRuntime "__proto__").props[0]?
      = some { value := some (.int 1), enumerable := true } ∧
    (putStr idleHost 1 (readOnlyRuntime "__proto__") 1 "__proto__" (some .undefined) true).out
      = .ret () ∧
    (getStr idleHost 2
      (putStr idleHost 1 (readOnlyRuntime "__proto__") 1 "__proto__" (some .undefined) false).rt 1
      "__proto__").out = .ret none := by
  refine ⟨rfl, rfl, rfl, rfl, ?_, ?_⟩ <;> decide

/-- C4 (amended): for a base object O whose key list has no duplicates and lists N
only if the mapping binds N: if `deleteStr(N, false)` returns true, then afterwards
`hasOwnPropertyStr(N)` is false and the key list is the previous key list with N
removed (the other names in their order). -/
theorem deleteStr_removes_key (vm : Host) (fuel : Nat) (rt : Runtime) (r : Ref)
    (o : baseObject) (N : String)
    (ho : rt.objects[r]? = some o) (hnd : o.propNames.Nodup)
    (hinv : N ∈ o.propNames → (o.values N).isSome = true)
    (hret : (deleteStr vm fuel rt r N false).out = .ret true) :
    ∃ o', (deleteStr vm fuel rt r N false).rt.objects[r]? = some o' ∧
      o'.hasOwnPropertyStr N = false ∧
      o'.propNames = o.propNames.filter (fun n => n != N) := by
  simp only [deleteStr, ho] at hret ⊢
  cases hv : o.values N with
  | none =>
    refine ⟨o, by simpa using ho, by simp [baseObject.hasOwnPropertyStr, mapGet, hv], ?_⟩
    have hnot : N ∉ o.propNames := fun hm => by simpa [hv] using hinv hm
    rw [← hnd.erase_eq_filter N, List.erase_of_not_mem hnot]
  | some e =>
    rw [hv] at hret
    have hck : checkDelete vm fuel rt r e false = ⟨rt, .ret true⟩ := by
      cases e with
      | val v => rfl
      | nil => rfl
      | prop pr =>
        simp only [checkDelete] at hret ⊢
        cases hp : rt.props[pr]? with
        | none => simp [hp, Res.bind] at hret
        | some p =>
          cases hc : p.configurable with
          | true => exact checkDeleteProp_configurable vm fuel rt r p false hc
          | false =>
            exfalso
            have hne := checkDeleteProp_out vm fuel rt r p false hc
            simp only [hp] at hret
            generalize checkDeleteProp vm fuel rt r p false = res at hret hne
            rcases res with ⟨rt1, out⟩
            cases out with
            | ret b => cases b <;> simp_all [Res.bind]
            | typeError => simp [Res.bind] at hret
            | outOfFuel => simp [Res.bind] at hret
            | invalidRef => simp [Res.bind] at hret
    simp only [hck, Res.bind_ret]
    refine ⟨o._delete N, objects_setObj_self rt r o _ ho, ?_, ?_⟩
    · simp [baseObject.hasOwnPropertyStr, mapGet, baseObject._delete, mapDelete]
    · simp only [baseObject._delete, removeName_eq_erase]
      exact hnd.erase_eq_filter N

/-- C4, evaluated: `delete o.a` on `{a: 1, b: 2}`. -/
theorem deleteStr_removes_key_witness :
    ∃ o', (deleteStr idleHost 1 twoKeyRuntime 0 "a" false).rt.objects[0]? = some o' ∧
      o'.hasOwnPropertyStr "a" = false ∧
      o'.propNames = twoKeyObject.propNames.filter (fun n => n != "a") :=
  deleteStr_removes_key idleHost 1 twoKeyRuntime 0 twoKeyObject "a" rfl (by decide) (by decide)
    (by decide)

/-- C4 as stated fails when the key list names N without an entry in the mapping:
the key list `["a"]` has no duplicates, `deleteStr("a", false)` returns true, and
the key list is still `["a"]`, not the key list with `a` removed. -/
theorem deleteStr_stale_key_counterexample :
    staleKeyRuntime.objects[0]? = some staleKeyObject ∧
    staleKeyObject.propNames.Nodup ∧
    (deleteStr idleHost 1 staleKeyRuntime 0 "a" false).out = .ret true ∧
    ((deleteStr idleHost 1 staleKeyRuntime 0 "a" false).rt.objects[0]?).map baseObject.propNames
      = some ["a"] ∧
    ["a"] ≠ staleKeyObject.propNames.filter (fun n => n != "a") := by
  refine ⟨rfl, by decide, rfl, rfl, by decide⟩

/-- C5 (amended): `deleteStr(N, false)` returns false only if the own entry of N is
a Property record with `configurable = false`, and `deleteStr(N, true)` raises a
TypeError only in that case.  In that case the call first converts O to a string
for the diagnostic: when the conversion returns, `deleteStr(N, false)` returns
false and `deleteStr(N, true)` raises a TypeError, and when the conversion raises a
TypeError so does `deleteStr(N, throw)` for either `throw`; the runtime is left as
the conversion left it.  When the mapping of O has no binding for N the result is
true and the runtime, hence the mapping and the key list of O, is unchanged. -/
theorem deleteStr_nonconfigurable (vm : Host) (fuel : Nat) (rt : Runtime) (r : Ref)
    (o : baseObject) (name : String)
    (ho : rt.objects[r]? = some o) :
    ((deleteStr vm fuel rt r name false).out = .ret false → NonConfigurableOwn rt o name) ∧
    ((deleteStr vm fuel rt r name true).out = .typeError → NonConfigurableOwn rt o name) ∧
    (NonConfigurableOwn rt o name →
      (∀ rt1, Object.ToString vm fuel rt r = ⟨rt1, .ret ()⟩ →
        deleteStr vm fuel rt r name false = ⟨rt1, .ret false⟩ ∧
        deleteStr vm fuel rt r name true = ⟨rt1, .typeError⟩) ∧
      (∀ rt1, Object.ToString vm fuel rt r = ⟨rt1, .typeError⟩ →
        ∀ throw, deleteStr vm fuel rt r name throw = ⟨rt1, .typeError⟩)) ∧
    (o.values name = none → ∀ throw, deleteStr vm fuel rt r name throw = ⟨rt, .ret true⟩) := by
  unfold NonConfigurableOwn
  simp only [deleteStr, ho]
  cases hv : o.values name with
  | none => simp
  | some e =>
    cases e with
    | val v => simp [checkDelete, Res.bind]
    | nil => simp [checkDelete, Res.bind]
    | prop pr =>
      cases hp : rt.props[pr]? with
      | none => simp [checkDelete, hp, Res.bind]
      | some p =>
        cases hc : p.configurable with
        | true =>
          simp [checkDelete, hp, checkDeleteProp_configurable vm fuel rt r p _ hc, hc]
        | false =>
          refine ⟨fun _ => ⟨pr, p, rfl, hp, hc⟩, fun _ => ⟨pr, p, rfl, hp, hc⟩, ?_, by simp⟩
          refine fun _ => ⟨fun rt1 ht => ?_, fun rt1 ht throw => ?_⟩
          · obtain ⟨h1, h2⟩ := checkDeleteProp_of_toString vm fuel rt rt1 r p hc ht
            simp [checkDelete, hp, h1, h2]
          · simp [checkDelete, hp, checkDeleteProp_of_toString_error vm fuel rt rt1 r p throw hc ht,
              Res.bind]

/-- C5, evaluated on an object whose `x` is a non-configurable record and whose
`toString` is a function that returns a primitive: the conversion returns and
leaves the runtime alone, `deleteStr("x", false)` returns false and
`deleteStr("x", true)` raises a TypeError. -/
theorem deleteStr_nonconfigurable_witness :
    printableRuntime.objects[0]? = some printableObject ∧
    NonConfigurableOwn printableRuntime printableObject "x" ∧
    Object.ToString idleHost 1 printableRuntime 0 = ⟨printableRuntime, .ret ()⟩ ∧
    deleteStr idleHost 1 printableRuntime 0 "x" false = ⟨printableRuntime, .ret false⟩ ∧
    deleteStr idleHost 1 printableRuntime 0 "x" true = ⟨printableRuntime, .typeError⟩ ∧
    (printableObject.values "y" = none ∧
      ∀ throw, deleteStr idleHost 1 printableRuntime 0 "y" throw
        = ⟨printableRuntime, .ret true⟩) :=
  ⟨rfl, ⟨0, _, rfl, rfl, rfl⟩, rfl,
    ((deleteStr_nonconfigurable idleHost 1 printableRuntime 0 printableObject "x" rfl).2.2.1
      ⟨0, _, rfl, rfl, rfl⟩).1 printableRuntime rfl |>.1,
    ((deleteStr_nonconfigurable idleHost 1 printableRuntime 0 printableObject "x" rfl).2.2.1
      ⟨0, _, rfl, rfl, rfl⟩).1 printableRuntime rfl |>.2,
    rfl,
    (deleteStr_nonconfigurable idleHost 1 printableRuntime 0 printableObject "y" rfl).2.2.2 rfl⟩

/-- C5 as stated fails because the diagnostic argument `o.val.ToString()` is
evaluated whatever `throw` is.  On an object with the non-configurable record `x`
and neither `toString` nor `valueOf`, `deleteStr("x", false)` raises a TypeError
instead of returning false.  On an object whose `toString` assigns `o.k`, the call
returns false but O has gained the key `k`.  And after `swap(0, 1)` on `{0: "a"}`
the key `0` is bound to nil, so that `hasOwnPropertyStr("0")` is false, yet
`deleteStr("0", false)` removes the binding and shortens the key list. -/
theorem deleteStr_nonconfigurable_counterexample :
    (NonConfigurableOwn (readOnlyRuntime "x") (recordProto "x") "x" ∧
      (readOnlyRuntime "x").objects[0]? = some (recordProto "x") ∧
      (deleteStr idleHost 1 (readOnlyRuntime "x") 0 "x" false).out = .typeError) ∧
    (NonConfigurableOwn printableRuntime printableObject "x" ∧
      printableRuntime.objects[0]? = some printableObject ∧
      printableObject.propNames = ["x", "toString"] ∧
      (deleteStr assigningHost 1 printableRuntime 0 "x" false).out = .ret false ∧
      ((deleteStr assigningHost 1 printableRuntime 0 "x" false).rt.objects[0]?).map
        (fun o => (o.propNames, o.values "k"))
        = some (["x", "toString", "k"], some (.val (.int 1)))) ∧
    ((swappedRuntime.objects[0]?).map
        (fun o => (o.hasOwnPropertyStr "0", o.values "0", o.propNames))
        = some (false, some .nil, ["0", "1"]) ∧
      (deleteStr idleHost 1 swappedRuntime 0 "0" false).out = .ret true ∧
      ((deleteStr idleHost 1 swappedRuntime 0 "0" false).rt.objects[0]?).map
        (fun o => (o.values "0", o.propNames)) = some (none, ["1"])) := by
  refine ⟨⟨⟨0, _, rfl, rfl, rfl⟩, rfl, by decide⟩,
    ⟨⟨0, _, rfl, rfl, rfl⟩, rfl, rfl, by decide, by decide⟩,
    ⟨by decide, by decide, by decide⟩⟩

/-- C6 (amended): let the reads of the fields of descriptor D return `d` and leave
the runtime `rt1`, in which O is `o1`.  If N had no own entry before the call and D
has no `get`/`set` field, then when O is extensible after the reads
`defineOwnProperty(N, D, throw)` returns true, appends N as the last element of the
key list and stores an entry whose record has writable, enumerable and configurable
equal to D's field when supplied and false otherwise, and value equal to D's value
when supplied and `undefined` otherwise; when O is not extensible after the reads
it returns false (throw = false) or raises a TypeError (throw = true) and leaves
the runtime as the reads left it.  If N had an own entry, a call that returns true
leaves the key list as the reads left it. -/
theorem defineOwnProperty_new_data (vm : Host) (fuel : Nat) (rt rt1 : Runtime) (r : Ref)
    (o o1 : baseObject) (N : String) (descr : Ref) (d : Descriptor) (throw : Bool)
    (ho : rt.objects[r]? = some o)
    (hd : readDescriptor vm fuel rt descr = ⟨rt1, .ret d⟩)
    (ho1 : rt1.objects[r]? = some o1) :
    (o.hasOwnPropertyStr N = false → d.getter = none → d.setter = none →
      (o1.extensible = true →
        ∃ rt2 o2 en, defineOwnProperty vm fuel rt r N descr throw = ⟨rt2, .ret true⟩ ∧
          rt2.objects[r]? = some o2 ∧
          o2.propNames = o1.propNames ++ [N] ∧
          o2.propNames.getLast? = some N ∧
          o2.values N = some en ∧
          en.record rt2 = some d.freshData) ∧
      (o1.extensible = false →
        defineOwnProperty vm fuel rt r N descr false = ⟨rt1, .ret false⟩ ∧
        defineOwnProperty vm fuel rt r N descr true = ⟨rt1, .typeError⟩)) ∧
    (o.hasOwnPropertyStr N = true →
      ∀ rt2, defineOwnProperty vm fuel rt r N descr throw = ⟨rt2, .ret true⟩ →
        ∃ o2, rt2.objects[r]? = some o2 ∧ o2.propNames = o1.propNames) := by
  simp only [baseObject.hasOwnPropertyStr]
  refine ⟨fun hown hg hs => ⟨fun hext => ?_, fun hext => ?_⟩, fun hsome rt2 hres => ?_⟩
  · have hown' : mapGet o.values N = none := by simpa using hown
    obtain ⟨rt2, en, hrec, hobjs, hen⟩ := reconcile_fresh rt1 r o1 d throw ho1 hext hg hs
    have ho2 : rt2.objects[r]? = some o1 := by rw [hobjs]; exact ho1
    refine ⟨rt2.setObj r { o1 with values := mapSet o1.values N en,
                                   propNames := o1.propNames ++ [N] }, _, en, ?_,
      objects_setObj_self rt2 r o1 _ ho2, rfl, by simp, by simp [mapSet], ?_⟩
    · simp [defineOwnProperty, ho, _defineOwnProperty, hd, hown', hrec, ho2]
    · cases en with
      | val v => exact hen
      | prop pr => exact hen
      | nil => exact hen
  · have hown' : mapGet o.values N = none := by simpa using hown
    constructor <;>
      simp [defineOwnProperty, ho, _defineOwnProperty, hd, hown', reconcile, hg, hs, hext,
        ho1, typeErrorResult]
  · have hobjs := reconcile_objects rt1 r (mapGet o.values N) d throw
    simp only [defineOwnProperty, ho, _defineOwnProperty, hd, Res.bind_ret] at hres
    generalize reconcile rt1 r (mapGet o.values N) d throw = res at hres hobjs
    rcases res with ⟨rt3, out⟩
    have ho3 : rt3.objects[r]? = some o1 := by
      simp only at hobjs
      rw [hobjs]; exact ho1
    cases out with
    | ret e =>
      cases e with
      | none => simp at hres
      | some e =>
        simp only [Res.bind_ret, ho3] at hres
        injection hres with h1 _
        subst h1
        refine ⟨_, objects_setObj_self rt3 r o1 _ ho3, ?_⟩
        have : (mapGet o.values N).isNone = false := by
          cases h : mapGet o.values N <;> simp_all
        simp [this]
    | typeError => simp [Res.bind] at hres
    | outOfFuel => simp [Res.bind] at hres
    | invalidRef => simp [Res.bind] at hres

/-- C6, evaluated: `defineProperty(o, "k", {value: 5})` on a fresh object. -/
theorem defineOwnProperty_new_data_witness :
    (plainObject.hasOwnPropertyStr "k" = false →
      ({ value := some (.int 5) } : Descriptor).getter = none →
      ({ value := some (.int 5) } : Descriptor).setter = none →
      (plainObject.extensible = true →
        ∃ rt2 o2 en, defineOwnProperty idleHost 1 freshDefineRuntime 0 "k" 1 false
            = ⟨rt2, .ret true⟩ ∧
          rt2.objects[0]? = some o2 ∧
          o2.propNames = plainObject.propNames ++ ["k"] ∧
          o2.propNames.getLast? = some "k" ∧
          o2.values "k" = some en ∧
          en.record rt2 = some ({ value := some (.int 5) } : Descriptor).freshData) ∧
      (plainObject.extensible = false →
        defineOwnProperty idleHost 1 freshDefineRuntime 0 "k" 1 false
          = ⟨freshDefineRuntime, .ret false⟩ ∧
        defineOwnProperty idleHost 1 freshDefineRuntime 0 "k" 1 true
          = ⟨freshDefineRuntime, .typeError⟩)) ∧
    (plainObject.hasOwnPropertyStr "k" = true →
      ∀ rt2, defineOwnProperty idleHost 1 freshDefineRuntime 0 "k" 1 false = ⟨rt2, .ret true⟩ →
        ∃ o2, rt2.objects[0]? = some o2 ∧ o2.propNames = plainObject.propNames) :=
  defineOwnProperty_new_data idleHost 1 freshDefineRuntime freshDefineRuntime 0 plainObject
    plainObject "k" 1 { value := some (.int 5) } false rfl rfl rfl

/-- C6 as stated fails for a descriptor whose field is read through a getter with
a side effect on O: object 0 is extensible and has no entry `k`, the descriptor is
a data descriptor whose `value` getter calls `preventExtensions` on object 0, and
`defineOwnProperty("k", D, throw)` returns false (throw = false) or raises a
TypeError (throw = true) and defines nothing. -/
theorem defineOwnProperty_new_data_counterexample :
    (getterDescriptorRuntime.objects[0]?).map
      (fun o => (o.extensible, o.hasOwnPropertyStr "k")) = some (true, false) ∧
    (readDescriptor sealingHost 1 getterDescriptorRuntime 1).out
      = .ret { value := some (.int 2), configurable := some (.bool true) } ∧
    (defineOwnProperty sealingHost 1 getterDescriptorRuntime 0 "k" 1 false).out = .ret false ∧
    (defineOwnProperty sealingHost 1 getterDescriptorRuntime 0 "k" 1 true).out = .typeError ∧
    ((defineOwnProperty sealingHost 1 getterDescriptorRuntime 0 "k" 1 false).rt.objects[0]?).map
      (fun o => (o.hasOwnPropertyStr "k", o.propNames)) = some (false, []) := by
  refine ⟨?_, ?_, ?_, ?_, ?_⟩ <;> decide

/-- C7 (amended): let N be an own Property record of O, let the reads of the fields
of D return `d` and leave the runtime `rt1`, and let the record of N have
`configurable = false` then.  If D requests `configurable = true`, or an enumerable
different from the record's, or (the record being a data property with
`writable = false`) `writable = true` or a value that is not SameAs the record's,
then `defineOwnProperty(N, D, false)` returns false and
`defineOwnProperty(N, D, true)` raises a TypeError, both leaving the runtime (the
mapping, the record of N, the key list) as the reads left it. -/
theorem defineOwnProperty_nonconfigurable_reject (vm : Host) (fuel : Nat) (rt rt1 : Runtime)
    (r : Ref) (o : baseObject) (N : String) (descr : Ref) (d : Descriptor) (pr : PropRef)
    (p : valueProperty)
    (ho : rt.objects[r]? = some o) (hv : o.values N = some (.prop pr))
    (hd : readDescriptor vm fuel rt descr = ⟨rt1, .ret d⟩)
    (hp : rt1.props[pr]? = some p) (hc : p.configurable = false)
    (hreq : d.isConfigurable = true ∨
      (d.hasEnumerable = true ∧ d.isEnumerable ≠ p.enumerable) ∨
      (p.accessor = false ∧ p.writable = false ∧
        (d.isWritable = true ∨ ∃ v, d.value = some v ∧ v.SameAs p.value = false))) :
    defineOwnProperty vm fuel rt r N descr false = ⟨rt1, .ret false⟩ ∧
    defineOwnProperty vm fuel rt r N descr true = ⟨rt1, .typeError⟩ := by
  obtain ⟨h1, h2⟩ := reconcile_reject rt1 r pr p d hp (redefineRejected_of_request p d hc hreq)
  constructor
  · simp [defineOwnProperty, mapGet, ho, _defineOwnProperty, hd, hv, h1]
  · simp [defineOwnProperty, mapGet, ho, _defineOwnProperty, hd, hv, h2]

/-- C7, evaluated: `{configurable: true}` on a non-configurable property. -/
theorem defineOwnProperty_nonconfigurable_reject_witness :
    defineOwnProperty idleHost 1 frozenDataRuntime 0 "x" 1 false
      = ⟨frozenDataRuntime, .ret false⟩ ∧
    defineOwnProperty idleHost 1 frozenDataRuntime 0 "x" 1 true
      = ⟨frozenDataRuntime, .typeError⟩ :=
  defineOwnProperty_nonconfigurable_reject idleHost 1 frozenDataRuntime frozenDataRuntime 0
    (recordProto "x") "x" 1 { configurable := some (.bool true) } 0 { value := some (.int 1) }
    rfl rfl rfl rfl rfl (Or.inl rfl)

/-- C7 as stated fails for a descriptor whose field is read through a getter with
a side effect on O: `x` is a non-configurable record of object 0, the `configurable`
getter of the descriptor runs `o.k = 1` and returns a true value, and
`defineOwnProperty("x", D, false)` returns false while the mapping of O has gained
the entry `k` and the key list the name `k`. -/
theorem defineOwnProperty_nonconfigurable_reject_counterexample :
    (frozenGetterRuntime.objects[0]?).map (fun o => (o.values "x", o.values "k", o.propNames))
      = some (some (.prop 0), none, ["x"]) ∧
    (frozenGetterRuntime.props[0]?).map (fun p => p.configurable) = some false ∧
    (readDescriptor assigningHost 1 frozenGetterRuntime 1).out
      = .ret { configurable := some (.int 2) } ∧
    (defineOwnProperty assigningHost 1 frozenGetterRuntime 0 "x" 1 false).out = .ret false ∧
    ((defineOwnProperty assigningHost 1 frozenGetterRuntime 0 "x" 1 false).rt.objects[0]?).map
      (fun o => (o.values "x", o.values "k", o.propNames))
      = some (some (.prop 0), some (.val (.int 1)), ["x", "k"]) := by
  refine ⟨?_, ?_, ?_, ?_, ?_⟩ <;> decide

/-- C8 at the failing input: `x` is a non-configurable data property with value 1
and the descriptor is `{get: undefined}`.  `defineOwnProperty("x", D, false)`
returns true and the record of `x` is now an accessor without value. -/
theorem defineOwnProperty_undefined_getter_converts :
    frozenDataRuntime.objects[0]? = some (recordProto "x") ∧
    (recordProto "x").values "x" = some (.prop 0) ∧
    frozenDataRuntime.props[0]? = some { value := some (.int 1) } ∧
    readDescriptor idleHost 1 frozenDataRuntime 2
      = ⟨frozenDataRuntime, .ret { getter := some .undefined }⟩ ∧
    (defineOwnProperty idleHost 1 frozenDataRuntime 0 "x" 2 false).out = .ret true ∧
    (defineOwnProperty idleHost 1 frozenDataRuntime 0 "x" 2 false).rt.props[0]?
      = some { value := none, accessor := true } := by
  refine ⟨rfl, rfl, rfl, rfl, ?_, ?_⟩ <;> decide

/-- C9 at the failing input: `x` is a non-configurable accessor property with a
getter and the descriptor is `{writable: true}`.  `defineOwnProperty("x", D, false)`
returns true and the record of `x` is now a writable data property with value
`undefined`. -/
theorem defineOwnProperty_writable_converts_accessor :
    frozenAccessorRuntime.objects[0]? = some (recordProto "x") ∧
    (recordProto "x").values "x" = some (.prop 0) ∧
    frozenAccessorRuntime.props[0]? = some { accessor := true, getterFunc := some 2 } ∧
    readDescriptor idleHost 1 frozenAccessorRuntime 1
      = ⟨frozenAccessorRuntime, .ret { writable := some (.bool true) }⟩ ∧
    (defineOwnProperty idleHost 1 frozenAccessorRuntime 0 "x" 1 false).out = .ret true ∧
    (defineOwnProperty idleHost 1 frozenAccessorRuntime 0 "x" 1 false).rt.props[0]?
      = some { value := some .undefined, writable := true, accessor := false,
               getterFunc := some 2 } := by
  refine ⟨rfl, rfl, rfl, rfl, ?_, ?_⟩ <;> decide

/-- C10 (amended): on an extensible base object O with no own entry k, after
`defineOwnProperty(k, {value: v1, configurable: false})` has succeeded, the call
`defineOwnProperty(k, {value: v2}, throw)` returns true and `getStr(k)` then returns
v2 when v2 is SameAs v1; for any other v2 it returns false (throw = false) or raises
a TypeError (throw = true), leaves the runtime unchanged, and `getStr(k)` returns
v1. -/
theorem defineOwnProperty_redefine_value (vm : Host) (fuel : Nat) (rt rt1 : Runtime) (r : Ref)
    (o : baseObject) (k : String) (descr1 descr2 : Ref) (v1 v2 : Value) (t1 : Bool)
    (ho : rt.objects[r]? = some o) (hself : o.self = .baseObject)
    (hext : o.extensible = true) (hown : o.values k = none)
    (hd1 : readDescriptor vm fuel rt descr1
      = ⟨rt, .ret { value := some v1, configurable := some (.bool false) }⟩)
    (h1 : defineOwnProperty vm fuel rt r k descr1 t1 = ⟨rt1, .ret true⟩)
    (hd2 : readDescriptor vm fuel rt1 descr2 = ⟨rt1, .ret { value := some v2 }⟩) :
    (v2.SameAs (some v1) = true →
      ∀ throw, ∃ rt2, defineOwnProperty vm fuel rt1 r k descr2 throw = ⟨rt2, .ret true⟩ ∧
        ∀ fuel2, getStr vm (fuel2 + 1) rt2 r k = ⟨rt2, .ret (some v2)⟩) ∧
    (v2.SameAs (some v1) = false →
      defineOwnProperty vm fuel rt1 r k descr2 false = ⟨rt1, .ret false⟩ ∧
      defineOwnProperty vm fuel rt1 r k descr2 true = ⟨rt1, .typeError⟩ ∧
      ∀ fuel2, getStr vm (fuel2 + 1) rt1 r k = ⟨rt1, .ret (some v1)⟩) := by
  obtain ⟨rt0, en, hrec, hobjs, hen⟩ :=
    reconcile_fresh rt r o { value := some v1, configurable := some (.bool false) } t1 ho hext
      rfl rfl
  have ho0 : rt0.objects[r]? = some o := by rw [hobjs]; exact ho
  simp only [defineOwnProperty, mapGet, ho, _defineOwnProperty, hd1, hown, hrec, ho0, Res.bind_ret] at h1
  injection h1 with hrt1 _
  obtain ⟨pr, rfl⟩ : ∃ pr, en = .prop pr := by
    cases en with
    | prop pr => exact ⟨pr, rfl⟩
    | val v =>
      simp [Entry.record, Descriptor.freshData, Descriptor.isWritable] at hen
    | nil =>
      simp [Entry.record] at hen
  simp only [Entry.record, Descriptor.freshData, Descriptor.isWritable, Descriptor.isEnumerable,
    Descriptor.isConfigurable, Value.ToBoolean, Option.getD_some] at hen
  have hp1 : rt1.props[pr]? = some { value := some v1 } := by
    rw [← hrt1]; exact hen
  have ho1 : rt1.objects[r]? = some { o with values := mapSet o.values k (.prop pr),
                                              propNames := o.propNames ++ [k] } := by
    rw [← hrt1]; exact objects_setObj_self rt0 r o _ ho0
  have hk : mapSet o.values k (.prop pr) k = some (.prop pr) := by simp [mapSet]
  have hsetobj : ∀ x, (rt1.setProp pr x).objects[r]? = some
      { o with values := mapSet o.values k (.prop pr), propNames := o.propNames ++ [k] } :=
    fun _ => ho1
  constructor
  · intro hsame throw
    refine ⟨(rt1.setProp pr { value := some v2 }).setObj r
            { o with values := mapSet (mapSet o.values k (.prop pr)) k (.prop pr),
                     propNames := o.propNames ++ [k] }, ?_, ?_⟩
    · simp [defineOwnProperty, mapGet, ho1, _defineOwnProperty, hd2, hk, reconcile, reconcileExisting, hp1,
        redefineRejected, objectPtr, Descriptor.hasWritable, Descriptor.hasEnumerable,
        Descriptor.isConfigurable, Descriptor.isWritable, Descriptor.isEnumerable,
        hsame, mergeDescriptor, mergeRecord, mergeData,
        installGetter, installSetter, defaultValue]
    · exact fun fuel2 => getStr_own_data vm fuel2 _ r _ k v2 pr { value := some v2 }
        (objects_setObj_self _ r _ _ (hsetobj _)) hself (by simp [mapSet])
        (by simpa using props_setProp_self rt1 pr _ _ hp1) rfl rfl
  · intro hdiff
    refine ⟨?_, ?_, ?_⟩
    · simp [defineOwnProperty, mapGet, ho1, _defineOwnProperty, hd2, hk, reconcile, reconcileExisting, hp1,
        redefineRejected, objectPtr, Descriptor.hasWritable, Descriptor.hasEnumerable,
        Descriptor.isConfigurable, Descriptor.isWritable, Descriptor.isEnumerable,
        hdiff, typeErrorResult]
    · simp [defineOwnProperty, mapGet, ho1, _defineOwnProperty, hd2, hk, reconcile, reconcileExisting, hp1,
        redefineRejected, objectPtr, Descriptor.hasWritable, Descriptor.hasEnumerable,
        Descriptor.isConfigurable, Descriptor.isWritable, Descriptor.isEnumerable,
        hdiff, typeErrorResult]
    · exact fun fuel2 =>
        getStr_own_data vm fuel2 rt1 r _ k v1 pr { value := some v1 } ho1 hself hk hp1 rfl rfl

/-- C10, evaluated with v1 = 1 and v2 = 2. -/
theorem defineOwnProperty_redefine_value_witness :
    ((Value.int 2).SameAs (some (.int 1)) = true →
      ∀ throw, ∃ rt2, defineOwnProperty idleHost 1 redefinedOnce 0 "k" 2 throw
          = ⟨rt2, .ret true⟩ ∧
        ∀ fuel2, getStr idleHost (fuel2 + 1) rt2 0 "k" = ⟨rt2, .ret (some (.int 2))⟩) ∧
    ((Value.int 2).SameAs (some (.int 1)) = false →
      defineOwnProperty idleHost 1 redefinedOnce 0 "k" 2 false = ⟨redefinedOnce, .ret false⟩ ∧
      defineOwnProperty idleHost 1 redefinedOnce 0 "k" 2 true = ⟨redefinedOnce, .typeError⟩ ∧
      ∀ fuel2, getStr idleHost (fuel2 + 1) redefinedOnce 0 "k"
        = ⟨redefinedOnce, .ret (some (.int 1))⟩) :=
  defineOwnProperty_redefine_value idleHost 1 redefineRuntime redefinedOnce 0 plainObject "k" 1 2
    (.int 1) (.int 2) false rfl rfl rfl rfl rfl rfl rfl

/-- C10 as stated fails for v1 = 1, v2 = 2: the first definition succeeds, the
second returns false (raises a TypeError when throw is set) and `getStr("k")` still
returns 1. -/
theorem defineOwnProperty_redefine_value_counterexample :
    redefineRuntime.objects[0]? = some plainObject ∧
    plainObject.extensible = true ∧ plainObject.values "k" = none ∧
    (defineOwnProperty idleHost 1 redefineRuntime 0 "k" 1 false).out = .ret true ∧
    (defineOwnProperty idleHost 1
      (defineOwnProperty idleHost 1 redefineRuntime 0 "k" 1 false).rt 0 "k" 2 false).out
      = .ret false ∧
    (defineOwnProperty idleHost 1
      (defineOwnProperty idleHost 1 redefineRuntime 0 "k" 1 false).rt 0 "k" 2 true).out
      = .typeError ∧
    (getStr idleHost 1 (defineOwnProperty idleHost 1
      (defineOwnProperty idleHost 1 redefineRuntime 0 "k" 1 false).rt 0 "k" 2 false).rt 0
      "k").out = .ret (some (.int 1)) := by
  refine ⟨rfl, rfl, rfl, ?_, ?_, ?_, ?_⟩ <;> decide

/-- C11 (amended): let N be an own data property of O, a bare value or a Property
record with a value, let the reads of the fields of D leave the runtime `rt1`, in
which O is `o1`, and let them return the value and the writable, enumerable and
configurable that N has then.  Then `defineOwnProperty(N, D, throw)` returns true
and leaves N's kind, value and three flags, the key list and every other entry of
O as the reads left them; and a second application (under the same conditions)
returns true and leaves them so again. -/
theorem defineOwnProperty_same_attributes (vm : Host) (fuel : Nat) (rt rt1 : Runtime)
    (r : Ref) (o o1 : baseObject) (N : String) (descr : Ref) (e : Entry) (p : valueProperty)
    (v : Value) (throw : Bool)
    (ho : rt.objects[r]? = some o) (he : o.values N = some e)
    (hd : readDescriptor vm fuel rt descr = ⟨rt1, .ret (Descriptor.ofData p)⟩)
    (ho1 : rt1.objects[r]? = some o1) (hrec : e.record rt1 = some p)
    (hacc : p.accessor = false) (hval : p.value = some v) :
    ∃ rt2 o2 e2 p2, defineOwnProperty vm fuel rt r N descr throw = ⟨rt2, .ret true⟩ ∧
      rt2.objects[r]? = some o2 ∧ o2.propNames = o1.propNames ∧
      (∀ n, n ≠ N → o2.values n = o1.values n) ∧
      o2.values N = some e2 ∧ e2.record rt2 = some p2 ∧ SameAttributes p p2 ∧
      ∀ rt3 o3, readDescriptor vm fuel rt2 descr = ⟨rt3, .ret (Descriptor.ofData p)⟩ →
        rt3.objects[r]? = some o3 → e2.record rt3 = some p2 →
        ∃ rt4 o4 e4 p4, defineOwnProperty vm fuel rt2 r N descr throw = ⟨rt4, .ret true⟩ ∧
          rt4.objects[r]? = some o4 ∧ o4.propNames = o3.propNames ∧
          (∀ n, n ≠ N → o4.values n = o3.values n) ∧
          o4.values N = some e4 ∧ e4.record rt4 = some p4 ∧ SameAttributes p p4 := by
  obtain ⟨rt2, e2, p2, hdef, ho2, hrec2, hsame⟩ :=
    defineOwnProperty_same_step vm fuel rt rt1 r o o1 N descr e p v throw ho he hd ho1 hrec
      hacc hval
  refine ⟨rt2, _, e2, p2, hdef, ho2, rfl, fun n hn => by simp [mapSet, hn], by simp [mapSet],
    hrec2, hsame, fun rt3 o3 hd3 ho3 hrec3 => ?_⟩
  obtain ⟨ha, hv, hw, hen, hc⟩ := hsame
  have hof : Descriptor.ofData p2 = Descriptor.ofData p := by
    simp [Descriptor.ofData, hv, hw, hen, hc]
  obtain ⟨rt4, e4, p4, hdef4, ho4, hrec4, hsame4⟩ :=
    defineOwnProperty_same_step vm fuel rt2 rt3 r _ o3 N descr e2 p2 v throw ho2
      (by simp [mapSet]) (by rw [hof]; exact hd3) ho3 hrec3 (ha.trans hacc) (hv.trans hval)
  refine ⟨rt4, _, e4, p4, hdef4, ho4, rfl, fun n hn => by simp [mapSet, hn], by simp [mapSet],
    hrec4, ?_⟩
  obtain ⟨ha4, hv4, hw4, hen4, hc4⟩ := hsame4
  exact ⟨ha4.trans ha, hv4.trans hv, hw4.trans hw, hen4.trans hen, hc4.trans hc⟩

/-- C11, evaluated: `x` redefined from a descriptor that repeats its value and
flags. -/
theorem defineOwnProperty_same_attributes_witness :
    ∃ rt2 o2 e2 p2, defineOwnProperty idleHost 1 sameDescriptorRuntime 0 "x" 1 false
        = ⟨rt2, .ret true⟩ ∧
      rt2.objects[0]? = some o2 ∧ o2.propNames = (recordProto "x").propNames ∧
      (∀ n, n ≠ "x" → o2.values n = (recordProto "x").values n) ∧
      o2.values "x" = some e2 ∧ e2.record rt2 = some p2 ∧
      SameAttributes { value := some (.int 1) } p2 ∧
      ∀ rt3 o3, readDescriptor idleHost 1 rt2 1
          = ⟨rt3, .ret (Descriptor.ofData { value := some (.int 1) })⟩ →
        rt3.objects[0]? = some o3 → e2.record rt3 = some p2 →
        ∃ rt4 o4 e4 p4, defineOwnProperty idleHost 1 rt2 0 "x" 1 false = ⟨rt4, .ret true⟩ ∧
          rt4.objects[0]? = some o4 ∧ o4.propNames = o3.propNames ∧
          (∀ n, n ≠ "x" → o4.values n = o3.values n) ∧
          o4.values "x" = some e4 ∧ e4.record rt4 = some p4 ∧
          SameAttributes { value := some (.int 1) } p4 :=
  defineOwnProperty_same_attributes idleHost 1 sameDescriptorRuntime sameDescriptorRuntime 0
    (recordProto "x") (recordProto "x") "x" 1 (.prop 0) { value := some (.int 1) } (.int 1)
    false rfl rfl rfl rfl rfl rfl rfl

/-- C11 as stated fails for a descriptor whose field is read through a getter with
a side effect on O: `x = 2` is a bare value of object 0, the descriptor repeats its
value and its three flags, its `value` getter runs `o.k = 1`, and
`defineOwnProperty("x", D, false)` returns true while the key list of O has
changed from `["x"]` to `["x", "k"]`. -/
theorem defineOwnProperty_same_attributes_counterexample :
    (sameGetterRuntime.objects[0]?).map (fun o => (o.values "x", o.propNames))
      = some (some (.val (.int 2)), ["x"]) ∧
    (readDescriptor assigningHost 1 sameGetterRuntime 1).out
      = .ret (Descriptor.ofData { value := some (.int 2), writable := true,
                                  enumerable := true, configurable := true }) ∧
    (defineOwnProperty assigningHost 1 sameGetterRuntime 0 "x" 1 false).out = .ret true ∧
    ((defineOwnProperty assigningHost 1 sameGetterRuntime 0 "x" 1 false).rt.objects[0]?).map
      (fun o => (o.values "x", o.propNames))
      = some (some (.val (.int 2)), ["x", "k"]) := by
  refine ⟨?_, ?_, ?_, ?_⟩ <;> decide

/-- C13: for an object O that satisfies the key-list invariant (and whose Property
records are allocated), the iteration of `enumerate(false, false)` runs to the nil
continuation and yields as names exactly the key list restricted to the names whose
entry is a bare value or a Property record with `enumerable = true`, in key-list
order; no name is yielded twice and every item carries the entry of its name. -/
theorem enumerate_own_enumerable (rt : Runtime) (r : Ref) (o : baseObject)
    (depth fuel steps : Nat)
    (ho : rt.objects[r]? = some o) (hinv : KeyListInvariant o)
    (hrecs : ∀ n pr, o.values n = some (.prop pr) → ∃ p, rt.props[pr]? = some p)
    (hdepth : 1 ≤ depth) (hfuel : o.propNames.length < fuel)
    (hsteps : o.propNames.length < steps) :
    ∃ it items, enumerate rt r false false = some it ∧
      drain depth fuel steps rt it = .ret items ∧
      items.map (fun x => x.name)
        = o.propNames.filter (fun n => entryEnumerable rt (o.values n)) ∧
      (items.map (fun x => x.name)).Nodup ∧
      ∀ x ∈ items, x.value = o.values x.name := by
  have hraw : rawSeq { o := r, propNames := o.propNames, recursive := false, idx := 0 } [o]
      = ownItems o.values o.propNames := by simp [rawSeq]
  have hnames := ownItems_names o.values o.propNames
  have hlenraw : (ownItems o.values o.propNames).length ≤ o.propNames.length := by
    have := congrArg List.length hnames
    simp only [List.length_map] at this
    rw [this]
    exact List.length_filter_le _ _
  have hnd : ((ownItems o.values o.propNames).map (fun x => x.name)).Nodup := by
    rw [hnames]
    exact hinv.1.filter _
  have hfilter := filterItems_nodup rt false (ownItems o.values o.propNames) [] hnd
    (fun _ _ h => by cases h)
  have hdrain := drain_spec rt depth fuel steps
    { wrapped := { o := r, propNames := o.propNames, recursive := false, idx := 0 },
      all := false, seen := [] } [o] ⟨ho, by simp⟩ (by simpa using hdepth)
    (by simp only [hraw]; omega)
    (by
      simp only [hraw]
      intro x hx pr hv
      obtain ⟨_, hval, _, _⟩ := ownItems_mem _ _ x hx
      exact hrecs x.name pr (hval ▸ hv))
    (by
      simp only [hraw, hfilter]
      have := List.length_filter_le (fun x => false || itemEnumerable rt x)
        (ownItems o.values o.propNames)
      omega)
  simp only [hraw, hfilter] at hdrain
  refine ⟨_, _, by simp [enumerate, _enumerate, ho], hdrain,
    ownItems_enumerable_names rt o.values o.propNames, ?_, ?_⟩
  · rw [ownItems_enumerable_names]
    exact hinv.1.filter _
  · intro x hx
    exact (ownItems_mem _ _ x (List.mem_of_mem_filter hx)).2.1

/-- C13, evaluated on `{a, b (not enumerable), c}`. -/
theorem enumerate_own_enumerable_witness :
    ∃ it items, enumerate mixedRuntime 0 false false = some it ∧
      drain 1 4 4 mixedRuntime it = .ret items ∧
      items.map (fun x => x.name)
        = mixedObject.propNames.filter
            (fun n => entryEnumerable mixedRuntime (mixedObject.values n)) ∧
      (items.map (fun x => x.name)).Nodup ∧
      ∀ x ∈ items, x.value = mixedObject.values x.name :=
  enumerate_own_enumerable mixedRuntime 0 mixedObject 1 4 4 rfl mixedObject_invariant
    mixedObject_records (by decide) (by decide) (by decide)

/-- C14 (amended): let `os` be the finite prototype chain of O, every object of
which lists each of its own names in its key list (and whose Property records are
allocated).  Then the iteration of `enumerate(all, true)` runs to the nil
continuation; it yields no name twice; every item carries the entry of the object
nearest to O that owns its name; the items are ordered by the level of that
object, own names first; and with `all = true` every name owned on the chain is
yielded. -/
theorem enumerate_recursive_shadowing (rt : Runtime) (r : Ref) (os : List baseObject)
    (all : Bool) (depth fuel steps : Nat)
    (hch : IsChain rt r os)
    (hkeys : ∀ o ∈ os, ∀ n, o.hasOwnPropertyStr n = true → n ∈ o.propNames)
    (hrecs : RecordsAllocated rt (chainItems os))
    (hdepth : os.length ≤ depth) (hfuel : (chainItems os).length < fuel)
    (hsteps : (chainItems os).length < steps) :
    ∃ it items, enumerate rt r all true = some it ∧
      drain depth fuel steps rt it = .ret items ∧
      (items.map (fun x => x.name)).Nodup ∧
      (∀ x ∈ items, ∃ o, os[ownerLevel os x.name]? = some o ∧ x.value = o.values x.name ∧
        x.value.isSome = true) ∧
      items.Pairwise (fun x y => ownerLevel os x.name ≤ ownerLevel os y.name) ∧
      (all = true → ∀ o ∈ os, ∀ n, o.hasOwnPropertyStr n = true →
        n ∈ items.map (fun x => x.name)) := by
  cases os with
  | nil => exact absurd hch (by simp [IsChain, Levels])
  | cons o rest =>
    have ho : rt.objects[r]? = some o := hch.1
    have hraw := rawSeq_enumerate o rest r true
    simp only [if_true] at hraw
    have hchain : ownItems o.values o.propNames ++ chainItems rest = chainItems (o :: rest) := rfl
    rw [hchain] at hraw
    have hdrain := drain_spec rt depth fuel steps
      { wrapped := { o := r, propNames := o.propNames, recursive := true, idx := 0 },
        all := all, seen := [] } (o :: rest) hch hdepth
      (by simp only [hraw]; exact hfuel) (by simp only [hraw]; exact hrecs)
      (by
        simp only [hraw]
        exact Nat.lt_of_le_of_lt (filterItems_length_le rt all _ []) hsteps)
    simp only [hraw] at hdrain
    obtain ⟨hB, hP⟩ := filterItems_chain rt all (o :: rest) hkeys []
    refine ⟨_, _, by simp [enumerate, _enumerate, ho], hdrain,
      filterItems_names_nodup rt all _ [], hB, hP, fun hall o' ho' n hn => ?_⟩
    subst hall
    exact filterItems_all_complete rt _ [] n
      (chainItems_names _ o' n ho' (hkeys o' ho' n hn) hn) (by simp)

/-- C14, evaluated on `{x: 1}` inheriting from `{x: 2, y: 3}`. -/
theorem enumerate_recursive_shadowing_witness :
    ∃ it items, enumerate shadowRuntime 0 true true = some it ∧
      drain 2 4 4 shadowRuntime it = .ret items ∧
      (items.map (fun x => x.name)).Nodup ∧
      (∀ x ∈ items, ∃ o, [shadowChild, shadowParent][ownerLevel [shadowChild, shadowParent]
          x.name]? = some o ∧ x.value = o.values x.name ∧ x.value.isSome = true) ∧
      items.Pairwise (fun x y => ownerLevel [shadowChild, shadowParent] x.name
        ≤ ownerLevel [shadowChild, shadowParent] y.name) ∧
      (true = true → ∀ o ∈ [shadowChild, shadowParent], ∀ n, o.hasOwnPropertyStr n = true →
        n ∈ items.map (fun x => x.name)) :=
  enumerate_recursive_shadowing shadowRuntime 0 [shadowChild, shadowParent] true 2 4 4
    ⟨rfl, rfl, rfl⟩ shadowRuntime_keys shadowRuntime_records (by decide) (by decide) (by decide)

/-- C14 as stated fails when an object of the chain owns a name that its key list
does not hold, as a script function object does after `funcObject.init`: the chain
0 → 1 → 2 is finite, the function object 1 owns `name` (record 0), and the
enumeration from object 0 yields `name` with the entry of object 2. -/
theorem enumerate_recursive_shadowing_counterexample :
    (functionInChainRuntime.objects.map fun o => o.prototype) = [some 1, some 2, none] ∧
    (functionInChainRuntime.objects[1]?).map (fun o => (o.values "name", o.propNames))
      = some (some (.prop 0), []) ∧
    (functionInChainRuntime.objects[2]?).map (fun o => o.values "name")
      = some (some (.val (.string "p"))) ∧
    (enumerate functionInChainRuntime 0 true true).map (drain 3 3 3 functionInChainRuntime)
      = some (.ret [{ name := "name", value := some (.val (.string "p")) }]) := by
  refine ⟨?_, ?_, ?_, ?_⟩ <;> decide

/-- C15: let the read of `prototype` on the function object F return the object P,
and let `chain` be the objects reached from V by following the prototype link one
or more times, a finite chain of at most `n` links, in the runtime the read leaves.
Then `_hasInstance(V)` returns, for every number of steps of at least `n`, and the
result is true exactly when P is one of the objects of `chain`; for a V that is not
an object it returns false. -/
theorem hasInstance_iff_on_chain (vm : Host) (fuel n : Nat) (rt rt1 : Runtime) (f P v : Ref)
    (chain : List Ref)
    (hproto : getStr vm fuel rt f "prototype" = ⟨rt1, .ret (some (.object P))⟩)
    (hchain : ancestors n rt1 v = some chain) :
    (∀ steps, n ≤ steps →
      _hasInstance vm fuel steps rt f (.object v) = ⟨rt1, .ret (decide (P ∈ chain))⟩) ∧
    (∀ steps V, (∀ x, V ≠ .object x) → V ≠ .nilObject →
      _hasInstance vm fuel steps rt f V = ⟨rt, .ret false⟩) := by
  constructor
  · intro steps hsteps
    simp only [_hasInstance, hproto, Res.bind_ret]
    rw [instanceWalk_ancestors rt1 P n v chain hchain steps hsteps]
  · intro steps V hobj hnil
    cases V <;> simp_all [_hasInstance]

/-- C15, evaluated: object 3 inherits from object 2, which inherits from the
`prototype` object 0 of the function object 1. -/
theorem hasInstance_iff_on_chain_witness :
    (∀ steps, 3 ≤ steps →
      _hasInstance idleHost 1 steps instanceRuntime 1 (.object 3)
        = ⟨instanceRuntime, .ret (decide (0 ∈ [2, 0]))⟩) ∧
    (∀ steps V, (∀ x, V ≠ .object x) → V ≠ .nilObject →
      _hasInstance idleHost 1 steps instanceRuntime 1 V = ⟨instanceRuntime, .ret false⟩) :=
  hasInstance_iff_on_chain idleHost 1 3 instanceRuntime instanceRuntime 1 0 3 [2, 0] rfl rfl

/-- C16 (amended): in a runtime whose prototype chains are acyclic (and whose
intrinsic `ObjectPrototype` is allocated), with a host whose setters keep them
acyclic, the chains are acyclic after `putStr(name, value, throw)` on the object at
`r` exactly when the call does not close a cycle: it is not the write of the name
`__proto__`, absent from the mapping of the extensible receiver, with an object
value that is the receiver or has the receiver on its prototype chain. -/
theorem putStr_keeps_acyclic (vm : Host) (fuel : Nat) (rt : Runtime) (r : Ref) (name : String)
    (val : Option Value) (throw : Bool)
    (hac : AcyclicPrototypes rt)
    (hop : ∀ q, rt.ObjectPrototype = some q → q < rt.objects.length)
    (hvm : ∀ f recv args rt', AcyclicPrototypes rt' →
      AcyclicPrototypes (vm.call f recv args rt').rt) :
    AcyclicPrototypes (putStr vm fuel rt r name val throw).rt ↔
      ¬ ClosesCycle rt r name val := by
  have hext : ∀ rt', ExtendsLinks rt rt' → AcyclicPrototypes rt' :=
    fun rt' h => acyclic_of_extendsLinks h hop hac
  constructor
  · rintro hres ⟨o, p, ho, hname, hv, hextn, hval, hcl⟩
    subst hname hval
    have hrun : putStr vm fuel rt r "__proto__" (some (.object p)) throw
        = ⟨rt.setObj r { o with prototype := some p }, .ret ()⟩ := by
      simp [putStr, ho, hv, hextn]
    rw [hrun] at hres
    exact not_acyclic_setProto rt r p o ho hcl hres
  · intro hlink
    unfold putStr
    cases ho : rt.objects[r]? with
    | none => exact hac
    | some o =>
      simp only []
      cases hv : o.values name with
      | some e =>
        cases e with
        | val v0 => exact hext _ (extendsLinks_setObj rt r o _ ho (fun p hp => hp))
        | nil => exact hext _ (extendsLinks_setObj rt r o _ ho (fun p hp => hp))
        | prop pr =>
          simp only []
          cases rt.props[pr]? with
          | none => exact hac
          | some prop =>
            simp only []
            split_ifs
            · exact hext _ (extendsLinks_typeErrorResult rt throw)
            · exact acyclic_set vm rt pr prop _ val hvm hac
      | none =>
        simp only []
        by_cases hname : name = "__proto__"
        · simp only [hname, if_true]
          split_ifs with h1 h2
          · exact hext _ (extendsLinks_typeErrorResult rt throw)
          · exact hext _ (extendsLinks_setObj rt r o _ ho (fun p hp => by simp at hp))
          · have hextn : o.extensible = true := by simpa using h1
            cases val with
            | none => exact hac
            | some v =>
              cases v with
              | object p =>
                simp only []
                by_cases hp : p < rt.objects.length
                · refine acyclic_setProto rt r p o hac ho hp (fun hr => hlink ?_)
                  exact ⟨o, p, ho, hname, hv, hextn, rfl, fun _ => hr⟩
                · exact absurd ⟨o, p, ho, hname, hv, hextn, rfl, fun h => absurd h hp⟩ hlink
              | nilObject =>
                exact hext _ (extendsLinks_setObj rt r o _ ho (fun p hp => by simp at hp))
              | undefined => exact hac
              | null => exact hac
              | bool b => exact hac
              | int n => exact hac
              | string s => exact hac
        · simp only [hname, if_false]
          have hlook : ExtendsLinks rt (protoLookup fuel rt o name).rt := by
            unfold protoLookup
            cases o.prototype with
            | none => exact ExtendsLinks.refl rt
            | some proto => exact extendsLinks_getPropStr fuel rt proto name
          generalize protoLookup fuel rt o name = res at hlook ⊢
          rcases res with ⟨rt1, out⟩
          cases out with
          | typeError => exact hext _ hlook
          | outOfFuel => exact hext _ hlook
          | invalidRef => exact hext _ hlook
          | ret pprop =>
            simp only [Res.bind_ret]
            have hnew : AcyclicPrototypes (putNew rt1 r name val).rt :=
              hext _ (hlook.trans (extendsLinks_putNew rt1 r name val))
            have herr : AcyclicPrototypes (typeErrorResult rt1 throw).rt :=
              hext _ (hlook.trans (extendsLinks_typeErrorResult rt1 throw))
            have hbare : AcyclicPrototypes (match rt1.objects[r]? with
                | none => (⟨rt1, .invalidRef⟩ : Res Unit)
                | some o1 =>
                  if (!o1.extensible) = true then typeErrorResult rt1 throw
                  else putNew rt1 r name val).rt := by
              cases rt1.objects[r]? with
              | none => exact hext _ hlook
              | some o1 =>
                simp only []
                split_ifs
                · exact herr
                · exact hnew
            cases pprop with
            | none => exact hbare
            | some e =>
              cases e with
              | val v0 => exact hnew
              | nil => exact hbare
              | prop pr =>
                simp only []
                cases rt1.props[pr]? with
                | none => exact hext _ hlook
                | some prop =>
                  simp only []
                  split_ifs
                  · exact herr
                  · exact acyclic_set vm rt1 pr prop _ val hvm (hext _ hlook)
                  · exact hnew

/-- C16, evaluated: `a.__proto__ = b` on two unrelated objects of an acyclic
runtime stores the link, does not close a cycle, and leaves the chains acyclic. -/
theorem putStr_keeps_acyclic_witness :
    (AcyclicPrototypes (putStr idleHost 1 pairRuntime 0 "__proto__" (some (.object 1)) false).rt ↔
      ¬ ClosesCycle pairRuntime 0 "__proto__" (some (.object 1))) ∧
    ((putStr idleHost 1 pairRuntime 0 "__proto__" (some (.object 1)) false).rt.objects[0]?).map
      (fun o => o.prototype) = some (some 1) ∧
    ¬ ClosesCycle pairRuntime 0 "__proto__" (some (.object 1)) := by
  refine ⟨putStr_keeps_acyclic idleHost 1 pairRuntime 0 "__proto__" (some (.object 1)) false
      pairRuntime_acyclic (fun q hq => by simp [pairRuntime] at hq) (fun _ _ _ _ h => h),
    by decide, ?_⟩
  rintro ⟨o, p, _, _, _, _, hval, hcl⟩
  have hp : p = 1 := by
    simp only [Option.some.injEq, Value.object.injEq] at hval
    exact hval.symm
  subst hp
  have hreach := hcl (by decide)
  cases hreach with
  | step a b c o1 ho1 hp1 _ =>
    simp only [pairRuntime, List.getElem?_cons_succ, List.getElem?_cons_zero,
      Option.some.injEq] at ho1
    subst ho1
    simp [plainObject] at hp1

/-- C16 as stated fails for the write of `__proto__` with an object value: the
runtime with one object without prototype is acyclic, and after
`putStr("__proto__", o, false)` on that object `o` it is its own prototype. -/
theorem putStr_proto_cycle_counterexample :
    AcyclicPrototypes plainRuntime ∧
    ((putStr idleHost 1 plainRuntime 0 "__proto__" (some (.object 0)) false).rt.objects[0]?).map
      (fun o => o.prototype) = some (some 0) ∧
    ¬ AcyclicPrototypes (putStr idleHost 1 plainRuntime 0 "__proto__" (some (.object 0)) false).rt := by
  refine ⟨plainRuntime_acyclic, by decide, ?_⟩
  rintro ⟨rank, hrank⟩
  have := (hrank 0 { plainObject with prototype := some 0 } 0 rfl rfl).2
  exact Nat.lt_irrefl _ this

/-- C17 (amended): `hasOwnPropertyStr(N)` is true exactly when `getOwnProp(N)`
returns an entry, for every object and every name that has an own entry other
than nil or is neither `__proto` nor, on a script function object, `prototype`; and
`hasPropertyStr(N)` returns true exactly when `getPropStr(N)` returns an entry,
false exactly when it returns none, and leaves the same runtime. -/
theorem hasOwnPropertyStr_iff_getOwnProp (o : baseObject) (N : String)
    (hquirk : ¬ (N = "__proto" ∧ mapGet o.values N = none))
    (hlazy : ¬ (o.self = .funcObject ∧ N = "prototype" ∧ mapGet o.values N = none)) :
    (hasOwnPropertyStr o N = true ↔ (o.getOwnProp N).isSome = true) ∧
    ∀ fuel rt r,
      ((hasPropertyStr fuel rt r N).out = .ret true ↔
        ∃ e, (getPropStr fuel rt r N).out = .ret (some e)) ∧
      ((hasPropertyStr fuel rt r N).out = .ret false ↔
        (getPropStr fuel rt r N).out = .ret none) ∧
      (hasPropertyStr fuel rt r N).rt = (getPropStr fuel rt r N).rt := by
  constructor
  · cases hv : mapGet o.values N with
    | some e =>
      cases hs : o.self <;>
        simp [hasOwnPropertyStr, funcObject.hasOwnPropertyStr, baseObject.hasOwnPropertyStr,
          baseObject.getOwnProp, hv, hs]
    | none =>
      have h1 : N ≠ "__proto" := fun h => hquirk ⟨h, hv⟩
      cases hs : o.self with
      | funcObject =>
        have h2 : N ≠ "prototype" := fun h => hlazy ⟨hs, h, hv⟩
        simp [hasOwnPropertyStr, funcObject.hasOwnPropertyStr, baseObject.hasOwnPropertyStr,
          baseObject.getOwnProp, hv, hs, h1, h2]
      | _ =>
        simp [hasOwnPropertyStr, baseObject.hasOwnPropertyStr, baseObject.getOwnProp, hv, hs,
          h1]
  · intro fuel rt r
    unfold hasPropertyStr
    generalize getPropStr fuel rt r N = res
    rcases res with ⟨rt1, out⟩
    cases out with
    | ret e => cases e <;> simp
    | typeError => simp
    | outOfFuel => simp
    | invalidRef => simp

/-- C17, evaluated on a script function object and the name `length`. -/
theorem hasOwnPropertyStr_iff_getOwnProp_witness :
    (hasOwnPropertyStr bareFunction "length" = true ↔
      (bareFunction.getOwnProp "length").isSome = true) ∧
    ∀ fuel rt r,
      ((hasPropertyStr fuel rt r "length").out = .ret true ↔
        ∃ e, (getPropStr fuel rt r "length").out = .ret (some e)) ∧
      ((hasPropertyStr fuel rt r "length").out = .ret false ↔
        (getPropStr fuel rt r "length").out = .ret none) ∧
      (hasPropertyStr fuel rt r "length").rt = (getPropStr fuel rt r "length").rt :=
  hasOwnPropertyStr_iff_getOwnProp bareFunction "length" (by decide) (by decide)

/-- C17 as stated fails twice: on an object without entries whose prototype is
object 0, `getOwnProp` returns an entry for `__proto` (the prototype link) while
`hasOwnPropertyStr` is false; on a script function object without entries `hasOwnPropertyStr` is true for
`prototype` while `getOwnProp` returns nothing. -/
theorem hasOwnPropertyStr_iff_getOwnProp_counterexample :
    (hasOwnPropertyStr (childOf 0) "__proto" = false ∧
      (childOf 0).getOwnProp "__proto" = some (.val (.object 0))) ∧
    (hasOwnPropertyStr bareFunction "prototype" = true ∧
      bareFunction.getOwnProp "prototype" = none) := by
  decide

/-- C18: for every script function object f without an own "prototype" entry, the
first getPropStr("prototype") returns a data Property record (writable, not
enumerable, not configurable) whose value is an object P at an address that was
not allocated before; P is an ordinary object owning a "constructor" record
(writable, not enumerable, configurable) with value f; afterwards "prototype" is
in the mapping of f and is the last name of its key list, and every later
getPropStr("prototype") returns the same record and getStr the same P, without
changing the runtime again. -/
theorem getPropStr_lazy_prototype (vm : Host) (fuel : Nat) (rt : Runtime) (f : Ref)
    (o : baseObject) (ho : rt.objects[f]? = some o) (hself : o.self = .funcObject)
    (hown : o.values "prototype" = none) :
    ∃ rt2 pr P oP c o2,
      getPropStr (fuel + 1) rt f "prototype" = ⟨rt2, .ret (some (.prop pr))⟩ ∧
      rt2.props[pr]? = some { value := some (.object P), writable := true,
                              enumerable := false, configurable := false } ∧
      rt.objects[P]? = none ∧
      rt2.objects[P]? = some oP ∧ oP.self = .baseObject ∧ oP.class_ = "Object" ∧
      oP.values "constructor" = some (.prop c) ∧
      rt2.props[c]? = some { value := some (.object f), writable := true,
                             enumerable := false, configurable := true } ∧
      rt2.objects[f]? = some o2 ∧ o2.values "prototype" = some (.prop pr) ∧
      o2.propNames = o.propNames ++ ["prototype"] ∧
      (∀ fuel2, getPropStr (fuel2 + 1) rt2 f "prototype" = ⟨rt2, .ret (some (.prop pr))⟩) ∧
      (∀ fuel2, getStr vm (fuel2 + 1) rt2 f "prototype" = ⟨rt2, .ret (some (.object P))⟩) := by
  obtain ⟨hout, hpr, hc, hP, hf⟩ := addPrototype_spec rt f o ho
  have hadd : addPrototype rt f
      = ⟨(addPrototype rt f).rt, .ret (.prop (rt.props.length + 1))⟩ := by
    rw [← hout]
  have hv2 : (o._put "prototype" (.prop (rt.props.length + 1))).values "prototype"
      = some (.prop (rt.props.length + 1)) := by
    simp [baseObject._put, mapSet]
  have hs2 : (o._put "prototype" (.prop (rt.props.length + 1))).self = .funcObject := by
    simp [baseObject._put, hself]
  have hlater : ∀ fuel2, getPropStr (fuel2 + 1) (addPrototype rt f).rt f "prototype"
      = ⟨(addPrototype rt f).rt, .ret (some (.prop (rt.props.length + 1)))⟩ := by
    intro fuel2
    simp [getPropStr, hf, hv2, hs2, baseObject.getOwnProp, mapGet]
  refine ⟨(addPrototype rt f).rt, rt.props.length + 1, rt.objects.length, _, rt.props.length,
    _, ?_, hpr, ?_, hP, rfl, rfl, ?_, hc, hf, hv2, ?_, hlater, ?_⟩
  · simp only [getPropStr, ho, hself, hown, true_and, and_self, if_true]
    rw [hadd]
    rfl
  · simp
  · simp [mapSet]
  · simp [baseObject._put, hown]
  · intro fuel2
    simp [getStr, hlater fuel2, hpr, valueProperty.get]

/-- C18 at the function object of `bareFunctionRuntime`. -/
theorem getPropStr_lazy_prototype_witness :
    bareFunctionRuntime.objects[0]? = some bareFunction ∧
    bareFunction.self = .funcObject ∧ bareFunction.values "prototype" = none ∧
    ∃ rt2 pr P oP c o2,
      getPropStr 1 bareFunctionRuntime 0 "prototype" = ⟨rt2, .ret (some (.prop pr))⟩ ∧
      rt2.props[pr]? = some { value := some (.object P), writable := true,
                              enumerable := false, configurable := false } ∧
      bareFunctionRuntime.objects[P]? = none ∧
      rt2.objects[P]? = some oP ∧ oP.self = .baseObject ∧ oP.class_ = "Object" ∧
      oP.values "constructor" = some (.prop c) ∧
      rt2.props[c]? = some { value := some (.object 0), writable := true,
                             enumerable := false, configurable := true } ∧
      rt2.objects[0]? = some o2 ∧ o2.values "prototype" = some (.prop pr) ∧
      o2.propNames = bareFunction.propNames ++ ["prototype"] ∧
      (∀ fuel2, getPropStr (fuel2 + 1) rt2 0 "prototype" = ⟨rt2, .ret (some (.prop pr))⟩) ∧
      (∀ fuel2, getStr idleHost (fuel2 + 1) rt2 0 "prototype"
        = ⟨rt2, .ret (some (.object P))⟩) :=
  ⟨rfl, rfl, rfl, getPropStr_lazy_prototype idleHost 0 bareFunctionRuntime 0 bareFunction
    rfl rfl rfl⟩

/-- C12, failing input: object 0 of `getterDescriptorRuntime` is a fresh base
object (empty mapping, empty key list).  `defineOwnProperty("k", D)` with a
descriptor D whose `value` getter runs `o.k = 1` returns true and leaves the key
list `["k", "k"]`: the entry read before the descriptor probes was nil, so the key
is appended although the nested putStr has appended it already.  The key-list
invariant fails (a name occurs twice), and after `deleteStr("k")` the key list
names `k` while the mapping has no entry for it.  With a host that does not write
to the object the same call leaves the key list `["k"]`. -/
theorem defineOwnProperty_duplicates_key :
    getterDescriptorRuntime.objects[0]? = some plainObject ∧
    KeyListInvariant plainObject ∧
    (defineOwnProperty assigningHost 1 getterDescriptorRuntime 0 "k" 1 false).out
      = .ret true ∧
    (∃ o, definedDuringRead.objects[0]? = some o ∧ o.propNames = ["k", "k"] ∧
      o.values "k" = some (.prop 1) ∧ ¬ KeyListInvariant o) ∧
    (deleteStr idleHost 1 definedDuringRead 0 "k" false).out = .ret true ∧
    (∃ o, deletedAfterwards.objects[0]? = some o ∧ o.propNames = ["k"] ∧
      o.values "k" = none ∧ ¬ KeyListInvariant o) ∧
    ((defineOwnProperty idleHost 1 getterDescriptorRuntime 0 "k" 1 false).rt.objects[0]?).map
      baseObject.propNames = some ["k"] := by
  have h1 : (definedDuringRead.objects[0]?).map (fun o => (o.propNames, o.values "k"))
      = some (["k", "k"], some (.prop 1)) := by decide
  have h2 : (deletedAfterwards.objects[0]?).map (fun o => (o.propNames, o.values "k"))
      = some (["k"], none) := by decide
  refine ⟨rfl, ⟨by decide, fun n => by simp [plainObject, emptyValues]⟩, by decide, ?_,
    by decide, ?_, by decide⟩
  · cases ho : definedDuringRead.objects[0]? with
    | none => simp [ho] at h1
    | some o =>
      simp only [ho, Option.map_some', Option.some.injEq, Prod.mk.injEq] at h1
      refine ⟨o, rfl, h1.1, h1.2, fun hinv => ?_⟩
      have hnd := hinv.1
      rw [h1.1] at hnd
      exact absurd hnd (by decide)
  · cases ho : deletedAfterwards.objects[0]? with
    | none => simp [ho] at h2
    | some o =>
      simp only [ho, Option.map_some', Option.some.injEq, Prod.mk.injEq] at h2
      refine ⟨o, rfl, h2.1, h2.2, fun hinv => ?_⟩
      have hk := (hinv.2 "k").mp (by rw [h2.1]; simp)
      rw [h2.2] at hk
      simp at hk

/-- C19, failing input: `init("f", 2)` on a script function object and on a native
function object.  Both store the records `name` (value "f") and `length` (value 2),
configurable, not writable, not enumerable, in the mapping.  The native function
goes through `_put` and its key list is `["name", "length"]`; the script function
assigns to the mapping directly and its key list stays empty, so the key-list
invariant fails for it and `enumerate(true, false)` yields nothing, while it
yields `name` and `length` for the native function. -/
theorem funcObject_init_skips_key_list :
    (funcObject.init functionPairRuntime 0 "f" 2).out = .ret () ∧
    (nativeFuncObject.init functionPairRuntime 1 "f" 2).out = .ret () ∧
    (scriptInitialised.objects[0]?).map
      (fun o => (o.values "name", o.values "length", o.propNames))
      = some (some (.prop 0), some (.prop 1), []) ∧
    (nativeInitialised.objects[1]?).map
      (fun o => (o.values "name", o.values "length", o.propNames))
      = some (some (.prop 0), some (.prop 1), ["name", "length"]) ∧
    scriptInitialised.props = [{ value := some (.string "f"), configurable := true },
                               { value := some (.int 2), configurable := true }] ∧
    nativeInitialised.props = scriptInitialised.props ∧
    (∀ o, scriptInitialised.objects[0]? = some o → ¬ KeyListInvariant o) ∧
    (enumerate scriptInitialised 0 true false).map (drain 1 3 3 scriptInitialised)
      = some (.ret []) ∧
    (enumerate nativeInitialised 1 true false).map (drain 1 3 3 nativeInitialised)
      = some (.ret [{ name := "name", value := some (.prop 0) },
                    { name := "length", value := some (.prop 1) }]) := by
  have h1 : (scriptInitialised.objects[0]?).map
      (fun o => (o.values "name", o.values "length", o.propNames))
      = some (some (.prop 0), some (.prop 1), []) := by decide
  refine ⟨by decide, by decide, h1, by decide, by decide, by decide, ?_, by decide, by decide⟩
  intro o ho hinv
  simp only [ho, Option.map_some', Option.some.injEq, Prod.mk.injEq] at h1
  have hk := (hinv.2 "name").mpr (by rw [h1.1]; rfl)
  rw [h1.2.2] at hk
  simp at hk

/-- C20: take the iterator that `_enumerate(false)`, or `enumerate(all, false)`,
creates on an object O, and let a caller take one item in each runtime of a trace
in which O stays allocated (the program may have run putStr and deleteStr on O, or
anything else, between two steps).  Then the run returns, the yielded names form a
subsequence of the key list O had at creation (so they come in snapshot order and
a name added later is never yielded), each item carries the entry O's mapping
holds for its name in the runtime of its step (so a name without entry at that
moment is skipped), there are at most as many items as names in the snapshot, and
the iterator has ended when the trace is longer than the snapshot.  For the
unfiltered iterator, once it has ended every snapshot name that kept an entry
throughout the steps taken has been yielded. -/
theorem enumerate_snapshot_consistency (rt0 : Runtime) (r : Ref) (o0 : baseObject)
    (rts : List Runtime) (all : Bool) (depth fuel : Nat)
    (ho : rt0.objects[r]? = some o0)
    (halloc : allocatedThroughout r rts = true)
    (hrecords : all = false → recordsThroughout r o0.propNames rts = true)
    (hfuel : o0.propNames.length < fuel) :
    (∃ i items e, _enumerate rt0 r false = some i ∧
      stepThrough (depth + 1) rts i = .ret (items, e) ∧
      SnapshotConsistent r o0.propNames rts items e.isNone ∧
      (e = none → ∀ n ∈ o0.propNames,
        (∀ rt ∈ rts.take (items.length + 1), (entryAt rt r n).isSome = true) →
        n ∈ items.map (·.name))) ∧
    (∃ i items e, enumerate rt0 r all false = some i ∧
      filterThrough (depth + 1) fuel rts i = .ret (items, e) ∧
      SnapshotConsistent r o0.propNames rts items e.isNone) := by
  constructor
  · obtain ⟨items, e, h1, h2, h3⟩ := stepThrough_spec r depth rts
      { o := r, propNames := o0.propNames, recursive := false, idx := 0 } rfl rfl halloc
    exact ⟨_, items, e, by simp [_enumerate, ho], h1, by simpa using h2, by simpa using h3⟩
  · obtain ⟨items, e, h1, h2⟩ := filterThrough_spec r depth fuel rts
      { wrapped := { o := r, propNames := o0.propNames, recursive := false, idx := 0 },
        all := all, seen := [] } rfl rfl halloc hrecords (by simpa using hfuel)
    exact ⟨_, items, e, by simp [enumerate, _enumerate, ho], h1, by simpa using h2⟩

/-- C20 on `{a: 1, b: 2, c: 3}` with `delete o.b` before the first step and
`o.d = 4` before the second. -/
theorem enumerate_snapshot_consistency_witness :
    threeKeyRuntime.objects[0]? = some threeKeyObject ∧
    allocatedThroughout 0 mutationTrace = true ∧
    (false = false → recordsThroughout 0 threeKeyObject.propNames mutationTrace = true) ∧
    threeKeyObject.propNames.length < 4 ∧
    ((∃ i items e, _enumerate threeKeyRuntime 0 false = some i ∧
      stepThrough (0 + 1) mutationTrace i = .ret (items, e) ∧
      SnapshotConsistent 0 threeKeyObject.propNames mutationTrace items e.isNone ∧
      (e = none → ∀ n ∈ threeKeyObject.propNames,
        (∀ rt ∈ mutationTrace.take (items.length + 1), (entryAt rt 0 n).isSome = true) →
        n ∈ items.map (·.name))) ∧
    (∃ i items e, enumerate threeKeyRuntime 0 false false = some i ∧
      filterThrough (0 + 1) 4 mutationTrace i = .ret (items, e) ∧
      SnapshotConsistent 0 threeKeyObject.propNames mutationTrace items e.isNone)) :=
  ⟨rfl, by decide, fun _ => by decide, by decide,
    enumerate_snapshot_consistency threeKeyRuntime 0 threeKeyObject mutationTrace false 0 4
      rfl (by decide) (fun _ => by decide) (by decide)⟩

/-- C21 (amended): let O own N as a Property record with `enumerable = false`, list
N in its key list, and have a finite prototype chain (whose Property records are
allocated), whatever entries for N the objects farther up the chain hold.  Then the
iteration of `enumerate(false, true)` runs to the nil continuation and N is not
among the names it yields. -/
theorem enumerate_nonenumerable_hides (rt : Runtime) (r : Ref) (o : baseObject)
    (rest : List baseObject) (N : String) (pr : PropRef) (p : valueProperty)
    (depth fuel steps : Nat)
    (hch : IsChain rt r (o :: rest))
    (hN : N ∈ o.propNames) (hv : o.values N = some (.prop pr))
    (hp : rt.props[pr]? = some p) (hen : p.enumerable = false)
    (hrecs : RecordsAllocated rt (chainItems (o :: rest)))
    (hdepth : (o :: rest).length ≤ depth) (hfuel : (chainItems (o :: rest)).length < fuel)
    (hsteps : (chainItems (o :: rest)).length < steps) :
    ∃ it items, enumerate rt r false true = some it ∧
      drain depth fuel steps rt it = .ret items ∧
      N ∉ items.map (fun x => x.name) := by
  have ho : rt.objects[r]? = some o := hch.1
  have hraw := rawSeq_enumerate o rest r true
  simp only [if_true] at hraw
  have hchain : ownItems o.values o.propNames ++ chainItems rest = chainItems (o :: rest) := rfl
  rw [hchain] at hraw
  have hdrain := drain_spec rt depth fuel steps
    { wrapped := { o := r, propNames := o.propNames, recursive := true, idx := 0 },
      all := false, seen := [] } (o :: rest) hch hdepth
    (by simp only [hraw]; exact hfuel) (by simp only [hraw]; exact hrecs)
    (by
      simp only [hraw]
      exact Nat.lt_of_le_of_lt (filterItems_length_le rt false _ []) hsteps)
  simp only [hraw] at hdrain
  exact ⟨_, _, by simp [enumerate, _enumerate, ho], hdrain,
    filterItems_hidden rt o rest N pr p hN hv hp hen⟩

/-- C21, evaluated: object 0 owns the non-enumerable record `x` and inherits from
`{x: 2, y: 3}`. -/
theorem enumerate_nonenumerable_hides_witness :
    ∃ it items, enumerate hiddenRuntime 0 false true = some it ∧
      drain 2 4 4 hiddenRuntime it = .ret items ∧
      "x" ∉ items.map (fun x => x.name) :=
  enumerate_nonenumerable_hides hiddenRuntime 0 hiddenOwner [shadowParent] "x" 0
    { value := some (.int 1) } 2 4 4 ⟨rfl, rfl, rfl⟩ (by decide) rfl rfl rfl
    hiddenRuntime_records (by decide) (by decide) (by decide)

/-- C21 as stated fails when O owns N without listing it in its key list, since the
iterator walks the key list and never meets the own record.  Such an O is a script
function object after `funcObject.init`: object 1 owns the non-enumerable record
`name`, its prototype holds the enumerable `name`, and the enumeration yields
`name`.  It is also an ordinary object redefined by `defineOwnProperty` from a
descriptor whose `enumerable` getter deletes the property: object 0 ends up owning
the non-enumerable record `k` with an empty key list, and the enumeration yields
the `k` of its prototype. -/
theorem enumerate_nonenumerable_hides_counterexample :
    ((functionInChainRuntime.objects[1]?).map
        (fun o => (o.values "name", o.propNames, o.prototype))
      = some (some (.prop 0), [], some 2) ∧
    (functionInChainRuntime.props[0]?).map (fun p => (p.accessor, p.enumerable))
      = some (false, false) ∧
    (functionInChainRuntime.objects[2]?).map (fun o => (o.values "name", o.propNames))
      = some (some (.val (.string "p")), ["name"]) ∧
    (enumerate functionInChainRuntime 1 false true).map (drain 2 3 3 functionInChainRuntime)
      = some (.ret [{ name := "name", value := some (.val (.string "p")) }])) ∧
    ((deletingDescriptorRuntime.objects[0]?).map
        (fun o => (o.self, o.values "k", o.propNames, o.prototype))
      = some (.baseObject, some (.val (.int 1)), ["k"], some 3) ∧
    (defineOwnProperty deletingHost 1 deletingDescriptorRuntime 0 "k" 1 false).out
      = .ret true ∧
    (redefinedDuringDelete.objects[0]?).map
        (fun o => (o.self, o.values "k", o.propNames, o.prototype))
      = some (.baseObject, some (.prop 1), [], some 3) ∧
    (redefinedDuringDelete.props[1]?).map (fun p => (p.accessor, p.enumerable))
      = some (false, false) ∧
    (redefinedDuringDelete.objects[3]?).map (fun o => (o.values "k", o.propNames))
      = some (some (.val (.int 2)), ["k"]) ∧
    (enumerate redefinedDuringDelete 0 false true).map (drain 2 3 3 redefinedDuringDelete)
      = some (.ret [{ name := "k", value := some (.val (.int 2)) }])) := by
  refine ⟨⟨?_, ?_, ?_, ?_⟩, ⟨?_, ?_, ?_, ?_, ?_, ?_⟩⟩ <;> decide

end Goja
